import Mathlib

/-!
# Verification development for `proxy.c` (caching HTTP/1.0 proxy)

Shallow embedding of the object cache (`cache_init`, `lru_detach`,
`lru_insert_head`, `cache_lookup`, `cache_get`, `cache_del_until_enough`,
`cache_put`), of the request parser `parse_uri`, and of the connection
handler `handle_client`.

Conventions.
* A C string is the list of its characters before the terminating NUL.
* `size_t` is the 64-bit unsigned type: additions and subtractions on it are
  taken modulo `2 ^ 64`.
* The doubly linked recency chain `head -> next -> ... -> tail` is the list of
  its nodes, most recently used first: `head` is the first node, `tail` the
  last one, and a node pointer is the position of the node in the chain.
* A second embedding of the cache keeps the nodes at addresses of a heap with
  their `prev` and `next` pointers (section "The recency chain in memory");
  it is shown to be described by the list of nodes.
* `MAXLINE` and `MAXBUF` come from `csapp.h`, which is not part of the
  sources; they are parameters of the definitions that use them.
-/

namespace Proxy

/-! ## Constants of `proxy.c` -/

/-- The aggregate capacity `MAX_CACHE_SIZE` of the cache, in bytes. -/
def MAX_CACHE_SIZE : Nat := 1049000

/-- The relay ceiling `MAX_OBJECT_SIZE`, in bytes. -/
def MAX_OBJECT_SIZE : Nat := 102400

/-- Number of values of the type `size_t`. -/
def SIZE_MOD : Nat := 2 ^ 64

/-! ## Object cache -/

/-- One cache node `cache_obj_t`; `prev` and `next` are given by the position
of the node in the recency chain. -/
structure cache_obj where
  key : List Char
  data : List Char
  size : Nat
deriving DecidableEq

/-- The cache `cache_t`: the recency chain from `head` to `tail` and the
counter `total_size`. -/
structure cache_t where
  entries : List cache_obj
  total_size : Nat
deriving DecidableEq

/-- The pointer `g_cache.head`: the first node of the chain, if any. -/
def cache_t.head (c : cache_t) : Option cache_obj := c.entries.head?

/-- The pointer `g_cache.tail`: the last node of the chain, if any. -/
def cache_t.tail (c : cache_t) : Option cache_obj := c.entries.getLast?

/-- State set up by `cache_init`: no node, `total_size = 0`. -/
def cache_init : cache_t := { entries := [], total_size := 0 }

/-- Unlinking of the node at position `i` by `lru_detach`: its neighbours are
linked to each other and `head` / `tail` move when it was first / last. -/
def lru_detach (c : cache_t) (i : Nat) : cache_t :=
  { c with entries := c.entries.eraseIdx i }

/-- Linking of `obj` in front of the chain by `lru_insert_head`. -/
def lru_insert_head (c : cache_t) (obj : cache_obj) : cache_t :=
  { c with entries := obj :: c.entries }

/-- Walk of `cache_lookup` from `head` along `next`: position of the first
node whose key compares equal (`strcmp`) to `key`. -/
def cache_lookup_from : List cache_obj → List Char → Option Nat
  | [], _ => none
  | curr :: rest, key =>
    if curr.key = key then some 0
    else (cache_lookup_from rest key).map (· + 1)

/-- Result of `cache_lookup` on the cache: the position of the node found, or
`none` for `NULL`. -/
def cache_lookup (c : cache_t) (key : List Char) : Option Nat :=
  cache_lookup_from c.entries key

/-- What `cache_get` hands back: the cache afterwards, the return value `hit`,
and on a hit the copy `*out_data` with its length `*out_size`. -/
structure get_result where
  cache : cache_t
  hit : Bool
  out_data : List Char
  out_size : Nat
deriving DecidableEq

/-- Body of `cache_get`: on a hit the node is moved to the front and
`obj->size` bytes of its data are copied out; on a miss nothing happens. -/
def cache_get (c : cache_t) (key : List Char) : get_result :=
  match cache_lookup c key with
  | some i =>
    match c.entries.get? i with
    | some obj =>
      { cache := lru_insert_head (lru_detach c i) obj
        hit := true
        out_data := obj.data.take obj.size
        out_size := obj.size }
    | none => { cache := c, hit := false, out_data := [], out_size := 0 }
  | none => { cache := c, hit := false, out_data := [], out_size := 0 }

/-- The loop of `cache_del_until_enough`, run for at most `fuel` rounds: while
`total_size + need > MAX_CACHE_SIZE` and a tail node exists, the tail node is
detached and its size subtracted from `total_size`. -/
def cache_del_loop : Nat → Nat → cache_t → cache_t
  | 0, _, c => c
  | fuel + 1, need, c =>
    if (c.total_size + need) % SIZE_MOD > MAX_CACHE_SIZE then
      match c.tail with
      | none => c
      | some vic =>
        cache_del_loop fuel need
          { entries := (lru_detach c (c.entries.length - 1)).entries
            total_size := (c.total_size + SIZE_MOD - vic.size % SIZE_MOD) % SIZE_MOD }
    else c

/-- Function `cache_del_until_enough`: every round removes one node, so one
round per node of the chain, plus the final test, is enough. -/
def cache_del_until_enough (need : Nat) (c : cache_t) : cache_t :=
  cache_del_loop (c.entries.length + 1) need c

/-- Copy made by `strncpy (dst, src, n)` followed by reading `dst` as a
string, for a source that fits (`strlen src < n`); a longer source is cut at
`n` characters. -/
def strncpy (src : List Char) (n : Nat) : List Char := src.take n

/-- First step of `cache_put` under the lock: a node already carrying `key` is
detached and freed, and its size is subtracted from `total_size`. -/
def cache_put_discard_old (c : cache_t) (key : List Char) : cache_t :=
  match cache_lookup c key with
  | some i =>
    match c.entries.get? i with
    | some old =>
      { entries := (lru_detach c i).entries
        total_size := (c.total_size + SIZE_MOD - old.size % SIZE_MOD) % SIZE_MOD }
    | none => c
  | none => c

/-- Function `cache_put (key, data, size)` with `size` the length of `data`;
`MAXLINE` is the capacity of the `key` field of a node. -/
def cache_put (MAXLINE : Nat) (c : cache_t) (key : List Char) (data : List Char) :
    cache_t :=
  let size := data.length
  if size > MAX_CACHE_SIZE then c
  else
    let c1 := cache_put_discard_old c key
    let c2 := cache_del_until_enough size c1
    let new_obj : cache_obj := { key := strncpy key MAXLINE, data := data, size := size }
    let c3 := lru_insert_head c2 new_obj
    { c3 with total_size := (c3.total_size + size) % SIZE_MOD }

/-- One call on the cache: a `cache_put` or a `cache_get`. -/
inductive cache_op where
  | put (key : List Char) (data : List Char)
  | get (key : List Char)
deriving DecidableEq

/-- Effect of one call on the cache state. -/
def cache_step (MAXLINE : Nat) (c : cache_t) : cache_op → cache_t
  | .put key data => cache_put MAXLINE c key data
  | .get key => (cache_get c key).cache

/-- State after `cache_init` followed by the calls `ops`, in order. -/
def cache_run (MAXLINE : Nat) (ops : List cache_op) : cache_t :=
  ops.foldl (cache_step MAXLINE) cache_init

/-- The sum of the `size` fields of the nodes held. -/
def sum_sizes (l : List cache_obj) : Nat := (l.map (·.size)).sum

/-- Membership test: some node of the cache carries `key`. -/
def cache_has (c : cache_t) (key : List Char) : Bool :=
  (cache_lookup c key).isSome

/-- The structural invariant of the cache: `total_size` is the sum of the
sizes of the nodes held and does not exceed `MAX_CACHE_SIZE`. -/
def cache_inv (c : cache_t) : Prop :=
  c.total_size = sum_sizes c.entries ∧ c.total_size ≤ MAX_CACHE_SIZE

/-! ## C string functions used by the request pipeline -/

/-- Test `strncmp (a, b, n) == 0`: the first `n` characters agree. -/
def strncmp_eq (a b : List Char) (n : Nat) : Bool :=
  a.take n == b.take n

/-- Test `strncasecmp (a, b, n) == 0`: the first `n` characters agree up to
the case of letters. -/
def strncasecmp_eq (a b : List Char) (n : Nat) : Bool :=
  (a.take n).map Char.toLower == (b.take n).map Char.toLower

/-- Offset found by `strstr (hay, needle)`: start of the first occurrence of
`needle` in `hay`, or `none` for `NULL`. -/
def strstr : List Char → List Char → Option Nat
  | [], needle => if needle = [] then some 0 else none
  | c :: rest, needle =>
    if needle.isPrefixOf (c :: rest) then some 0
    else (strstr rest needle).map (· + 1)

/-- Offset found by `strchr (s, ch)`: position of the first `ch` in `s`, or
`none` for `NULL`. -/
def strchr : List Char → Char → Option Nat
  | [], _ => none
  | c :: rest, ch => if c = ch then some 0 else (strchr rest ch).map (· + 1)

/-- Value of `strcspn (s, reject)`: length of the longest initial part of `s`
without a character of `reject`. -/
def strcspn (s reject : List Char) : Nat :=
  (s.takeWhile (fun c => !reject.contains c)).length

/-- String left in a buffer of `n` bytes by `snprintf` when the formatted
text is `s`: at most `n - 1` characters are stored. -/
def snprintf (n : Nat) (s : List Char) : List Char := s.take (n - 1)

/-- Conversion `%d` of a length. -/
def fmt_d (n : Nat) : List Char := (Nat.repr n).toList

/-! ## Request parser -/

/-- The scan `for (p = host_start; *p != 0 && p != path_start; p++)` of
`parse_uri`, with `p` at offset `off` of `host_start` and `s` the text from
`p` on: offset of the first `:` met before the scan stops. -/
def find_colon : List Char → Nat → Option Nat → Option Nat
  | [], _, _ => none
  | c :: rest, off, path_start =>
    if path_start = some off then none
    else if c = ':' then some off
    else find_colon rest (off + 1) path_start

/-- The value `(size_t)(a - b)` for two addresses `a` and `b`. -/
def ptr_diff (a b : Nat) : Nat := (a % SIZE_MOD + SIZE_MOD - b % SIZE_MOD) % SIZE_MOD

/-- Function `parse_uri`. The result is `none` for the return value `-1` and
`some (host, port, path)`, the strings left in the three output buffers, for
the return value `0`.

Pointers into the local array `url` are offsets from `host_start = url + 7`,
and the difference of two of them is the difference of the offsets. Where
`path_start` is the null pointer the code still subtracts from it; there the
difference is taken on the addresses, `url_addr` being the address of `url`
and `0` that of the null pointer. `path0` is what the buffer `path` held
before the call. -/
def parse_uri (MAXLINE url_addr : Nat) (reqline : List Char)
    (host_sz port_sz path_sz : Nat) (path0 : List Char) :
    Option (List Char × List Char × List Char) :=
  if !strncmp_eq reqline "GET ".toList 4 then none
  else
    let url_start := reqline.drop 4
    match strstr url_start "HTTP/".toList with
    | none => none
    | some len =>
      if len ≥ MAXLINE then none
      else
        let url := strncpy url_start len
        if !strncmp_eq url "http://".toList 7 then none
        else
          let host_start := url.drop 7
          let host_addr := url_addr + 7
          let path_start := strchr host_start '/'
          let path_res : Option (List Char) :=
            match path_start with
            | none => some (if path_sz > 0 then [] else path0)
            | some off =>
              let path_len := (host_start.drop off).length
              if path_len ≥ path_sz then none
              else some (strncpy (host_start.drop off) path_len)
          match path_res with
          | none => none
          | some path =>
            match find_colon host_start 0 path_start with
            | none =>
              let host_len :=
                match path_start with
                | some off => off
                | none => ptr_diff 0 host_addr
              if host_len ≥ host_sz then none
              else
                let host := strncpy host_start host_len
                if port_sz < 3 then none
                else some (host, "80".toList, path)
            | some coff =>
              let host_len := coff
              let port_len :=
                match path_start with
                | some off => (off + SIZE_MOD - coff - 1) % SIZE_MOD
                | none => (ptr_diff 0 (host_addr + coff) + SIZE_MOD - 1) % SIZE_MOD
              if host_len ≥ host_sz ∨ port_len ≥ port_sz then none
              else
                let host := strncpy host_start host_len
                let port := strncpy (host_start.drop (coff + 1)) port_len
                if port = [] then none
                else some (host, port, path)

/-! ## Connection handler, up to the cache lookup -/

/-- Value stored in `host_hdr_value` for a header line `buf` that starts with
`Host:`: blanks and tabs after the colon are skipped and the text up to the
first CR or LF is kept, cut to `MAXLINE - 1` characters. -/
def host_value (MAXLINE : Nat) (buf : List Char) : List Char :=
  let p := (buf.drop 5).dropWhile (fun c => c = ' ' ∨ c = '\t')
  let m := strcspn p "\r\n".toList
  let m := if m ≥ MAXLINE then MAXLINE - 1 else m
  strncpy p m

/-- The header loop of `handle_client`: `lines` are the lines handed out by
the successive calls of `Rio_readlineb` (the list ends where the call returns
no data), `hv` is the current content of `host_hdr_value`. The loop stops at
the line `\r\n`. -/
def read_headers_loop (MAXLINE : Nat) : List (List Char) → List Char → List Char
  | [], hv => hv
  | buf :: rest, hv =>
    if buf = "\r\n".toList then hv
    else if strncasecmp_eq buf "Host:".toList 5 then
      read_headers_loop MAXLINE rest (host_value MAXLINE buf)
    else read_headers_loop MAXLINE rest hv

/-- Content of `host_hdr_value` after the header loop; it starts out empty. -/
def read_headers (MAXLINE : Nat) (lines : List (List Char)) : List Char :=
  read_headers_loop MAXLINE lines []

/-- Head of a response made up by the proxy, as formatted by `snprintf` into
`hdr` (an array of `MAXBUF` bytes) for the status line `status` and the body
length `len`; it is what `Rio_writen` sends when the text fits the array. -/
def response_hdr (MAXBUF : Nat) (status : List Char) (len : Nat) : List Char :=
  snprintf MAXBUF
    (status ++ "Content-Type: text/plain\r\n".toList ++
      "Content-Length: ".toList ++ fmt_d len ++ "\r\n".toList ++
      "Connection: close\r\n\r\n".toList)

/-- How far `handle_client` gets before the cache lookup. -/
inductive request_outcome where
  -- the handler returns without writing anything to the client
  | closed
  -- the handler writes `hdr` and then `body` to the client and returns
  | response (hdr body : List Char)
  -- the handler goes on to `cache_get` with `cache_key`
  | lookup (host port path cache_key : List Char)
deriving DecidableEq

/-- The response `501 Not Implemented` of `handle_client`. -/
def response_501 (MAXBUF : Nat) : request_outcome :=
  .response (response_hdr MAXBUF "HTTP/1.0 501 Not Implemented\r\n".toList
      "Not Implemented\n".toList.length)
    "Not Implemented\n".toList

/-- The response `400 Bad Request` of `handle_client` for a missing `Host`. -/
def response_400_host (MAXBUF : Nat) : request_outcome :=
  .response (response_hdr MAXBUF "HTTP/1.0 400 Bad Request\r\n".toList
      "Bad Request: Host header required\n".toList.length)
    "Bad Request: Host header required\n".toList

/-- The response `400 Bad Request` of `handle_client` for `ok != 0`. -/
def response_400 (MAXBUF : Nat) : request_outcome :=
  .response (response_hdr MAXBUF "HTTP/1.0 400 Bad Request\r\n".toList
      "Bad Request\n".toList.length)
    "Bad Request\n".toList

/-- The origin-form branch of `handle_client` (request line starting with
`GET /`, non-empty `host_hdr_value`): `none` where the code returns at once
because ` HTTP/` is missing, otherwise the host, port and path it copies. -/
def origin_form (MAXLINE : Nat) (reqline host_hdr_value : List Char) :
    Option (List Char × List Char × List Char) :=
  let p0 := reqline.drop 4
  match strstr p0 " HTTP/".toList with
  | none => none
  | some sp =>
    let path_len := if sp ≥ MAXLINE then MAXLINE - 1 else sp
    let path := strncpy p0 path_len
    match strchr host_hdr_value ':' with
    | some colon =>
      let host_len := if colon ≥ MAXLINE then MAXLINE - 1 else colon
      let host := strncpy host_hdr_value host_len
      let port_len := (host_hdr_value.drop (colon + 1)).length
      let port_len := if port_len ≥ 16 then 16 - 1 else port_len
      let port := strncpy (host_hdr_value.drop (colon + 1)) port_len
      some (host, port, path)
    | none => some (strncpy host_hdr_value (MAXLINE - 1), "80".toList, path)

/-- The function `handle_client` from the request line to the cache lookup.
`reqline` is the line handed out by the first `Rio_readlineb` (`none` when it
returns no data), `headers` are the lines handed out by the following calls,
`url_addr` is the address of the array `url` of `parse_uri`. The local
function `finish` is the code after the two branches: the test `ok != 0`, the
replacement of an empty path by `/`, and the cache key. The array `path` is
not initialised before `parse_uri` is called; as its size `MAXLINE` is not `0`
its old content, given as empty here, is never read. -/
def handle_client_request (MAXLINE MAXBUF url_addr : Nat) (reqline : Option (List Char))
    (headers : List (List Char)) : request_outcome :=
  match reqline with
  | none => .closed
  | some reqline =>
    if !strncmp_eq reqline "GET ".toList 4 then response_501 MAXBUF
    else
      let host_hdr_value := read_headers MAXLINE headers
      let finish (ok : Option (List Char × List Char × List Char)) : request_outcome :=
        match ok with
        | none => response_400 MAXBUF
        | some (host, port, path) =>
          let path := if path = [] then "/".toList else path
          let cache_key := snprintf MAXLINE (host ++ ":".toList ++ port ++ path)
          .lookup host port path cache_key
      if strncmp_eq reqline "GET http://".toList 11 then
        finish (parse_uri MAXLINE url_addr reqline MAXLINE 16 MAXLINE [])
      else if strncmp_eq reqline "GET /".toList 5 then
        if host_hdr_value = [] then response_400_host MAXBUF
        else
          match origin_form MAXLINE reqline host_hdr_value with
          | none => .closed
          | some parsed => finish (some parsed)
      else finish none

/-! ## Connection handler, from the cache lookup on -/

/-- The constant `user_agent_hdr`. -/
def user_agent_hdr : List Char :=
  "User-Agent: Mozilla/5.0 (X11; Linux x86_64; rv:10.0.3) Gecko/20120305 Firefox/10.0.3\r\n".toList

/-- Test `strcmp (a, b) == 0`. -/
def strcmp_eq (a b : List Char) : Bool := a == b

/-- Request formatted by `snprintf` into `outreq` (an array of `MAXBUF` bytes)
for the upstream server; it is what `Rio_writen` sends when the text fits the
array. -/
def upstream_request (MAXBUF : Nat) (host port path : List Char) : List Char :=
  snprintf MAXBUF
    ("GET ".toList ++ path ++ " HTTP/1.0\r\n".toList ++
      "Host: ".toList ++ host ++
        (if strcmp_eq port "80".toList then [] else ":".toList) ++
        (if strcmp_eq port "80".toList then [] else port) ++ "\r\n".toList ++
      user_agent_hdr ++
      "Connection: close\r\n".toList ++
      "Proxy-Connection: close\r\n".toList ++
      "\r\n".toList)

/-- Variables of the relay loop of `handle_client`: the bytes written to the
client so far, the bytes copied to `obj_buf` so far, `obj_size` and
`can_cache`. -/
structure relay_state where
  client_out : List Char
  obj_buf : List Char
  obj_size : Nat
  can_cache : Bool
deriving DecidableEq

/-- The relay loop of `handle_client`: `chunks` are the blocks handed out by
the successive calls of `Rio_readnb` on the upstream connection; the loop ends
with the list or at a call that returns no data. Every block is written to the
client; while `can_cache` holds it is also appended to `obj_buf` if
`obj_size + readnum <= MAX_OBJECT_SIZE`, and otherwise `can_cache` is
cleared. -/
def relay_loop : List (List Char) → relay_state → relay_state
  | [], s => s
  | xbuf :: rest, s =>
    if xbuf.length = 0 then s
    else
      let s1 : relay_state := { s with client_out := s.client_out ++ xbuf }
      let s2 : relay_state :=
        if s1.can_cache then
          if (s1.obj_size + xbuf.length) % SIZE_MOD ≤ MAX_OBJECT_SIZE then
            { s1 with
              obj_buf := s1.obj_buf ++ xbuf
              obj_size := (s1.obj_size + xbuf.length) % SIZE_MOD }
          else { s1 with can_cache := false }
        else s1
      relay_loop rest s2

/-- State of the relay variables before the loop. -/
def relay_init : relay_state :=
  { client_out := [], obj_buf := [], obj_size := 0, can_cache := true }

/-- Test whether the header loop of `handle_client` acts on the line `buf`: it
is the line `\r\n`, which ends the loop, or it starts with `Host:` in any
letter case. -/
def header_line_used (buf : List Char) : Bool :=
  decide (buf = "\r\n".toList) || strncasecmp_eq buf "Host:".toList 5

/-- Number of calls of `Rio_readlineb` made by the header loop of
`handle_client` on the lines `lines`: one per line up to and including the
line `\r\n`, or one more than the lines when that line never comes. -/
def header_reads : List (List Char) → Nat
  | [] => 1
  | buf :: rest => if buf = "\r\n".toList then 1 else 1 + header_reads rest

/-- Number of calls of `Rio_readlineb` on the client connection made by
`handle_client`: the one for the request line, and those of the header loop
when the method test lets it start. -/
def client_reads (reqline : Option (List Char)) (headers : List (List Char)) : Nat :=
  match reqline with
  | none => 1
  | some reqline =>
    if !strncmp_eq reqline "GET ".toList 4 then 1 else 1 + header_reads headers

/-- What one run of `handle_client` does: the cache afterwards, the bytes
written to the client, the number of lines read from the client, the key given
to `cache_get` (if it is called), the host and port given to `Open_clientfd`
(if it is called), the bytes written to the upstream server, and the key and
data given to `cache_put` (if it is called). -/
structure handler_result where
  cache : cache_t
  client_out : List Char
  client_reads : Nat
  lookup_key : Option (List Char)
  connect : Option (List Char × List Char)
  upstream_out : List Char
  put_call : Option (List Char × List Char)
deriving DecidableEq

/-- The function `handle_client`. `c` is the cache at the call, `reqline` and
`headers` are the lines read from the client (as for
`handle_client_request`), `upstream` is `none` when `Open_clientfd` fails and
otherwise the blocks read from the upstream server. -/
def handle_client (MAXLINE MAXBUF url_addr : Nat) (c : cache_t)
    (reqline : Option (List Char)) (headers : List (List Char))
    (upstream : Option (List (List Char))) : handler_result :=
  let quiet : handler_result :=
    { cache := c, client_out := [], client_reads := client_reads reqline headers,
      lookup_key := none, connect := none, upstream_out := [], put_call := none }
  match handle_client_request MAXLINE MAXBUF url_addr reqline headers with
  | .closed => quiet
  | .response hdr body => { quiet with client_out := hdr ++ body }
  | .lookup host port path cache_key =>
    let r := cache_get c cache_key
    if r.hit then
      { quiet with cache := r.cache, client_out := r.out_data, lookup_key := some cache_key }
    else
      match upstream with
      | none =>
        let body := "Bad Gateway\n".toList
        let hdr := response_hdr MAXBUF "HTTP/1.0 502 Bad Gateway\r\n".toList body.length
        { quiet with
          cache := r.cache, client_out := hdr ++ body, lookup_key := some cache_key,
          connect := some (host, port) }
      | some chunks =>
        let outreq := upstream_request MAXBUF host port path
        let s := relay_loop chunks relay_init
        if s.can_cache ∧ s.obj_size > 0 then
          { cache := cache_put MAXLINE r.cache cache_key (s.obj_buf.take s.obj_size)
            client_out := s.client_out
            client_reads := client_reads reqline headers
            lookup_key := some cache_key
            connect := some (host, port)
            upstream_out := outreq
            put_call := some (cache_key, s.obj_buf.take s.obj_size) }
        else
          { cache := r.cache
            client_out := s.client_out
            client_reads := client_reads reqline headers
            lookup_key := some cache_key
            connect := some (host, port)
            upstream_out := outreq
            put_call := none }

/-! ## Further invariants of the cache -/

/-- No two nodes carry the same key, for the keys that fit the key field of a
node (shorter than `MAXLINE`). -/
def keys_unique (MAXLINE : Nat) (c : cache_t) : Prop :=
  ∀ K : List Char, K.length < MAXLINE → (c.entries.countP (fun o => o.key = K)) ≤ 1

/-- The field `size` of every node is the length of its data. -/
def sizes_exact (c : cache_t) : Prop :=
  ∀ o, o ∈ c.entries → o.size = o.data.length

/-! ## The recency chain in memory

The list model above keeps the nodes of the chain in a list. Here the nodes
sit at addresses of a heap and carry their `prev` and `next` pointers, and
`lru_detach`, `lru_insert_head`, `cache_lookup`, `cache_get`,
`cache_del_until_enough` and `cache_put` are embedded with the pointer
assignments of the source. `none` is the null pointer. -/

/-- A node `cache_obj_t` as it sits in memory: key, data and size, and the
pointers `prev` and `next`. -/
structure mem_obj where
  obj : cache_obj
  prev : Option Nat
  next : Option Nat
deriving DecidableEq

/-- The heap: the allocated nodes with their addresses. -/
abbrev heap := List (Nat × mem_obj)

/-- Read of the node at address `a`; `none` when nothing is allocated there. -/
def heap_get : heap → Nat → Option mem_obj
  | [], _ => none
  | (b, n) :: rest, a => if b = a then some n else heap_get rest a

/-- Write of the node at address `a` (nothing happens when nothing is
allocated there). -/
def heap_set : heap → Nat → mem_obj → heap
  | [], _, _ => []
  | (b, x) :: rest, a, n =>
    if b = a then (b, n) :: rest else (b, x) :: heap_set rest a n

/-- Release `Free` of the node at address `a`. -/
def heap_free (m : heap) (a : Nat) : heap :=
  m.filter (fun e => e.1 ≠ a)

/-- Assignment `q->next = v`. -/
def set_next (m : heap) (q : Nat) (v : Option Nat) : heap :=
  match heap_get m q with
  | some n => heap_set m q { n with next := v }
  | none => m

/-- Assignment `q->prev = v`. -/
def set_prev (m : heap) (q : Nat) (v : Option Nat) : heap :=
  match heap_get m q with
  | some n => heap_set m q { n with prev := v }
  | none => m

/-- The global `g_cache` together with the heap that holds its nodes. -/
structure mem_cache where
  mem : heap
  head : Option Nat
  tail : Option Nat
  total_size : Nat
deriving DecidableEq

/-- State set up by `cache_init`, on an empty heap. -/
def cache_init_mem : mem_cache :=
  { mem := [], head := none, tail := none, total_size := 0 }

/-- Function `lru_detach (obj)` on the heap. -/
def lru_detach_mem (g : mem_cache) (obj : Option Nat) : mem_cache :=
  match obj with
  | none => g
  | some p =>
    match heap_get g.mem p with
    | none => g
    | some n =>
      let g1 : mem_cache :=
        match n.prev with
        | some q => { g with mem := set_next g.mem q n.next }
        | none => { g with head := n.next }
      let g2 : mem_cache :=
        match n.next with
        | some q => { g1 with mem := set_prev g1.mem q n.prev }
        | none => { g1 with tail := n.prev }
      { g2 with mem := set_next (set_prev g2.mem p none) p none }

/-- Function `lru_insert_head (obj)` on the heap. -/
def lru_insert_head_mem (g : mem_cache) (p : Nat) : mem_cache :=
  let m1 := set_next (set_prev g.mem p none) p g.head
  let m2 :=
    match g.head with
    | some h => set_prev m1 h (some p)
    | none => m1
  { mem := m2
    head := some p
    tail := if g.tail = none then some p else g.tail
    total_size := g.total_size }

/-- The walk `for (curr = head; curr != NULL; curr = curr->next)` of
`cache_lookup`, for at most `fuel` nodes, starting at `curr`. -/
def cache_lookup_walk : Nat → heap → Option Nat → List Char → Option Nat
  | 0, _, _, _ => none
  | _ + 1, _, none, _ => none
  | fuel + 1, m, some p, key =>
    match heap_get m p with
    | none => none
    | some n => if n.obj.key = key then some p else cache_lookup_walk fuel m n.next key

/-- Function `cache_lookup` on the heap: the chain cannot be longer than the
number of allocated nodes. -/
def cache_lookup_mem (g : mem_cache) (key : List Char) : Option Nat :=
  cache_lookup_walk (g.mem.length + 1) g.mem g.head key

/-- What `cache_get` hands back, on the heap. -/
structure mem_get_result where
  cache : mem_cache
  hit : Bool
  out_data : List Char
  out_size : Nat
deriving DecidableEq

/-- Function `cache_get` on the heap. -/
def cache_get_mem (g : mem_cache) (key : List Char) : mem_get_result :=
  match cache_lookup_mem g key with
  | some p =>
    match heap_get g.mem p with
    | some n =>
      { cache := lru_insert_head_mem (lru_detach_mem g (some p)) p
        hit := true
        out_data := n.obj.data.take n.obj.size
        out_size := n.obj.size }
    | none => { cache := g, hit := false, out_data := [], out_size := 0 }
  | none => { cache := g, hit := false, out_data := [], out_size := 0 }

/-- The loop of `cache_del_until_enough` on the heap, for at most `fuel`
rounds: the tail node is detached, its size subtracted, and it is freed. -/
def cache_del_loop_mem : Nat → Nat → mem_cache → mem_cache
  | 0, _, g => g
  | fuel + 1, need, g =>
    if (g.total_size + need) % SIZE_MOD > MAX_CACHE_SIZE then
      match g.tail with
      | none => g
      | some vic =>
        match heap_get g.mem vic with
        | none => g
        | some n =>
          cache_del_loop_mem fuel need
            { mem := heap_free (lru_detach_mem g (some vic)).mem vic
              head := (lru_detach_mem g (some vic)).head
              tail := (lru_detach_mem g (some vic)).tail
              total_size :=
                ((lru_detach_mem g (some vic)).total_size + SIZE_MOD -
                  n.obj.size % SIZE_MOD) % SIZE_MOD }
    else g

/-- Function `cache_del_until_enough` on the heap. -/
def cache_del_until_enough_mem (need : Nat) (g : mem_cache) : mem_cache :=
  cache_del_loop_mem (g.mem.length + 1) need g

/-- First step of `cache_put` on the heap: a node already carrying `key` is
detached, its size is subtracted from `total_size`, and it is freed. -/
def cache_put_discard_old_mem (g : mem_cache) (key : List Char) : mem_cache :=
  match cache_lookup_mem g key with
  | some old =>
    match heap_get g.mem old with
    | some n =>
      { mem := heap_free (lru_detach_mem g (some old)).mem old
        head := (lru_detach_mem g (some old)).head
        tail := (lru_detach_mem g (some old)).tail
        total_size :=
          ((lru_detach_mem g (some old)).total_size + SIZE_MOD - n.obj.size % SIZE_MOD) %
            SIZE_MOD }
    | none => g
  | none => g

/-- Function `cache_put` on the heap. `alloc` gives the address `Malloc`
returns for the new node in a given heap. -/
def cache_put_mem (MAXLINE : Nat) (alloc : heap → Nat) (g : mem_cache)
    (key : List Char) (data : List Char) : mem_cache :=
  let size := data.length
  if size > MAX_CACHE_SIZE then g
  else
    let g1 := cache_put_discard_old_mem g key
    let g2 := cache_del_until_enough_mem size g1
    let new_obj := alloc g2.mem
    let node : mem_obj :=
      { obj := { key := strncpy key MAXLINE, data := data, size := size }
        prev := none, next := none }
    let g3 : mem_cache := { g2 with mem := (new_obj, node) :: g2.mem }
    let g4 := lru_insert_head_mem g3 new_obj
    { g4 with total_size := (g4.total_size + size) % SIZE_MOD }

/-- Effect of one call on the cache in memory. -/
def cache_step_mem (MAXLINE : Nat) (alloc : heap → Nat) (g : mem_cache) :
    cache_op → mem_cache
  | .put key data => cache_put_mem MAXLINE alloc g key data
  | .get key => (cache_get_mem g key).cache

/-- State in memory after `cache_init` followed by the calls `ops`. -/
def cache_run_mem (MAXLINE : Nat) (alloc : heap → Nat) (ops : List cache_op) : mem_cache :=
  ops.foldl (cache_step_mem MAXLINE alloc) cache_init_mem

/-- The nodes `nodes` (address and content, in order) form a doubly linked
segment in the heap `m`: the pointer `first` leads to the first of them (or is
`nxt` when there is none), every node's `next` leads to the node after it and
the last one's to `nxt`, every node's `prev` leads to the node before it and
the first one's is `prev`, and `last` is the address of the last node (or
`prev` when there is none). -/
def dllseg (m : heap) : Option Nat → List (Nat × cache_obj) → Option Nat → Option Nat →
    Option Nat → Prop
  | prev, [], first, last, nxt => first = nxt ∧ last = prev
  | prev, (a, o) :: rest, first, last, nxt =>
    first = some a ∧
      ∃ n, heap_get m a = some n ∧ n.obj = o ∧ n.prev = prev ∧
        dllseg m (some a) rest n.next last nxt

/-- The cache in memory `g` holds the chain `nodes`, and the list model `c`
describes it: the nodes sit at pairwise different addresses and are linked
from `head` to `tail`, the entries of `c` are the contents of the nodes in
order, and `total_size` is the same. -/
def represents (g : mem_cache) (nodes : List (Nat × cache_obj)) (c : cache_t) : Prop :=
  (nodes.map (·.1)).Nodup ∧ dllseg g.mem none nodes g.head g.tail none ∧
    c.entries = nodes.map (·.2) ∧ c.total_size = g.total_size

/-- Every node of the cache has a key that fits its key field. -/
def keys_short (MAXLINE : Nat) (c : cache_t) : Prop :=
  ∀ o, o ∈ c.entries → o.key.length < MAXLINE

/-- Every `cache_put` among the calls is given a key that fits the key
field of a node. -/
def put_keys_short (MAXLINE : Nat) : List cache_op → Prop
  | [] => True
  | .put key _ :: rest => key.length < MAXLINE ∧ put_keys_short MAXLINE rest
  | .get _ :: rest => put_keys_short MAXLINE rest

/-- An allocator that never hands out an address in use: one more than the
sum of the addresses in use. -/
def alloc_above (m : heap) : Nat := (m.map (·.1)).sum + 1

/-! ## Facts about the cache operations -/

theorem sum_sizes_cons (o : cache_obj) (l : List cache_obj) :
    sum_sizes (o :: l) = o.size + sum_sizes l := by
  simp [sum_sizes]

theorem sum_sizes_append (l₁ l₂ : List cache_obj) :
    sum_sizes (l₁ ++ l₂) = sum_sizes l₁ + sum_sizes l₂ := by
  simp [sum_sizes]

theorem sum_sizes_eraseIdx (l : List cache_obj) (i : Nat) (o : cache_obj)
    (h : l.get? i = some o) : sum_sizes (l.eraseIdx i) + o.size = sum_sizes l := by
  induction l generalizing i with
  | nil => simp at h
  | cons a t ih =>
    cases i with
    | zero =>
      simp at h
      subst h
      simp [sum_sizes_cons]
      omega
    | succ j =>
      simp at h
      have := ih j (by simpa using h)
      simp [sum_sizes_cons]
      omega

theorem cache_lookup_from_get (l : List cache_obj) (key : List Char) (i : Nat)
    (h : cache_lookup_from l key = some i) :
    ∃ o, l.get? i = some o ∧ o.key = key := by
  induction l generalizing i with
  | nil => simp [cache_lookup_from] at h
  | cons a t ih =>
    unfold cache_lookup_from at h
    split at h
    · rename_i hk
      cases h
      exact ⟨a, by simp, hk⟩
    · cases hr : cache_lookup_from t key with
      | none => simp [hr] at h
      | some j =>
        simp [hr] at h
        subst h
        obtain ⟨o, ho, hk⟩ := ih j hr
        exact ⟨o, by simpa using ho, hk⟩

theorem size_mod_big : MAX_CACHE_SIZE + MAX_CACHE_SIZE < SIZE_MOD := by
  decide

theorem sub_size_no_wrap (total size : Nat) (h₁ : size ≤ total) (h₂ : total < SIZE_MOD) :
    (total + SIZE_MOD - size % SIZE_MOD) % SIZE_MOD = total - size := by
  have hs : size % SIZE_MOD = size := Nat.mod_eq_of_lt (by omega)
  rw [hs]
  have : total + SIZE_MOD - size = (total - size) + SIZE_MOD := by omega
  rw [this, Nat.add_mod_right]
  exact Nat.mod_eq_of_lt (by omega)

theorem lru_detach_last (c : cache_t) (vic : cache_obj) (h : c.tail = some vic) :
    (lru_detach c (c.entries.length - 1)).entries = c.entries.dropLast ∧
      c.entries = c.entries.dropLast ++ [vic] := by
  have h2 : c.entries.dropLast ++ [vic] = c.entries :=
    List.dropLast_append_getLast? vic (by simpa [cache_t.tail] using h)
  refine ⟨?_, h2.symm⟩
  have hne : c.entries ≠ [] := by
    intro hnil
    simp [cache_t.tail, hnil] at h
  have hlen : c.entries.length - 1 + 1 = c.entries.length := by
    have := List.length_pos.mpr hne
    omega
  simp only [lru_detach]
  exact (List.dropLast_eq_eraseIdx hlen).symm

/-- The eviction loop keeps the invariant, and with one round per node plus
one it stops only when the request fits. -/
theorem cache_del_loop_spec (fuel need : Nat) (c : cache_t)
    (hneed : need ≤ MAX_CACHE_SIZE) (hinv : cache_inv c) (hfuel : c.entries.length < fuel) :
    cache_inv (cache_del_loop fuel need c) ∧
      (cache_del_loop fuel need c).total_size + need ≤ MAX_CACHE_SIZE := by
  induction fuel generalizing c with
  | zero => omega
  | succ n ih =>
    obtain ⟨hsum, hle⟩ := hinv
    have hbig := size_mod_big
    have hmod : (c.total_size + need) % SIZE_MOD = c.total_size + need :=
      Nat.mod_eq_of_lt (by omega)
    unfold cache_del_loop
    rw [hmod]
    by_cases hgt : c.total_size + need > MAX_CACHE_SIZE
    · rw [if_pos hgt]
      cases htail : c.tail with
      | none =>
        have hnil : c.entries = [] := by
          simpa [cache_t.tail] using htail
        rw [hnil] at hsum
        simp [sum_sizes] at hsum
        omega
      | some vic =>
        obtain ⟨hdet, hsplit⟩ := lru_detach_last c vic htail
        have hs : sum_sizes c.entries = sum_sizes c.entries.dropLast + vic.size := by
          conv_lhs => rw [hsplit]
          simp [sum_sizes_append, sum_sizes_cons, sum_sizes]
        have hsub := sub_size_no_wrap c.total_size vic.size (by omega) (by omega)
        have hlen : c.entries.length = c.entries.dropLast.length + 1 := by
          conv_lhs => rw [hsplit]
          simp
        simp only []
        apply ih
        · constructor
          · simp only [hdet, hsub]
            omega
          · simp only [hsub]
            omega
        · simp only [hdet]
          omega
    · rw [if_neg hgt]
      exact ⟨⟨hsum, hle⟩, by omega⟩

theorem cache_del_until_enough_spec (need : Nat) (c : cache_t)
    (hneed : need ≤ MAX_CACHE_SIZE) (hinv : cache_inv c) :
    cache_inv (cache_del_until_enough need c) ∧
      (cache_del_until_enough need c).total_size + need ≤ MAX_CACHE_SIZE :=
  cache_del_loop_spec _ need c hneed hinv (Nat.lt_succ_self _)

theorem cache_inv_init : cache_inv cache_init := by
  simp [cache_inv, cache_init, sum_sizes]

theorem cache_get_total_size (c : cache_t) (key : List Char) :
    (cache_get c key).cache.total_size = c.total_size := by
  unfold cache_get
  split
  · split <;> simp [lru_insert_head, lru_detach]
  · rfl

theorem cache_get_inv (c : cache_t) (key : List Char) (hinv : cache_inv c) :
    cache_inv (cache_get c key).cache := by
  obtain ⟨hsum, hle⟩ := hinv
  unfold cache_get
  split
  · rename_i i hi
    split
    · rename_i obj hobj
      have := sum_sizes_eraseIdx c.entries i obj hobj
      refine ⟨?_, hle⟩
      simp only [lru_insert_head, lru_detach, sum_sizes_cons]
      omega
    · exact ⟨hsum, hle⟩
  · exact ⟨hsum, hle⟩

theorem cache_put_discard_old_inv (c : cache_t) (key : List Char) (hinv : cache_inv c) :
    cache_inv (cache_put_discard_old c key) := by
  obtain ⟨hsum, hle⟩ := hinv
  have hbig := size_mod_big
  unfold cache_put_discard_old
  split
  · rename_i i hi
    split
    · rename_i old hold
      have := sum_sizes_eraseIdx c.entries i old hold
      have hsub := sub_size_no_wrap c.total_size old.size (by omega) (by omega)
      constructor
      · simp only [hsub, lru_detach]
        omega
      · simp only [hsub]
        omega
    · exact ⟨hsum, hle⟩
  · exact ⟨hsum, hle⟩

theorem cache_put_admitted (MAXLINE : Nat) (c : cache_t) (key data : List Char)
    (hsz : data.length ≤ MAX_CACHE_SIZE) :
    cache_put MAXLINE c key data =
      { entries := { key := strncpy key MAXLINE, data := data, size := data.length } ::
          (cache_del_until_enough data.length (cache_put_discard_old c key)).entries
        total_size :=
          ((cache_del_until_enough data.length (cache_put_discard_old c key)).total_size +
            data.length) % SIZE_MOD } := by
  unfold cache_put
  simp only []
  rw [if_neg (by omega)]
  rfl

theorem cache_put_inv (MAXLINE : Nat) (c : cache_t) (key data : List Char)
    (hinv : cache_inv c) : cache_inv (cache_put MAXLINE c key data) := by
  by_cases hsz : data.length ≤ MAX_CACHE_SIZE
  · rw [cache_put_admitted MAXLINE c key data hsz]
    have hbig := size_mod_big
    obtain ⟨⟨hsum2, hle2⟩, hfit⟩ :=
      cache_del_until_enough_spec data.length _ hsz (cache_put_discard_old_inv c key hinv)
    have hmod : ∀ t, t + data.length ≤ MAX_CACHE_SIZE →
        (t + data.length) % SIZE_MOD = t + data.length :=
      fun t ht => Nat.mod_eq_of_lt (by omega)
    constructor
    · simp only [sum_sizes_cons]
      rw [hmod _ hfit]
      omega
    · simp only []
      rw [hmod _ hfit]
      exact hfit
  · unfold cache_put
    simp only []
    rw [if_pos (by omega)]
    exact hinv

theorem cache_step_inv (MAXLINE : Nat) (c : cache_t) (op : cache_op)
    (hinv : cache_inv c) : cache_inv (cache_step MAXLINE c op) := by
  cases op with
  | put key data => exact cache_put_inv MAXLINE c key data hinv
  | get key => exact cache_get_inv c key hinv

theorem cache_foldl_inv (MAXLINE : Nat) (ops : List cache_op) (c : cache_t)
    (hinv : cache_inv c) : cache_inv (ops.foldl (cache_step MAXLINE) c) := by
  induction ops generalizing c with
  | nil => exact hinv
  | cons op rest ih => exact ih _ (cache_step_inv MAXLINE c op hinv)

theorem cache_run_inv (MAXLINE : Nat) (ops : List cache_op) :
    cache_inv (cache_run MAXLINE ops) :=
  cache_foldl_inv MAXLINE ops cache_init cache_inv_init

theorem strncpy_fits (src : List Char) (n : Nat) (h : src.length < n) :
    strncpy src n = src := by
  simp only [strncpy]
  exact List.take_of_length_le (by omega)

/-- The eviction loop only removes nodes from the tail end: what is left is
an initial part of the chain. -/
theorem cache_del_loop_prefix (fuel need : Nat) (c : cache_t) :
    ∃ k, (cache_del_loop fuel need c).entries = c.entries.take k := by
  induction fuel generalizing c with
  | zero => exact ⟨c.entries.length, by simp [cache_del_loop]⟩
  | succ n ih =>
    unfold cache_del_loop
    split
    · cases htail : c.tail with
      | none => exact ⟨c.entries.length, by simp⟩
      | some vic =>
        obtain ⟨hdet, -⟩ := lru_detach_last c vic htail
        obtain ⟨k, hk⟩ := ih
          { entries := (lru_detach c (c.entries.length - 1)).entries
            total_size := (c.total_size + SIZE_MOD - vic.size % SIZE_MOD) % SIZE_MOD }
        refine ⟨min k (c.entries.length - 1), ?_⟩
        simp only [] at hk ⊢
        rw [hk, hdet, List.dropLast_eq_take, List.take_take]
    · exact ⟨c.entries.length, by simp⟩

/-- The eviction loop never removes a front part of the chain next to which
the request already fits. -/
theorem cache_del_loop_keeps (fuel need : Nat) (c : cache_t) (p q : List cache_obj)
    (hneed : need ≤ MAX_CACHE_SIZE) (hinv : cache_inv c) (hsplit : c.entries = p ++ q)
    (hfit : sum_sizes p + need ≤ MAX_CACHE_SIZE) :
    ∃ q', (cache_del_loop fuel need c).entries = p ++ q' := by
  induction fuel generalizing c q with
  | zero => exact ⟨q, by simpa [cache_del_loop] using hsplit⟩
  | succ n ih =>
    obtain ⟨hsum, hle⟩ := hinv
    have hbig := size_mod_big
    have hmod : (c.total_size + need) % SIZE_MOD = c.total_size + need :=
      Nat.mod_eq_of_lt (by omega)
    unfold cache_del_loop
    rw [hmod]
    by_cases hgt : c.total_size + need > MAX_CACHE_SIZE
    · rw [if_pos hgt]
      cases htail : c.tail with
      | none => exact ⟨q, hsplit⟩
      | some vic =>
        obtain ⟨hdet, hlast⟩ := lru_detach_last c vic htail
        have hq : q ≠ [] := by
          intro hnil
          rw [hnil, List.append_nil] at hsplit
          rw [hsplit] at hsum
          omega
        have hdrop : c.entries.dropLast = p ++ q.dropLast := by
          rw [hsplit, List.dropLast_append_of_ne_nil _ hq]
        have hs : sum_sizes c.entries = sum_sizes c.entries.dropLast + vic.size := by
          conv_lhs => rw [hlast]
          simp [sum_sizes_append, sum_sizes_cons, sum_sizes]
        have hsub := sub_size_no_wrap c.total_size vic.size (by omega) (by omega)
        simp only []
        apply ih _ q.dropLast
        · constructor
          · simp only [hdet, hsub]
            omega
          · simp only [hsub]
            omega
        · simp only [hdet, hdrop]
    · rw [if_neg hgt]
      exact ⟨q, hsplit⟩

theorem cache_lookup_from_append_miss (p r : List cache_obj) (key : List Char)
    (hp : ∀ o ∈ p, o.key ≠ key) :
    cache_lookup_from (p ++ r) key = (cache_lookup_from r key).map (· + p.length) := by
  induction p with
  | nil => simp
  | cons a t ih =>
    have ha : a.key ≠ key := hp a (by simp)
    have ht := ih (fun o ho => hp o (by simp [ho]))
    show cache_lookup_from (a :: (t ++ r)) key = _
    rw [cache_lookup_from, if_neg ha, ht]
    cases cache_lookup_from r key <;> simp [Nat.add_assoc]

/-- Discarding the old node for `key` leaves alone a front part of the chain
in which no node carries `key`. -/
theorem cache_put_discard_old_keeps (c : cache_t) (key : List Char) (p r : List cache_obj)
    (hsplit : c.entries = p ++ r) (hp : ∀ o ∈ p, o.key ≠ key) :
    ∃ r', (cache_put_discard_old c key).entries = p ++ r' := by
  unfold cache_put_discard_old cache_lookup
  rw [hsplit, cache_lookup_from_append_miss p r key hp]
  cases hr : cache_lookup_from r key with
  | none => exact ⟨r, by simp [hsplit]⟩
  | some j =>
    simp only [Option.map_some']
    split
    · refine ⟨r.eraseIdx j, ?_⟩
      simp only [lru_detach, hsplit]
      rw [List.eraseIdx_append_of_length_le (by omega)]
      simp
    · exact ⟨r, hsplit⟩

theorem cache_put_entries (MAXLINE : Nat) (c : cache_t) (key data : List Char)
    (hk : key.length < MAXLINE) (hsz : data.length ≤ MAX_CACHE_SIZE) :
    (cache_put MAXLINE c key data).entries =
      { key := key, data := data, size := data.length } ::
        (cache_del_until_enough data.length (cache_put_discard_old c key)).entries := by
  rw [cache_put_admitted MAXLINE c key data hsz, strncpy_fits key MAXLINE hk]

theorem cache_get_second (c : cache_t) (key : List Char) (b a : cache_obj)
    (q : List cache_obj) (hc : c.entries = b :: a :: q) (hb : b.key ≠ key)
    (ha : a.key = key) : (cache_get c key).cache.entries = a :: b :: q := by
  simp [cache_get, cache_lookup, hc, cache_lookup_from, hb, ha, lru_insert_head, lru_detach]

/-- The four calls of the recency scenario, started in any state that
satisfies the invariant: only the new node and the node that was looked up
are left. -/
theorem lru_scenario_entries (MAXLINE : Nat) (c0 : cache_t) (A B C pa pb pc : List Char)
    (hinv : cache_inv c0)
    (hAB : A ≠ B) (hAC : A ≠ C) (hBC : B ≠ C)
    (hA : A.length < MAXLINE) (hB : B.length < MAXLINE) (hC : C.length < MAXLINE)
    (hab : pb.length = pa.length) (hac : pc.length = pa.length)
    (htwo : 2 * pa.length ≤ MAX_CACHE_SIZE) (hthree : MAX_CACHE_SIZE < 3 * pa.length) :
    (cache_put MAXLINE (cache_get (cache_put MAXLINE (cache_put MAXLINE c0 A pa) B pb) A).cache
        C pc).entries =
      [{ key := C, data := pc, size := pc.length }, { key := A, data := pa, size := pa.length }] := by
  have hpa : pa.length ≤ MAX_CACHE_SIZE := by omega
  have hpb : pb.length ≤ MAX_CACHE_SIZE := by omega
  have hpc : pc.length ≤ MAX_CACHE_SIZE := by omega
  -- after `put A`
  have h1 := cache_put_entries MAXLINE c0 A pa hA hpa
  have inv1 := cache_put_inv MAXLINE c0 A pa hinv
  generalize cache_put MAXLINE c0 A pa = c1 at h1 inv1 ⊢
  generalize (cache_del_until_enough pa.length (cache_put_discard_old c0 A)).entries = r1 at h1
  -- after `put B`
  have h2 := cache_put_entries MAXLINE c1 B pb hB hpb
  have inv2 := cache_put_inv MAXLINE c1 B pb inv1
  obtain ⟨r1', hd1⟩ := cache_put_discard_old_keeps c1 B
    [{ key := A, data := pa, size := pa.length }] r1 (by simpa using h1)
    (by simpa using hAB)
  obtain ⟨q2, hq2⟩ := cache_del_loop_keeps ((cache_put_discard_old c1 B).entries.length + 1)
    pb.length (cache_put_discard_old c1 B) _ r1' hpb (cache_put_discard_old_inv c1 B inv1) hd1
    (by simp [sum_sizes]; omega)
  rw [show cache_del_loop ((cache_put_discard_old c1 B).entries.length + 1) pb.length
      (cache_put_discard_old c1 B) =
      cache_del_until_enough pb.length (cache_put_discard_old c1 B) from rfl] at hq2
  rw [hq2] at h2
  generalize cache_put MAXLINE c1 B pb = c2 at h2 inv2 ⊢
  -- after `get A`
  have h3 := cache_get_second c2 A _ _ q2 (by simpa using h2) (by simpa using hAB.symm) rfl
  have inv3 := cache_get_inv c2 A inv2
  generalize (cache_get c2 A).cache = c3 at h3 inv3 ⊢
  -- after `put C`
  rw [cache_put_entries MAXLINE c3 C pc hC hpc]
  obtain ⟨r3, hd3⟩ := cache_put_discard_old_keeps c3 C
    [{ key := A, data := pa, size := pa.length }, { key := B, data := pb, size := pb.length }]
    q2 (by simpa using h3) (by
      intro o ho
      simp only [List.mem_cons, List.mem_singleton, List.not_mem_nil, or_false] at ho
      rcases ho with rfl | rfl
      · exact hAC
      · exact hBC)
  have invd := cache_put_discard_old_inv c3 C inv3
  generalize cache_put_discard_old c3 C = d at hd3 invd ⊢
  obtain ⟨⟨hsum, -⟩, hfit⟩ := cache_del_until_enough_spec pc.length d hpc invd
  obtain ⟨k, hk⟩ := cache_del_loop_prefix (d.entries.length + 1) pc.length d
  obtain ⟨q4, hq4⟩ := cache_del_loop_keeps (d.entries.length + 1) pc.length d
    [{ key := A, data := pa, size := pa.length }]
    ({ key := B, data := pb, size := pb.length } :: r3) hpc invd (by simpa using hd3)
    (by simp [sum_sizes]; omega)
  rw [show cache_del_loop (d.entries.length + 1) pc.length d =
      cache_del_until_enough pc.length d from rfl] at hk hq4
  rw [hsum, hk, hd3] at hfit
  rw [hk, hd3] at hq4 ⊢
  match k, hq4, hfit with
  | 0, hq4, _ => simp at hq4
  | 1, _, _ => simp
  | k + 2, _, hfit =>
    simp [sum_sizes] at hfit
    omega

/-! ## Facts about the string functions -/

theorem strstr_first (pre needle post : List Char)
    (hfirst : ∀ i, i < pre.length →
      List.isPrefixOf needle ((pre ++ needle ++ post).drop i) = false) :
    strstr (pre ++ needle ++ post) needle = some pre.length := by
  induction pre with
  | nil =>
    have hp : List.isPrefixOf needle (needle ++ post) = true :=
      List.isPrefixOf_iff_prefix.mpr (List.prefix_append _ _)
    show strstr ([] ++ needle ++ post) needle = some 0
    rw [List.nil_append]
    generalize needle ++ post = hay at hp
    cases hay with
    | nil =>
      cases needle with
      | nil => rfl
      | cons c r => simp [List.isPrefixOf] at hp
    | cons c rest => rw [strstr, if_pos hp]
  | cons a t ih =>
    have h0 : List.isPrefixOf needle (a :: (t ++ needle ++ post)) = false :=
      hfirst 0 (by simp)
    have ht := ih (fun i hi => hfirst (i + 1) (by simpa using hi))
    show strstr (a :: (t ++ needle ++ post)) needle = some (t.length + 1)
    rw [strstr, h0, ht]
    rfl

theorem strstr_found_before (pre needle post : List Char) :
    ∃ j, j ≤ pre.length ∧ strstr (pre ++ needle ++ post) needle = some j := by
  induction pre with
  | nil =>
    refine ⟨0, Nat.le_refl _, ?_⟩
    have := strstr_first [] needle post (by simp)
    simpa using this
  | cons a t ih =>
    obtain ⟨j, hj, hs⟩ := ih
    show ∃ j, j ≤ (a :: t).length ∧ strstr (a :: (t ++ needle ++ post)) needle = some j
    by_cases hp : List.isPrefixOf needle (a :: (t ++ needle ++ post)) = true
    · exact ⟨0, Nat.zero_le _, by rw [strstr, if_pos hp]⟩
    · refine ⟨j + 1, by simpa using hj, ?_⟩
      rw [strstr, if_neg hp, hs]
      rfl

theorem strchr_first (pre post : List Char) (c : Char) (hpre : c ∉ pre) :
    strchr (pre ++ c :: post) c = some pre.length := by
  induction pre with
  | nil => simp [strchr]
  | cons a t ih =>
    have ha : a ≠ c := fun h => hpre (by simp [h])
    have ht := ih (fun h => hpre (by simp [h]))
    simp [strchr, ha, ht]

theorem strchr_absent (s : List Char) (c : Char) (hs : c ∉ s) : strchr s c = none := by
  induction s with
  | nil => rfl
  | cons a t ih =>
    have ha : a ≠ c := fun h => hs (by simp [h])
    have ht := ih (fun h => hs (by simp [h]))
    simp [strchr, ha, ht]

theorem strncmp_eq_take (a b : List Char) (n m : Nat) (hnm : n ≤ m) (lit : List Char)
    (ha : a.take m = lit) : strncmp_eq a b n = (lit.take n == b.take n) := by
  have : a.take n = lit.take n := by
    rw [← ha, List.take_take, Nat.min_eq_left hnm]
  simp [strncmp_eq, this]

/-! ## Facts about the header loop -/

theorem host_value_length (MAXLINE : Nat) (buf : List Char) (hpos : 0 < MAXLINE) :
    (host_value MAXLINE buf).length < MAXLINE := by
  simp only [host_value, strncpy, List.length_take]
  split <;> omega

theorem read_headers_loop_length (MAXLINE : Nat) (lines : List (List Char)) (hv : List Char)
    (hpos : 0 < MAXLINE) (hhv : hv.length < MAXLINE) :
    (read_headers_loop MAXLINE lines hv).length < MAXLINE := by
  induction lines generalizing hv with
  | nil => exact hhv
  | cons buf rest ih =>
    unfold read_headers_loop
    split
    · exact hhv
    · split
      · exact ih _ (host_value_length MAXLINE buf hpos)
      · exact ih _ hhv

theorem read_headers_length (MAXLINE : Nat) (lines : List (List Char)) (hpos : 0 < MAXLINE) :
    (read_headers MAXLINE lines).length < MAXLINE :=
  read_headers_loop_length MAXLINE lines [] hpos (by simpa using hpos)

theorem read_headers_loop_empty (MAXLINE : Nat) (lines : List (List Char))
    (hnone : ∀ buf, buf ∈ lines.takeWhile (fun l => l ≠ "\r\n".toList) →
      strncasecmp_eq buf "Host:".toList 5 = true → host_value MAXLINE buf = []) :
    read_headers_loop MAXLINE lines [] = [] := by
  induction lines with
  | nil => rfl
  | cons buf rest ih =>
    unfold read_headers_loop
    by_cases hb : buf = "\r\n".toList
    · rw [if_pos hb]
    · rw [if_neg hb]
      have hcons : (buf :: rest).takeWhile (fun l => l ≠ "\r\n".toList) =
          buf :: rest.takeWhile (fun l => l ≠ "\r\n".toList) := by
        rw [List.takeWhile_cons]
        simp only [decide_eq_true hb, if_true]
      rw [hcons] at hnone
      have hrest : ∀ b, b ∈ rest.takeWhile (fun l => l ≠ "\r\n".toList) →
          strncasecmp_eq b "Host:".toList 5 = true → host_value MAXLINE b = [] :=
        fun b hbm => hnone b (List.mem_cons_of_mem _ hbm)
      split
      · rename_i hhost
        rw [hnone buf (List.mem_cons_self _ _) hhost]
        exact ih hrest
      · exact ih hrest

/-! ## Facts about the handler and the parser -/

theorem strstr_absent (hay needle : List Char) (hne : needle ≠ [])
    (habs : ∀ i, i < hay.length → List.isPrefixOf needle (hay.drop i) = false) :
    strstr hay needle = none := by
  induction hay with
  | nil => simp [strstr, hne]
  | cons c rest ih =>
    have h0 : List.isPrefixOf needle (c :: rest) = false := habs 0 (by simp)
    have ht := ih (fun i hi => habs (i + 1) (by simpa using hi))
    rw [strstr, h0, ht]
    rfl

theorem snprintf_fits (n : Nat) (s : List Char) (h : s.length < n) : snprintf n s = s := by
  simp only [snprintf]
  exact List.take_of_length_le (by omega)

/-- The three tests `handle_client` makes on an origin-form request line. -/
theorem origin_line_tests (reqline : List Char) (hreq : reqline.take 5 = "GET /".toList) :
    strncmp_eq reqline "GET ".toList 4 = true ∧
      strncmp_eq reqline "GET http://".toList 11 = false ∧
      strncmp_eq reqline "GET /".toList 5 = true := by
  refine ⟨?_, ?_, ?_⟩
  · rw [strncmp_eq_take reqline _ 4 5 (by omega) _ hreq]
    rfl
  · cases h : strncmp_eq reqline "GET http://".toList 11 with
    | false => rfl
    | true =>
      exfalso
      have h11 : reqline.take 11 = "GET http://".toList := by
        simpa [strncmp_eq] using h
      have h5 : reqline.take 5 = ("GET http://".toList).take 5 := by
        rw [← h11, List.take_take]
        rfl
      rw [hreq] at h5
      revert h5
      decide
  · rw [strncmp_eq_take reqline _ 5 5 (by omega) _ hreq]
    rfl

/-- On an origin-form request line `handle_client` takes the branch
`GET /`. -/
theorem handle_client_request_origin (MAXLINE MAXBUF url_addr : Nat) (reqline : List Char)
    (headers : List (List Char)) (hreq : reqline.take 5 = "GET /".toList) :
    handle_client_request MAXLINE MAXBUF url_addr (some reqline) headers =
      if read_headers MAXLINE headers = [] then response_400_host MAXBUF
      else
        match origin_form MAXLINE reqline (read_headers MAXLINE headers) with
        | none => .closed
        | some (host, port, path) =>
          .lookup host port (if path = [] then "/".toList else path)
            (snprintf MAXLINE (host ++ ":".toList ++ port ++
              (if path = [] then "/".toList else path))) := by
  obtain ⟨h4, h11, h5⟩ := origin_line_tests reqline hreq
  unfold handle_client_request
  simp only [h4, h11, h5, Bool.not_true, Bool.false_eq_true, if_false, if_true]
  split
  · rfl
  · split
    · rename_i h
      simp [h]
    · rename_i parsed h
      obtain ⟨host, port, path⟩ := parsed
      simp [h]

theorem origin_form_path (MAXLINE : Nat) (P rest : List Char)
    (hfirst : ∀ i, i < P.length →
      List.isPrefixOf " HTTP/".toList ((P ++ " HTTP/".toList ++ rest).drop i) = false)
    (hPlen : P.length < MAXLINE) :
    strstr (("GET ".toList ++ P ++ " HTTP/".toList ++ rest).drop 4) " HTTP/".toList =
        some P.length ∧
      strncpy (("GET ".toList ++ P ++ " HTTP/".toList ++ rest).drop 4)
        (if P.length ≥ MAXLINE then MAXLINE - 1 else P.length) = P := by
  have hdrop : ("GET ".toList ++ P ++ " HTTP/".toList ++ rest).drop 4 =
      P ++ " HTTP/".toList ++ rest := by
    simp only [List.append_assoc]
    rfl
  rw [hdrop, if_neg (by omega)]
  refine ⟨strstr_first P _ rest hfirst, ?_⟩
  simp only [strncpy, List.append_assoc]
  exact List.take_left' rfl

theorem origin_form_colon (MAXLINE : Nat) (P rest H N : List Char)
    (hfirst : ∀ i, i < P.length →
      List.isPrefixOf " HTTP/".toList ((P ++ " HTTP/".toList ++ rest).drop i) = false)
    (hPlen : P.length < MAXLINE) (hH : ':' ∉ H) (hHlen : H.length < MAXLINE) :
    origin_form MAXLINE ("GET ".toList ++ P ++ " HTTP/".toList ++ rest)
      (H ++ ":".toList ++ N) = some (H, N.take 15, P) := by
  obtain ⟨hs, hpath⟩ := origin_form_path MAXLINE P rest hfirst hPlen
  have hhv : H ++ ":".toList ++ N = H ++ ':' :: N := by
    simp only [List.append_assoc]
    rfl
  have hc : strchr (H ++ ':' :: N) ':' = some H.length := strchr_first H N ':' hH
  have hdrop : (H ++ ':' :: N).drop (H.length + 1) = N := by
    rw [show H ++ ':' :: N = (H ++ [':']) ++ N by simp]
    exact List.drop_left' (by simp)
  have htake : (H ++ ':' :: N).take H.length = H := List.take_left' rfl
  unfold origin_form
  simp only [hs, hpath, hhv, hc, hdrop]
  rw [if_neg (by omega)]
  simp only [strncpy, htake]
  by_cases hN : N.length ≥ 16
  · rw [if_pos hN]
  · rw [if_neg hN, List.take_length, List.take_of_length_le (by omega)]

theorem origin_form_no_colon (MAXLINE : Nat) (P rest hv : List Char)
    (hfirst : ∀ i, i < P.length →
      List.isPrefixOf " HTTP/".toList ((P ++ " HTTP/".toList ++ rest).drop i) = false)
    (hPlen : P.length < MAXLINE) (hc : ':' ∉ hv) (hvlen : hv.length < MAXLINE) :
    origin_form MAXLINE ("GET ".toList ++ P ++ " HTTP/".toList ++ rest) hv =
      some (hv, "80".toList, P) := by
  obtain ⟨hs, hpath⟩ := origin_form_path MAXLINE P rest hfirst hPlen
  unfold origin_form
  simp only [hs, hpath, strchr_absent hv ':' hc]
  rw [strncpy, List.take_of_length_le (by omega)]

theorem find_colon_bound (s : List Char) (off : Nat) (ps : Option Nat) (k : Nat)
    (h : find_colon s off ps = some k) : off ≤ k ∧ k < off + s.length := by
  induction s generalizing off with
  | nil => simp [find_colon] at h
  | cons c rest ih =>
    unfold find_colon at h
    split at h
    · cases h
    · split at h
      · cases h
        simp
      · have := ih (off + 1) h
        simp only [List.length_cons]
        omega

theorem ptr_diff_null (b : Nat) (hpos : 0 < b) (hb : b < SIZE_MOD) :
    ptr_diff 0 b = SIZE_MOD - b := by
  unfold ptr_diff
  rw [Nat.mod_eq_of_lt hb, Nat.zero_mod, Nat.zero_add]
  exact Nat.mod_eq_of_lt (by omega)

/-- When `parse_uri` returns `0`, the text between `http://` and `HTTP/` holds
a `/`: with a null `path_start` the lengths computed from it are too large for
the buffers. -/
theorem parse_uri_needs_slash (MAXLINE url_addr : Nat) (reqline : List Char)
    (host_sz port_sz path_sz : Nat) (path0 : List Char)
    (r : List Char × List Char × List Char)
    (haddr : url_addr + MAXLINE + host_sz + port_sz + 8 ≤ SIZE_MOD)
    (h : parse_uri MAXLINE url_addr reqline host_sz port_sz path_sz path0 = some r) :
    ∃ len off, strstr (reqline.drop 4) "HTTP/".toList = some len ∧
      strchr ((strncpy (reqline.drop 4) len).drop 7) '/' = some off := by
  unfold parse_uri at h
  by_cases h4 : (!strncmp_eq reqline "GET ".toList 4) = true
  · rw [if_pos h4] at h
    cases h
  · rw [if_neg h4] at h
    simp only [] at h
    cases hs : strstr (reqline.drop 4) "HTTP/".toList with
    | none =>
      rw [hs] at h
      cases h
    | some len =>
      rw [hs] at h
      simp only [] at h
      by_cases hlen : len ≥ MAXLINE
      · rw [if_pos hlen] at h
        cases h
      · rw [if_neg hlen] at h
        by_cases h7 : (!strncmp_eq (strncpy (reqline.drop 4) len) "http://".toList 7) = true
        · rw [if_pos h7] at h
          cases h
        · rw [if_neg h7] at h
          cases hslash : strchr ((strncpy (reqline.drop 4) len).drop 7) '/' with
          | some off => exact ⟨len, off, rfl, hslash⟩
          | none =>
            exfalso
            rw [hslash] at h
            simp only [] at h
            have hM : SIZE_MOD = 2 ^ 64 := rfl
            cases hcol : find_colon ((strncpy (reqline.drop 4) len).drop 7) 0 none with
            | none =>
              rw [hcol] at h
              simp only [] at h
              have hd := ptr_diff_null (url_addr + 7) (by omega) (by omega)
              rw [if_pos (by omega)] at h
              cases h
            | some coff =>
              rw [hcol] at h
              simp only [] at h
              have hb := find_colon_bound _ 0 none coff hcol
              have hl : ((strncpy (reqline.drop 4) len).drop 7).length ≤ len := by
                simp only [strncpy, List.length_drop, List.length_take]
                omega
              have hd := ptr_diff_null (url_addr + 7 + coff) (by omega) (by omega)
              have hp : (ptr_diff 0 (url_addr + 7 + coff) + SIZE_MOD - 1) % SIZE_MOD =
                  SIZE_MOD - (url_addr + 7 + coff) - 1 := by
                rw [hd]
                have : SIZE_MOD - (url_addr + 7 + coff) + SIZE_MOD - 1 =
                    (SIZE_MOD - (url_addr + 7 + coff) - 1) + SIZE_MOD := by omega
                rw [this, Nat.add_mod_right]
                exact Nat.mod_eq_of_lt (by omega)
              rw [hp, if_pos (Or.inr (by omega))] at h
              cases h

theorem find_colon_first (pre post : List Char) (k ps : Nat) (hpre : ':' ∉ pre)
    (hps : k + pre.length < ps) :
    find_colon (pre ++ ':' :: post) k (some ps) = some (k + pre.length) := by
  induction pre generalizing k with
  | nil =>
    have hk : ¬ (some ps = some k) := by
      simp only [Option.some.injEq]
      simp only [List.length_nil] at hps
      omega
    simp [find_colon, hk]
  | cons a t ih =>
    have ha : a ≠ ':' := fun h => hpre (by simp [h])
    simp only [List.length_cons] at hps
    have hk : ¬ (some ps = some k) := by
      simp only [Option.some.injEq]
      omega
    have ht := ih (k + 1) (fun h => hpre (by simp [h])) (by omega)
    show find_colon (a :: (t ++ ':' :: post)) k (some ps) = _
    rw [find_colon, if_neg hk, if_neg ha, ht]
    simp only [List.length_cons]
    congr 1
    omega

theorem find_colon_stop (pre post : List Char) (k : Nat) (hpre : ':' ∉ pre) :
    find_colon (pre ++ post) k (some (k + pre.length)) = none := by
  induction pre generalizing k with
  | nil =>
    cases post with
    | nil => rfl
    | cons c r => simp [find_colon]
  | cons a t ih =>
    have ha : a ≠ ':' := fun h => hpre (by simp [h])
    have hk : ¬ (some (k + (a :: t).length) = some k) := by
      simp only [Option.some.injEq, List.length_cons]
      omega
    have ht := ih (k + 1) (fun h => hpre (by simp [h]))
    show find_colon (a :: (t ++ post)) k (some (k + (a :: t).length)) = none
    rw [find_colon, if_neg hk, if_neg ha]
    rw [show k + (a :: t).length = k + 1 + t.length by simp only [List.length_cons]; omega]
    exact ht

/-- What `parse_uri` returns when the text between `GET ` and the first
`HTTP/` is `http://H:NQ` with `Q` starting with `/`: host `H`, port `N` and
path `Q`. -/
theorem parse_uri_with_port (MAXLINE url_addr : Nat) (H N Q' rest path0 : List Char)
    (hH : ':' ∉ H) (hH' : '/' ∉ H) (hN : '/' ∉ N) (hNne : N ≠ []) (hNlen : N.length < 16)
    (hfirst : ∀ i, i < ("http://".toList ++ (H ++ ':' :: (N ++ '/' :: Q'))).length →
      List.isPrefixOf "HTTP/".toList
        ((("http://".toList ++ (H ++ ':' :: (N ++ '/' :: Q'))) ++ "HTTP/".toList ++ rest).drop i)
        = false)
    (hlen : ("http://".toList ++ (H ++ ':' :: (N ++ '/' :: Q'))).length < MAXLINE) :
    parse_uri MAXLINE url_addr
        ("GET ".toList ++ (("http://".toList ++ (H ++ ':' :: (N ++ '/' :: Q'))) ++
          "HTTP/".toList ++ rest)) MAXLINE 16 MAXLINE path0 =
      some (H, N, '/' :: Q') := by
  have hs := strstr_first _ _ rest hfirst
  have hl : ("http://".toList ++ (H ++ ':' :: (N ++ '/' :: Q'))).length =
      7 + (H.length + (1 + (N.length + (1 + Q'.length)))) := by
    simp only [List.length_append, List.length_cons]
    have : "http://".toList.length = 7 := rfl
    omega
  generalize hu : "http://".toList ++ (H ++ ':' :: (N ++ '/' :: Q')) = url at hs hl hlen
  have h4 : strncmp_eq ("GET ".toList ++ (url ++ "HTTP/".toList ++ rest)) "GET ".toList 4 = true :=
    rfl
  have hdrop : ("GET ".toList ++ (url ++ "HTTP/".toList ++ rest)).drop 4 =
      url ++ "HTTP/".toList ++ rest := rfl
  have hurl : strncpy (url ++ "HTTP/".toList ++ rest) url.length = url := by
    rw [strncpy, List.append_assoc]
    exact List.take_left' rfl
  have h7 : strncmp_eq url "http://".toList 7 = true := by
    rw [← hu]
    rfl
  have hhost : url.drop 7 = H ++ ':' :: (N ++ '/' :: Q') := by
    rw [← hu]
    rfl
  have hslash : strchr (H ++ ':' :: (N ++ '/' :: Q')) '/' = some (H.length + (1 + N.length)) := by
    have := strchr_first (H ++ ':' :: N) Q' '/' (by
      intro hm
      rcases List.mem_append.mp hm with h | h
      · exact hH' h
      · rcases List.mem_cons.mp h with h | h
        · exact absurd h (by decide)
        · exact hN h)
    simp only [List.append_assoc, List.cons_append, List.length_append, List.length_cons] at this
    rw [this]
    congr 1
    omega
  have hpath : (H ++ ':' :: (N ++ '/' :: Q')).drop (H.length + (1 + N.length)) = '/' :: Q' := by
    rw [show H ++ ':' :: (N ++ '/' :: Q') = (H ++ ':' :: N) ++ '/' :: Q' by simp]
    exact List.drop_left' (by simp only [List.length_append, List.length_cons]; omega)
  have hcolon : find_colon (H ++ ':' :: (N ++ '/' :: Q')) 0
      (some (H.length + (1 + N.length))) = some H.length := by
    have := find_colon_first H (N ++ '/' :: Q') 0 (H.length + (1 + N.length)) hH (by omega)
    simpa using this
  have hport : (H ++ ':' :: (N ++ '/' :: Q')).drop (H.length + 1) = N ++ '/' :: Q' := by
    rw [show H ++ ':' :: (N ++ '/' :: Q') = (H ++ [':']) ++ (N ++ '/' :: Q') by simp]
    exact List.drop_left' (by simp)
  have hplen : (H.length + (1 + N.length) + SIZE_MOD - H.length - 1) % SIZE_MOD = N.length := by
    have hM : SIZE_MOD = 2 ^ 64 := rfl
    have : H.length + (1 + N.length) + SIZE_MOD - H.length - 1 = N.length + SIZE_MOD := by omega
    rw [this, Nat.add_mod_right]
    exact Nat.mod_eq_of_lt (by omega)
  have htN : (N ++ '/' :: Q').take N.length = N := List.take_left' rfl
  have htH : (H ++ ':' :: (N ++ '/' :: Q')).take H.length = H := List.take_left' rfl
  have c1 : ¬ url.length ≥ MAXLINE := by omega
  have c2 : ¬ ('/' :: Q').length ≥ MAXLINE := by
    simp only [List.length_cons]
    omega
  have c3 : ¬ (H.length ≥ MAXLINE ∨ N.length ≥ 16) := by omega
  unfold parse_uri
  simp only [h4, hdrop, hs, hurl, h7, hhost, hslash, hpath, hcolon, hport, hplen,
    Bool.not_true, Bool.false_eq_true, if_false, c1, c2, c3]
  simp only [strncpy, htN, htH, hNne, List.take_length, if_false]

/-! ## Claims about the object cache -/

/-- C1: for every cache state (in particular every state reachable from
`cache_init`), every key shorter than `MAXLINE` and every payload of length at
most `MAX_CACHE_SIZE`, `cache_put` followed at once by `cache_get` of the same
key reports a hit and hands back a copy whose length and bytes are those of
the payload. -/
theorem cache_put_then_get (MAXLINE : Nat) (c : cache_t) (K payload : List Char)
    (hK : K.length < MAXLINE) (hp : payload.length ≤ MAX_CACHE_SIZE) :
    (cache_get (cache_put MAXLINE c K payload) K).hit = true ∧
      (cache_get (cache_put MAXLINE c K payload) K).out_size = payload.length ∧
      (cache_get (cache_put MAXLINE c K payload) K).out_data = payload := by
  rw [cache_put_admitted MAXLINE c K payload hp, strncpy_fits K MAXLINE hK]
  simp [cache_get, cache_lookup, cache_lookup_from]

theorem cache_put_then_get_witness :
    (cache_get (cache_put 8192 cache_init "a.com:80/x".toList "hello".toList)
        "a.com:80/x".toList).hit = true ∧
      (cache_get (cache_put 8192 cache_init "a.com:80/x".toList "hello".toList)
        "a.com:80/x".toList).out_size = "hello".toList.length ∧
      (cache_get (cache_put 8192 cache_init "a.com:80/x".toList "hello".toList)
        "a.com:80/x".toList).out_data = "hello".toList :=
  cache_put_then_get 8192 cache_init "a.com:80/x".toList "hello".toList
    (by decide) (by decide)

/-- C2: after `cache_init` and any sequence of `cache_put` and `cache_get`
calls (any keys, any payload sizes), and hence after each call of such a
sequence, `total_size` is the sum of the sizes of the nodes held and is at most
`MAX_CACHE_SIZE = 1049000`. -/
theorem cache_total_size_bounded (MAXLINE : Nat) (ops : List cache_op) (n : Nat) :
    (cache_run MAXLINE (ops.take n)).total_size =
        sum_sizes (cache_run MAXLINE (ops.take n)).entries ∧
      (cache_run MAXLINE (ops.take n)).total_size ≤ 1049000 :=
  cache_run_inv MAXLINE (ops.take n)

/-- C3: `cache_get` changes recency but not size. For every cache state and
key it leaves `total_size` unchanged, and on a hit the node carrying the key
is first in the chain (most recently used). Consequently, in any reachable
state, with three distinct keys (each fitting the key field) and payloads of
one common size of which two but not three fit in the cache, after
`put A`, `put B`, `get A`, `put C` the chain is exactly `C, A`: `B` is absent
and `A` and `C` are both present. -/
theorem cache_get_recency (MAXLINE : Nat) (ops : List cache_op) (A B C pa pb pc : List Char)
    (hAB : A ≠ B) (hAC : A ≠ C) (hBC : B ≠ C)
    (hA : A.length < MAXLINE) (hB : B.length < MAXLINE) (hC : C.length < MAXLINE)
    (hab : pb.length = pa.length) (hac : pc.length = pa.length)
    (htwo : 2 * pa.length ≤ MAX_CACHE_SIZE) (hthree : MAX_CACHE_SIZE < 3 * pa.length) :
    (∀ (c : cache_t) (key : List Char), (cache_get c key).cache.total_size = c.total_size) ∧
      (∀ (c : cache_t) (key : List Char), (cache_get c key).hit = true →
        ∃ obj, (cache_get c key).cache.head = some obj ∧ obj.key = key) ∧
      (cache_run MAXLINE
          (ops ++ [.put A pa, .put B pb, .get A, .put C pc])).entries =
        [{ key := C, data := pc, size := pc.length },
          { key := A, data := pa, size := pa.length }] ∧
      cache_has (cache_run MAXLINE (ops ++ [.put A pa, .put B pb, .get A, .put C pc])) B
        = false ∧
      cache_has (cache_run MAXLINE (ops ++ [.put A pa, .put B pb, .get A, .put C pc])) A
        = true ∧
      cache_has (cache_run MAXLINE (ops ++ [.put A pa, .put B pb, .get A, .put C pc])) C
        = true := by
  have hent : (cache_run MAXLINE (ops ++ [.put A pa, .put B pb, .get A, .put C pc])).entries =
      [{ key := C, data := pc, size := pc.length },
        { key := A, data := pa, size := pa.length }] := by
    simp only [cache_run, List.foldl_append, List.foldl_cons, List.foldl_nil, cache_step]
    exact lru_scenario_entries MAXLINE _ A B C pa pb pc (cache_run_inv MAXLINE ops)
      hAB hAC hBC hA hB hC hab hac htwo hthree
  refine ⟨cache_get_total_size, ?_, hent, ?_, ?_, ?_⟩
  · intro c key hhit
    unfold cache_get at hhit ⊢
    split
    · rename_i i hi
      split
      · rename_i obj hobj
        obtain ⟨o, ho, hk⟩ := cache_lookup_from_get c.entries key i hi
        rw [hobj] at ho
        cases ho
        exact ⟨obj, by simp [cache_t.head, lru_insert_head], hk⟩
      · rename_i hnone
        obtain ⟨o, ho, -⟩ := cache_lookup_from_get c.entries key i hi
        rw [hnone] at ho
        cases ho
    · rename_i hnone
      simp [hnone] at hhit
  · simp [cache_has, cache_lookup, hent, cache_lookup_from, hBC.symm, hAB]
  · simp [cache_has, cache_lookup, hent, cache_lookup_from, hAC.symm]
  · simp [cache_has, cache_lookup, hent, cache_lookup_from]

theorem cache_get_recency_witness :
    cache_has (cache_run 8192
      ([.put "old".toList "data".toList] ++
        [.put "a".toList (List.replicate 400000 'a'), .put "b".toList (List.replicate 400000 'b'),
          .get "a".toList, .put "c".toList (List.replicate 400000 'c')])) "b".toList = false ∧
    cache_has (cache_run 8192
      ([.put "old".toList "data".toList] ++
        [.put "a".toList (List.replicate 400000 'a'), .put "b".toList (List.replicate 400000 'b'),
          .get "a".toList, .put "c".toList (List.replicate 400000 'c')])) "a".toList = true ∧
    cache_has (cache_run 8192
      ([.put "old".toList "data".toList] ++
        [.put "a".toList (List.replicate 400000 'a'), .put "b".toList (List.replicate 400000 'b'),
          .get "a".toList, .put "c".toList (List.replicate 400000 'c')])) "c".toList = true :=
  (cache_get_recency 8192 [.put "old".toList "data".toList] "a".toList "b".toList "c".toList
    (List.replicate 400000 'a') (List.replicate 400000 'b') (List.replicate 400000 'c')
    (by decide) (by decide) (by decide) (by decide) (by decide) (by decide)
    (by simp only [List.length_replicate]) (by simp only [List.length_replicate])
    (by rw [List.length_replicate]; decide)
    (by rw [List.length_replicate]; decide)).2.2.2

/-- C4: for every cache state, every key (present in the cache or not) and
every payload longer than `MAX_CACHE_SIZE`, `cache_put` returns the cache state
it was given: same nodes, same payloads, same order, same `total_size`. -/
theorem cache_put_oversized (MAXLINE : Nat) (c : cache_t) (key payload : List Char)
    (hbig : payload.length > MAX_CACHE_SIZE) :
    cache_put MAXLINE c key payload = c := by
  unfold cache_put
  simp only []
  rw [if_pos hbig]

theorem cache_put_oversized_witness :
    cache_put 8192
        { entries := [{ key := "k".toList, data := "old".toList, size := 3 }], total_size := 3 }
        "k".toList (List.replicate 1049001 'x') =
      { entries := [{ key := "k".toList, data := "old".toList, size := 3 }], total_size := 3 } :=
  cache_put_oversized 8192 _ "k".toList (List.replicate 1049001 'x')
    (by rw [List.length_replicate]; decide)

/-! ## Claims about the request pipeline -/

/-- C5 (what the code does): for host `a.com` and path `/x` the cache key of
the absolute-URI request line `GET http://a.com/x HTTP/1.0` ends in a blank,
the cache key of the origin-form request line `GET /x HTTP/1.0` with
`Host: a.com` does not: the two keys differ. -/
theorem cache_key_of_both_forms (url_addr : Nat) :
    handle_client_request 8192 8192 url_addr (some "GET http://a.com/x HTTP/1.0\r\n".toList)
        ["\r\n".toList] =
      .lookup "a.com".toList "80".toList "/x ".toList "a.com:80/x ".toList ∧
    handle_client_request 8192 8192 url_addr (some "GET /x HTTP/1.0\r\n".toList)
        ["Host: a.com\r\n".toList, "\r\n".toList] =
      .lookup "a.com".toList "80".toList "/x".toList "a.com:80/x".toList ∧
    "a.com:80/x ".toList ≠ "a.com:80/x".toList :=
  ⟨rfl, rfl, by decide⟩

/-- C6 (what the code does): for every request line `GET http://H:N/P HTTP/...`
(`H` without `:` and `/`, `N` not empty, without `/` and shorter than 16, no
`HTTP/` before the one that follows the URL, the URL shorter than `MAXLINE`),
`parse_uri` returns `0` with host `H`, port `N`, and as path `/P` followed by a
blank, which is not `/P`: the text copied to `url` runs up to `HTTP/` and so
keeps the blank before it. -/
theorem parse_uri_explicit_port (MAXLINE url_addr : Nat) (H N P rest : List Char)
    (hH : ':' ∉ H) (hH' : '/' ∉ H) (hN : '/' ∉ N) (hNne : N ≠ []) (hNlen : N.length < 16)
    (hfirst : ∀ i, i < ("http://".toList ++ (H ++ ':' :: (N ++ '/' :: (P ++ [' '])))).length →
      List.isPrefixOf "HTTP/".toList
        ((("http://".toList ++ (H ++ ':' :: (N ++ '/' :: (P ++ [' '])))) ++
          "HTTP/".toList ++ rest).drop i) = false)
    (hlen : ("http://".toList ++ (H ++ ':' :: (N ++ '/' :: (P ++ [' '])))).length < MAXLINE) :
    parse_uri MAXLINE url_addr
        ("GET ".toList ++ (("http://".toList ++ (H ++ ':' :: (N ++ '/' :: (P ++ [' '])))) ++
          "HTTP/".toList ++ rest)) MAXLINE 16 MAXLINE [] =
      some (H, N, '/' :: (P ++ [' '])) ∧
    '/' :: (P ++ [' ']) ≠ '/' :: P := by
  refine ⟨parse_uri_with_port MAXLINE url_addr H N (P ++ [' ']) rest [] hH hH' hN hNne hNlen
    hfirst hlen, ?_⟩
  intro h
  have := congrArg List.length h
  simp at this

theorem parse_uri_explicit_port_witness :
    parse_uri 8192 140737488347000 "GET http://example.com:8080/foo/bar HTTP/1.0\r\n".toList
        8192 16 8192 [] =
      some ("example.com".toList, "8080".toList, "/foo/bar ".toList) ∧
    "/foo/bar ".toList ≠ "/foo/bar".toList :=
  parse_uri_explicit_port 8192 140737488347000 "example.com".toList "8080".toList
    "foo/bar".toList "1.0\r\n".toList (by decide) (by decide) (by decide) (by decide) (by decide)
    (by decide) (by decide)

/-- C7 (what the code does): every request line `GET http://A HTTP/...` whose
authority `A` holds no `/` is answered with the response `400 Bad Request`,
for every address of the array `url` that leaves room above it: `parse_uri`
returns `-1` because it subtracts from the null `path_start`. -/
theorem absolute_uri_without_path (MAXLINE MAXBUF url_addr : Nat) (A rest : List Char)
    (headers : List (List Char)) (hA : '/' ∉ A)
    (haddr : url_addr + 2 * MAXLINE + 24 ≤ 2 ^ 64) :
    handle_client_request MAXLINE MAXBUF url_addr
        (some ("GET http://".toList ++ A ++ " HTTP/".toList ++ rest)) headers =
      .response (response_hdr MAXBUF "HTTP/1.0 400 Bad Request\r\n".toList 12)
        "Bad Request\n".toList := by
  have h4 : strncmp_eq ("GET http://".toList ++ A ++ " HTTP/".toList ++ rest)
      "GET ".toList 4 = true := by
    simp only [List.append_assoc]
    rfl
  have h11 : strncmp_eq ("GET http://".toList ++ A ++ " HTTP/".toList ++ rest)
      "GET http://".toList 11 = true := by
    simp only [List.append_assoc]
    rfl
  have hdrop : ("GET http://".toList ++ A ++ " HTTP/".toList ++ rest).drop 4 =
      ("http://".toList ++ A ++ " ".toList) ++ "HTTP/".toList ++ rest := by
    simp only [List.append_assoc]
    rfl
  have hnone : parse_uri MAXLINE url_addr
      ("GET http://".toList ++ A ++ " HTTP/".toList ++ rest) MAXLINE 16 MAXLINE [] = none := by
    cases hp : parse_uri MAXLINE url_addr
        ("GET http://".toList ++ A ++ " HTTP/".toList ++ rest) MAXLINE 16 MAXLINE [] with
    | none => rfl
    | some r =>
      exfalso
      obtain ⟨len, off, hs, hslash⟩ := parse_uri_needs_slash MAXLINE url_addr _ MAXLINE 16
        MAXLINE [] r (by simp only [SIZE_MOD]; omega) hp
      rw [hdrop] at hs hslash
      obtain ⟨j, hj, hsj⟩ := strstr_found_before ("http://".toList ++ A ++ " ".toList)
        "HTTP/".toList rest
      rw [hsj] at hs
      cases hs
      have habs : '/' ∉ (strncpy (("http://".toList ++ A ++ " ".toList) ++ "HTTP/".toList ++ rest)
          len).drop 7 := by
        intro hmem
        rw [strncpy, List.append_assoc, List.take_append_of_le_length hj, List.drop_take] at hmem
        have hmem2 := List.mem_of_mem_take hmem
        have hd7 : ("http://".toList ++ A ++ " ".toList).drop 7 = A ++ [' '] := by
          simp only [List.append_assoc]
          rfl
        rw [hd7] at hmem2
        rcases List.mem_append.mp hmem2 with h | h
        · exact hA h
        · simp at h
      rw [strchr_absent _ '/' habs] at hslash
      cases hslash
  unfold handle_client_request
  simp only [h4, h11, hnone, Bool.not_true, Bool.false_eq_true, if_false, if_true]
  rfl

theorem absolute_uri_without_path_witness :
    handle_client_request 8192 8192 140737488347000
        (some "GET http://example.com HTTP/1.0\r\n".toList) ["\r\n".toList] =
      .response (response_hdr 8192 "HTTP/1.0 400 Bad Request\r\n".toList 12)
        "Bad Request\n".toList :=
  absolute_uri_without_path 8192 8192 140737488347000 "example.com".toList "1.0\r\n".toList
    ["\r\n".toList] (by decide) (by decide)

/-- C8 (as stated) fails: with the request line `GET /foo HTTP/1.0` and the
header `Host: example.com:1234567890123456` the port taken is the first 15
characters of the text after the colon, not that text. -/
theorem origin_form_long_port :
    handle_client_request 8192 8192 140737488347000 (some "GET /foo HTTP/1.0\r\n".toList)
        ["Host: example.com:1234567890123456\r\n".toList, "\r\n".toList] =
      .lookup "example.com".toList "123456789012345".toList "/foo".toList
        "example.com:123456789012345/foo".toList ∧
    "123456789012345".toList ≠ "1234567890123456".toList := by
  decide

/-- C8 (amended): for every request line `GET P HTTP/...` shorter than
`MAXLINE` in which `P` starts with `/` and is the text before the first
` HTTP/`, and every header block: when the `Host` value taken from the headers
is `H:N` with no colon in `H`, the handler reaches the cache lookup with host
`H`, path `P` and as port the first 15 characters of `N`, which is `N` itself
when `N` is shorter than 16 characters; when the value is not empty and holds
no colon, it does so with the whole value as host and port `80`. -/
theorem origin_form_parse (MAXLINE MAXBUF url_addr : Nat) (P rest : List Char)
    (headers : List (List Char)) (hP : P.head? = some '/')
    (hfirst : ∀ i, i < P.length →
      List.isPrefixOf " HTTP/".toList ((P ++ " HTTP/".toList ++ rest).drop i) = false)
    (hlen : ("GET ".toList ++ P ++ " HTTP/".toList ++ rest).length < MAXLINE) :
    (∀ H N : List Char, read_headers MAXLINE headers = H ++ ":".toList ++ N → ':' ∉ H →
        N.length < 16 →
        handle_client_request MAXLINE MAXBUF url_addr
            (some ("GET ".toList ++ P ++ " HTTP/".toList ++ rest)) headers =
          .lookup H N P (snprintf MAXLINE (H ++ ":".toList ++ N ++ P))) ∧
      (∀ H N : List Char, read_headers MAXLINE headers = H ++ ":".toList ++ N → ':' ∉ H →
        handle_client_request MAXLINE MAXBUF url_addr
            (some ("GET ".toList ++ P ++ " HTTP/".toList ++ rest)) headers =
          .lookup H (N.take 15) P (snprintf MAXLINE (H ++ ":".toList ++ N.take 15 ++ P))) ∧
      (read_headers MAXLINE headers ≠ [] → ':' ∉ read_headers MAXLINE headers →
        handle_client_request MAXLINE MAXBUF url_addr
            (some ("GET ".toList ++ P ++ " HTTP/".toList ++ rest)) headers =
          .lookup (read_headers MAXLINE headers) "80".toList P
            (snprintf MAXLINE (read_headers MAXLINE headers ++ ":".toList ++ "80".toList ++ P))) := by
  have hPlen : P.length < MAXLINE := by
    simp only [List.length_append] at hlen
    omega
  have hpos : 0 < MAXLINE := by omega
  have hvlen := read_headers_length MAXLINE headers hpos
  have hPne : P ≠ [] := by
    intro h
    simp [h] at hP
  have hreq : ("GET ".toList ++ P ++ " HTTP/".toList ++ rest).take 5 = "GET /".toList := by
    cases P with
    | nil => simp at hP
    | cons c t =>
      simp only [List.head?_cons, Option.some.injEq] at hP
      subst hP
      rfl
  have hgen : ∀ H N : List Char, read_headers MAXLINE headers = H ++ ":".toList ++ N →
      ':' ∉ H →
      handle_client_request MAXLINE MAXBUF url_addr
          (some ("GET ".toList ++ P ++ " HTTP/".toList ++ rest)) headers =
        .lookup H (N.take 15) P (snprintf MAXLINE (H ++ ":".toList ++ N.take 15 ++ P)) := by
    intro H N hhv hH
    have hHlen : H.length < MAXLINE := by
      rw [hhv] at hvlen
      simp only [List.length_append] at hvlen
      omega
    have hne : read_headers MAXLINE headers ≠ [] := by
      rw [hhv]
      simp
    rw [handle_client_request_origin MAXLINE MAXBUF url_addr _ headers hreq, if_neg hne, hhv,
      origin_form_colon MAXLINE P rest H N hfirst hPlen hH hHlen]
    simp only [if_neg hPne]
  refine ⟨?_, hgen, ?_⟩
  · intro H N hhv hH hN
    have h15 : N.take 15 = N := List.take_of_length_le (by omega)
    have := hgen H N hhv hH
    rw [h15] at this
    exact this
  · intro hne hc
    rw [handle_client_request_origin MAXLINE MAXBUF url_addr _ headers hreq, if_neg hne,
      origin_form_no_colon MAXLINE P rest _ hfirst hPlen hc hvlen]
    simp only [if_neg hPne]

theorem origin_form_parse_witness :
    handle_client_request 8192 8192 140737488347000 (some "GET /foo HTTP/1.0\r\n".toList)
        ["Host: example.com:9000\r\n".toList, "\r\n".toList] =
      .lookup "example.com".toList "9000".toList "/foo".toList "example.com:9000/foo".toList ∧
    handle_client_request 8192 8192 140737488347000 (some "GET /foo HTTP/1.0\r\n".toList)
        ["Host: example.com\r\n".toList, "\r\n".toList] =
      .lookup "example.com".toList "80".toList "/foo".toList "example.com:80/foo".toList :=
  ⟨(origin_form_parse 8192 8192 140737488347000 "/foo".toList "1.0\r\n".toList
      ["Host: example.com:9000\r\n".toList, "\r\n".toList] (by decide) (by decide) (by decide)).1
      "example.com".toList "9000".toList (by decide) (by decide) (by decide),
    (origin_form_parse 8192 8192 140737488347000 "/foo".toList "1.0\r\n".toList
      ["Host: example.com\r\n".toList, "\r\n".toList] (by decide) (by decide) (by decide)).2.2
      (by decide) (by decide)⟩

/-- C9: for every request line that starts with `GET /` and every header
block (the lines up to the first empty line) in which no line starts with
`Host:` in any letter case, or in which every such line carries an empty
value, the handler writes the response `400 Bad Request` with the body
`Bad Request: Host header required` and returns: it reaches neither the cache
lookup nor the upstream connection. -/
theorem origin_form_without_host (MAXLINE MAXBUF url_addr : Nat) (reqline : List Char)
    (headers : List (List Char)) (hreq : reqline.take 5 = "GET /".toList)
    (hnone : ∀ buf, buf ∈ headers.takeWhile (fun l => l ≠ "\r\n".toList) →
      strncasecmp_eq buf "Host:".toList 5 = true → host_value MAXLINE buf = [])
    (hbuf : 93 < MAXBUF) :
    handle_client_request MAXLINE MAXBUF url_addr (some reqline) headers =
      .response
        ("HTTP/1.0 400 Bad Request\r\n".toList ++ "Content-Type: text/plain\r\n".toList ++
          "Content-Length: 34\r\n".toList ++ "Connection: close\r\n\r\n".toList)
        "Bad Request: Host header required\n".toList := by
  rw [handle_client_request_origin MAXLINE MAXBUF url_addr reqline headers hreq]
  have hhv : read_headers MAXLINE headers = [] := read_headers_loop_empty MAXLINE headers hnone
  rw [if_pos hhv]
  simp only [response_400_host, response_hdr]
  rw [snprintf_fits]
  · rfl
  · exact hbuf

theorem origin_form_without_host_witness :
    handle_client_request 8192 8192 140737488347000 (some "GET /foo HTTP/1.0\r\n".toList)
        ["Accept: */*\r\n".toList, "Host:  \r\n".toList, "\r\n".toList, "Host: a.com\r\n".toList] =
      .response
        ("HTTP/1.0 400 Bad Request\r\n".toList ++ "Content-Type: text/plain\r\n".toList ++
          "Content-Length: 34\r\n".toList ++ "Connection: close\r\n\r\n".toList)
        "Bad Request: Host header required\n".toList :=
  origin_form_without_host 8192 8192 140737488347000 "GET /foo HTTP/1.0\r\n".toList
    ["Accept: */*\r\n".toList, "Host:  \r\n".toList, "\r\n".toList, "Host: a.com\r\n".toList]
    (by decide) (by decide) (by decide)

/-- C10 (what the code does): for every request line that starts with `GET /`
and holds no ` HTTP/`, and every header block from which a non-empty `Host`
value is taken, the handler returns without writing anything to the client. -/
theorem origin_form_without_marker (MAXLINE MAXBUF url_addr : Nat) (reqline : List Char)
    (headers : List (List Char)) (hreq : reqline.take 5 = "GET /".toList)
    (hhost : read_headers MAXLINE headers ≠ [])
    (hmark : ∀ i, i < reqline.length →
      List.isPrefixOf " HTTP/".toList (reqline.drop i) = false) :
    handle_client_request MAXLINE MAXBUF url_addr (some reqline) headers = .closed := by
  rw [handle_client_request_origin MAXLINE MAXBUF url_addr reqline headers hreq]
  rw [if_neg hhost]
  have hs : strstr (reqline.drop 4) " HTTP/".toList = none := by
    apply strstr_absent _ _ (by decide)
    intro i hi
    rw [List.drop_drop]
    apply hmark
    simp only [List.length_drop] at hi
    omega
  have ho : origin_form MAXLINE reqline (read_headers MAXLINE headers) = none := by
    unfold origin_form
    simp only [hs]
  rw [ho]

theorem origin_form_without_marker_witness :
    handle_client_request 8192 8192 140737488347000 (some "GET /foo\r\n".toList)
        ["Host: a.com\r\n".toList, "\r\n".toList] = .closed :=
  origin_form_without_marker 8192 8192 140737488347000 "GET /foo\r\n".toList
    ["Host: a.com\r\n".toList, "\r\n".toList] (by decide) (by decide) (by decide)

/-! ## Facts about the relay loop and the handler -/

theorem relay_loop_client_out (chunks : List (List Char)) (s : relay_state)
    (hne : ∀ ch, ch ∈ chunks → ch ≠ []) :
    (relay_loop chunks s).client_out = s.client_out ++ chunks.flatten := by
  induction chunks generalizing s with
  | nil => simp [relay_loop]
  | cons ch rest ih =>
    have hch : ¬ ch.length = 0 := by
      intro h
      exact hne ch (List.mem_cons_self _ _) (List.length_eq_zero.mp h)
    have hrest : ∀ x, x ∈ rest → x ≠ [] := fun x hx => hne x (List.mem_cons_of_mem _ hx)
    unfold relay_loop
    rw [if_neg hch]
    simp only []
    rw [ih _ hrest]
    split
    · split <;> simp [List.append_assoc]
    · simp [List.append_assoc]

/-- Once `can_cache` is cleared the relay loop never appends to `obj_buf`
again. -/
theorem relay_loop_stopped (chunks : List (List Char)) (s : relay_state)
    (hstop : s.can_cache = false) :
    (relay_loop chunks s).can_cache = false ∧ (relay_loop chunks s).obj_buf = s.obj_buf ∧
      (relay_loop chunks s).obj_size = s.obj_size := by
  induction chunks generalizing s with
  | nil => exact ⟨hstop, rfl, rfl⟩
  | cons ch rest ih =>
    unfold relay_loop
    split
    · exact ⟨hstop, rfl, rfl⟩
    · simp only [hstop, Bool.false_eq_true, if_false]
      exact ih _ rfl

theorem relay_loop_capture (MAXLINE : Nat) (chunks : List (List Char)) (s : relay_state)
    (hne : ∀ ch, ch ∈ chunks → ch ≠ []) (hlen : ∀ ch, ch ∈ chunks → ch.length ≤ MAXLINE)
    (hM : MAXLINE + MAX_OBJECT_SIZE < SIZE_MOD) (hcan : s.can_cache = true)
    (hsz : s.obj_size ≤ MAX_OBJECT_SIZE) :
    (s.obj_size + chunks.flatten.length ≤ MAX_OBJECT_SIZE →
        (relay_loop chunks s).can_cache = true ∧
        (relay_loop chunks s).obj_buf = s.obj_buf ++ chunks.flatten ∧
        (relay_loop chunks s).obj_size = s.obj_size + chunks.flatten.length) ∧
      (MAX_OBJECT_SIZE < s.obj_size + chunks.flatten.length →
        (relay_loop chunks s).can_cache = false) := by
  induction chunks generalizing s with
  | nil =>
    constructor
    · intro _
      simp [relay_loop, hcan]
    · intro h
      simp only [List.flatten_nil, List.length_nil, Nat.add_zero] at h
      omega
  | cons ch rest ih =>
    have hch : ¬ ch.length = 0 := by
      intro h
      exact hne ch (List.mem_cons_self _ _) (List.length_eq_zero.mp h)
    have hrest : ∀ x, x ∈ rest → x ≠ [] := fun x hx => hne x (List.mem_cons_of_mem _ hx)
    have hrlen : ∀ x, x ∈ rest → x.length ≤ MAXLINE :=
      fun x hx => hlen x (List.mem_cons_of_mem _ hx)
    have hchlen : ch.length ≤ MAXLINE := hlen ch (List.mem_cons_self _ _)
    have hmod : (s.obj_size + ch.length) % SIZE_MOD = s.obj_size + ch.length :=
      Nat.mod_eq_of_lt (by omega)
    have hfl : (ch :: rest).flatten.length = ch.length + rest.flatten.length := by
      simp
    unfold relay_loop
    rw [if_neg hch]
    simp only [hcan, if_true, hmod]
    by_cases hfit : s.obj_size + ch.length ≤ MAX_OBJECT_SIZE
    · rw [if_pos hfit]
      obtain ⟨h1, h2⟩ := ih
        { client_out := s.client_out ++ ch, obj_buf := s.obj_buf ++ ch,
          obj_size := s.obj_size + ch.length, can_cache := true }
        hrest hrlen rfl hfit
      constructor
      · intro h
        obtain ⟨a, b, c⟩ := h1 (by simp only [] ; omega)
        refine ⟨a, ?_, ?_⟩
        · rw [b]
          simp [List.append_assoc]
        · rw [c]
          simp only []
          omega
      · intro h
        exact h2 (by simp only []; omega)
    · rw [if_neg hfit]
      constructor
      · intro h
        omega
      · intro _
        exact (relay_loop_stopped rest _ rfl).1

theorem cache_get_miss (c : cache_t) (key : List Char) (hmiss : (cache_get c key).hit = false) :
    cache_lookup c key = none ∧ (cache_get c key).cache = c := by
  unfold cache_get at hmiss ⊢
  cases hl : cache_lookup c key with
  | none => simp
  | some i =>
    obtain ⟨o, ho, -⟩ := cache_lookup_from_get c.entries key i hl
    rw [hl] at hmiss
    simp only [ho] at hmiss
    cases hmiss

/-- On a cache miss with the upstream connection open, `handle_client` sends
the upstream request, runs the relay loop and stores the capture if
`can_cache` still holds and `obj_size` is not `0`. -/
theorem handle_client_miss (MAXLINE MAXBUF url_addr : Nat) (c : cache_t)
    (reqline : Option (List Char)) (headers chunks : List (List Char))
    (host port path key : List Char)
    (hreq : handle_client_request MAXLINE MAXBUF url_addr reqline headers =
      .lookup host port path key)
    (hmiss : (cache_get c key).hit = false) :
    handle_client MAXLINE MAXBUF url_addr c reqline headers (some chunks) =
      if (relay_loop chunks relay_init).can_cache = true ∧
          (relay_loop chunks relay_init).obj_size > 0 then
        { cache := cache_put MAXLINE c key
            ((relay_loop chunks relay_init).obj_buf.take (relay_loop chunks relay_init).obj_size)
          client_out := (relay_loop chunks relay_init).client_out
          client_reads := client_reads reqline headers
          lookup_key := some key
          connect := some (host, port)
          upstream_out := upstream_request MAXBUF host port path
          put_call := some (key,
            (relay_loop chunks relay_init).obj_buf.take (relay_loop chunks relay_init).obj_size) }
      else
        { cache := c
          client_out := (relay_loop chunks relay_init).client_out
          client_reads := client_reads reqline headers
          lookup_key := some key
          connect := some (host, port)
          upstream_out := upstream_request MAXBUF host port path
          put_call := none } := by
  unfold handle_client
  simp only [hreq, hmiss, (cache_get_miss c key hmiss).2, Bool.false_eq_true, if_false]

/-- Lines of a header block that are not `Host` lines and not the empty line
do not change what the header loop leaves in `host_hdr_value`. -/
theorem read_headers_loop_filter (MAXLINE : Nat) (lines : List (List Char)) (hv : List Char) :
    read_headers_loop MAXLINE (lines.filter header_line_used) hv =
      read_headers_loop MAXLINE lines hv := by
  induction lines generalizing hv with
  | nil => rfl
  | cons buf rest ih =>
    by_cases hb : buf = "\r\n".toList
    · have hu : header_line_used buf = true := by
        simp only [header_line_used, hb, decide_True, Bool.true_or]
      rw [List.filter_cons, if_pos hu]
      unfold read_headers_loop
      simp only [hb, if_true]
    · by_cases hh : strncasecmp_eq buf "Host:".toList 5 = true
      · have hu : header_line_used buf = true := by
          simp only [header_line_used, hh, Bool.or_true]
        rw [List.filter_cons, if_pos hu]
        unfold read_headers_loop
        simp only [hb, hh, if_true, if_false]
        exact ih _
      · have hu : ¬ header_line_used buf = true := by
          simp only [header_line_used, hb, hh, decide_False, Bool.or_self, Bool.false_eq_true,
            not_false_eq_true]
        rw [List.filter_cons, if_neg hu]
        conv_rhs => unfold read_headers_loop
        simp only [hb, hh, if_false, Bool.false_eq_true]
        exact ih _

/-- The handler uses the header block only through `host_hdr_value`. -/
theorem handle_client_request_congr (MAXLINE MAXBUF url_addr : Nat)
    (reqline : Option (List Char)) (headers headers' : List (List Char))
    (h : read_headers MAXLINE headers' = read_headers MAXLINE headers) :
    handle_client_request MAXLINE MAXBUF url_addr reqline headers' =
      handle_client_request MAXLINE MAXBUF url_addr reqline headers := by
  unfold handle_client_request
  rw [h]

theorem handle_client_upstream_out_congr (MAXLINE MAXBUF url_addr : Nat) (c : cache_t)
    (reqline : Option (List Char)) (headers headers' : List (List Char))
    (upstream : Option (List (List Char)))
    (h : handle_client_request MAXLINE MAXBUF url_addr reqline headers' =
      handle_client_request MAXLINE MAXBUF url_addr reqline headers) :
    (handle_client MAXLINE MAXBUF url_addr c reqline headers' upstream).upstream_out =
      (handle_client MAXLINE MAXBUF url_addr c reqline headers upstream).upstream_out := by
  unfold handle_client
  rw [h]
  cases handle_client_request MAXLINE MAXBUF url_addr reqline headers with
  | closed => rfl
  | response hdr body => rfl
  | lookup host port path key =>
    simp only []
    by_cases hhit : (cache_get c key).hit = true
    · simp only [hhit, if_true]
    · simp only [hhit, if_false, Bool.false_eq_true]
      cases upstream with
      | none => rfl
      | some chunks =>
        simp only []
        split <;> rfl

theorem response_hdr_fits (MAXBUF : Nat) (status : List Char) (len : Nat)
    (h : (status ++ "Content-Type: text/plain\r\n".toList ++
      "Content-Length: ".toList ++ fmt_d len ++ "\r\n".toList ++
      "Connection: close\r\n\r\n".toList).length < MAXBUF) :
    response_hdr MAXBUF status len =
      status ++ "Content-Type: text/plain\r\n".toList ++
        "Content-Length: ".toList ++ fmt_d len ++ "\r\n".toList ++
        "Connection: close\r\n\r\n".toList := by
  unfold response_hdr
  exact snprintf_fits _ _ h

/-- How `handle_client` can leave its first part: silently, with one of its
three responses, or towards the cache lookup. -/
theorem handle_client_request_cases (MAXLINE MAXBUF url_addr : Nat)
    (reqline : Option (List Char)) (headers : List (List Char)) :
    handle_client_request MAXLINE MAXBUF url_addr reqline headers = .closed ∨
      handle_client_request MAXLINE MAXBUF url_addr reqline headers = response_501 MAXBUF ∨
      handle_client_request MAXLINE MAXBUF url_addr reqline headers = response_400_host MAXBUF ∨
      handle_client_request MAXLINE MAXBUF url_addr reqline headers = response_400 MAXBUF ∨
      ∃ host port path key,
        handle_client_request MAXLINE MAXBUF url_addr reqline headers =
          .lookup host port path key := by
  unfold handle_client_request
  cases reqline with
  | none => exact Or.inl rfl
  | some line =>
    simp only []
    repeat' split
    all_goals
      first
        | exact Or.inl rfl
        | exact Or.inr (Or.inl rfl)
        | exact Or.inr (Or.inr (Or.inl rfl))
        | exact Or.inr (Or.inr (Or.inr (Or.inl rfl)))
        | exact Or.inr (Or.inr (Or.inr (Or.inr ⟨_, _, _, _, rfl⟩)))

theorem strchr_head (s : List Char) (c : Char) (off : Nat) (h : strchr s c = some off) :
    (s.drop off).head? = some c := by
  induction s generalizing off with
  | nil => simp [strchr] at h
  | cons a t ih =>
    unfold strchr at h
    split at h
    · rename_i hac
      cases h
      simp [hac]
    · cases hr : strchr t c with
      | none => simp [hr] at h
      | some j =>
        simp [hr] at h
        subst h
        simpa using ih j hr

theorem strstr_pos (hay needle : List Char) (a b : Char) (sp : Nat)
    (hh : hay.head? = some a) (hn : needle.head? = some b) (hab : a ≠ b)
    (h : strstr hay needle = some sp) : 0 < sp := by
  cases hay with
  | nil => simp at hh
  | cons c rest =>
    cases needle with
    | nil => simp at hn
    | cons d nrest =>
      simp only [List.head?_cons, Option.some.injEq] at hh hn
      subst hh hn
      have hdc : d ≠ c := fun h => hab h.symm
      have hp : List.isPrefixOf (d :: nrest) (c :: rest) = false := by
        simp [List.isPrefixOf, hdc]
      rw [strstr, hp] at h
      simp only [Bool.false_eq_true, if_false] at h
      cases hr : strstr rest (d :: nrest) with
      | none => simp [hr] at h
      | some j =>
        simp [hr] at h
        omega

/-- Shape of what `parse_uri` hands back when it returns `0`: the path is
empty, the old content of the buffer, or starts with `/`; the port is not
empty and fits its buffer. -/
theorem parse_uri_shape (MAXLINE url_addr : Nat) (reqline : List Char)
    (host_sz port_sz path_sz : Nat) (path0 host port path : List Char)
    (h : parse_uri MAXLINE url_addr reqline host_sz port_sz path_sz path0 =
      some (host, port, path)) :
    (path = [] ∨ path = path0 ∨ path.head? = some '/') ∧ port ≠ [] ∧ port.length < port_sz := by
  unfold parse_uri at h
  by_cases h4 : (!strncmp_eq reqline "GET ".toList 4) = true
  · rw [if_pos h4] at h
    cases h
  · rw [if_neg h4] at h
    simp only [] at h
    cases hs : strstr (reqline.drop 4) "HTTP/".toList with
    | none =>
      rw [hs] at h
      cases h
    | some len =>
      rw [hs] at h
      simp only [] at h
      by_cases hlen : len ≥ MAXLINE
      · rw [if_pos hlen] at h
        cases h
      · rw [if_neg hlen] at h
        by_cases h7 : (!strncmp_eq (strncpy (reqline.drop 4) len) "http://".toList 7) = true
        · rw [if_pos h7] at h
          cases h
        · rw [if_neg h7] at h
          generalize (strncpy (reqline.drop 4) len).drop 7 = host_start at h
          have hport : ∀ (p : List Char) (hostv : List Char) (portv : List Char),
              (match find_colon host_start 0 (strchr host_start '/') with
                | none =>
                  if (match strchr host_start '/' with
                      | some off => off
                      | none => ptr_diff 0 (url_addr + 7)) ≥ host_sz then none
                  else
                    if port_sz < 3 then none
                    else some (strncpy host_start
                      (match strchr host_start '/' with
                        | some off => off
                        | none => ptr_diff 0 (url_addr + 7)), "80".toList, p)
                | some coff =>
                  if coff ≥ host_sz ∨
                      (match strchr host_start '/' with
                        | some off => (off + SIZE_MOD - coff - 1) % SIZE_MOD
                        | none => (ptr_diff 0 (url_addr + 7 + coff) + SIZE_MOD - 1) % SIZE_MOD) ≥
                        port_sz then none
                  else
                    if strncpy (host_start.drop (coff + 1))
                        (match strchr host_start '/' with
                          | some off => (off + SIZE_MOD - coff - 1) % SIZE_MOD
                          | none => (ptr_diff 0 (url_addr + 7 + coff) + SIZE_MOD - 1) % SIZE_MOD) = []
                    then none
                    else some (strncpy host_start coff,
                      strncpy (host_start.drop (coff + 1))
                        (match strchr host_start '/' with
                          | some off => (off + SIZE_MOD - coff - 1) % SIZE_MOD
                          | none => (ptr_diff 0 (url_addr + 7 + coff) + SIZE_MOD - 1) % SIZE_MOD),
                      p)) = some (hostv, portv, path) →
              p = path ∧ portv ≠ [] ∧ portv.length < port_sz := by
            intro p hostv portv hm
            cases hc : find_colon host_start 0 (strchr host_start '/') with
            | none =>
              rw [hc] at hm
              simp only [] at hm
              split at hm
              · cases hm
              · split at hm
                · cases hm
                · rename_i hp3
                  simp only [Option.some.injEq, Prod.mk.injEq] at hm
                  obtain ⟨-, hp, hpath⟩ := hm
                  subst hp
                  refine ⟨hpath, by decide, ?_⟩
                  show 2 < port_sz
                  omega
            | some coff =>
              rw [hc] at hm
              simp only [] at hm
              split at hm
              · cases hm
              · rename_i hsz
                split at hm
                · cases hm
                · rename_i hne
                  simp only [Option.some.injEq, Prod.mk.injEq] at hm
                  obtain ⟨-, hp, hpath⟩ := hm
                  subst hp
                  refine ⟨hpath, hne, ?_⟩
                  simp only [strncpy, List.length_take]
                  omega
          cases hslash : strchr host_start '/' with
          | none =>
            rw [hslash] at h hport
            simp only [] at h
            obtain ⟨hp, h1, h2⟩ := hport _ host port h
            refine ⟨?_, h1, h2⟩
            rw [← hp]
            split
            · exact Or.inl rfl
            · exact Or.inr (Or.inl rfl)
          | some off =>
            rw [hslash] at h hport
            simp only [] at h
            by_cases hpl : (host_start.drop off).length ≥ path_sz
            · rw [if_pos hpl] at h
              cases h
            · rw [if_neg hpl] at h
              simp only [] at h
              obtain ⟨hp, h1, h2⟩ := hport _ host port h
              refine ⟨Or.inr (Or.inr ?_), h1, h2⟩
              rw [← hp, strncpy, List.take_length]
              exact strchr_head host_start '/' off hslash

theorem origin_form_shape (MAXLINE : Nat) (line hv host port path : List Char)
    (hline : line.take 5 = "GET /".toList)
    (h : origin_form MAXLINE line hv = some (host, port, path)) :
    (path = [] ∨ path.head? = some '/') ∧ port.length < 16 := by
  have hp0 : line.drop 4 = '/' :: line.drop 5 := by
    have h1 : line = "GET /".toList ++ line.drop 5 := by
      conv_lhs => rw [← List.take_append_drop 5 line, hline]
    conv_lhs => rw [h1]
    rfl
  unfold origin_form at h
  rw [hp0] at h
  simp only [] at h
  cases hs : strstr ('/' :: line.drop 5) " HTTP/".toList with
  | none =>
    rw [hs] at h
    cases h
  | some sp =>
    rw [hs] at h
    simp only [] at h
    have hpath : ∀ n, strncpy ('/' :: line.drop 5) n = [] ∨
        (strncpy ('/' :: line.drop 5) n).head? = some '/' := by
      intro n
      cases n with
      | zero => exact Or.inl rfl
      | succ m => exact Or.inr rfl
    cases hc : strchr hv ':' with
    | none =>
      rw [hc] at h
      simp only [Option.some.injEq, Prod.mk.injEq] at h
      obtain ⟨-, hp, hpa⟩ := h
      subst hp hpa
      exact ⟨hpath _, by decide⟩
    | some colon =>
      rw [hc] at h
      simp only [Option.some.injEq, Prod.mk.injEq] at h
      obtain ⟨-, hp, hpa⟩ := h
      subst hp hpa
      refine ⟨hpath _, ?_⟩
      simp only [strncpy, List.length_take]
      split <;> omega

/-! ## Claims about the handler as a whole -/

/-- C11: for every request line that does not begin with the four characters
`GET `, whatever the header block, the cache and the upstream server, the
bytes `handle_client` writes to the client are exactly the response
`HTTP/1.0 501 Not Implemented` (head, then the body `Not Implemented`); it has
read the request line only (no header line), it calls neither `cache_get` nor
`cache_put`, leaves the cache as it was, and does not call `Open_clientfd`. -/
theorem unsupported_method (MAXLINE MAXBUF url_addr : Nat) (c : cache_t) (reqline : List Char)
    (headers : List (List Char)) (upstream : Option (List (List Char)))
    (hm : reqline.take 4 ≠ "GET ".toList) (hbuf : 97 < MAXBUF) :
    handle_client MAXLINE MAXBUF url_addr c (some reqline) headers upstream =
      { cache := c
        client_out :=
          "HTTP/1.0 501 Not Implemented\r\n".toList ++ "Content-Type: text/plain\r\n".toList ++
            "Content-Length: 16\r\n".toList ++ "Connection: close\r\n\r\n".toList ++
            "Not Implemented\n".toList
        client_reads := 1
        lookup_key := none
        connect := none
        upstream_out := []
        put_call := none } := by
  have h4 : strncmp_eq reqline "GET ".toList 4 = false := by
    cases h : strncmp_eq reqline "GET ".toList 4 with
    | false => rfl
    | true =>
      exfalso
      apply hm
      have : reqline.take 4 = ("GET ".toList).take 4 := by simpa [strncmp_eq] using h
      rw [this]
      rfl
  have hreq : handle_client_request MAXLINE MAXBUF url_addr (some reqline) headers =
      response_501 MAXBUF := by
    unfold handle_client_request
    simp only [h4, Bool.not_false, if_true]
  have hhdr : response_hdr MAXBUF "HTTP/1.0 501 Not Implemented\r\n".toList 16 =
      "HTTP/1.0 501 Not Implemented\r\n".toList ++ "Content-Type: text/plain\r\n".toList ++
        "Content-Length: 16\r\n".toList ++ "Connection: close\r\n\r\n".toList :=
    response_hdr_fits MAXBUF _ 16 hbuf
  have hreads : client_reads (some reqline) headers = 1 := by
    unfold client_reads
    simp only [h4, Bool.not_false, if_true]
  unfold handle_client
  rw [hreq]
  simp only [response_501, hreads]
  rw [show "Not Implemented\n".toList.length = 16 from rfl, hhdr]

theorem unsupported_method_witness :
    handle_client 8192 8192 140737488347000 cache_init (some "POST /x HTTP/1.0\r\n".toList)
        ["Host: a.com\r\n".toList, "\r\n".toList] (some ["HTTP/1.0 200 OK\r\n\r\n".toList]) =
      { cache := cache_init
        client_out :=
          "HTTP/1.0 501 Not Implemented\r\n".toList ++ "Content-Type: text/plain\r\n".toList ++
            "Content-Length: 16\r\n".toList ++ "Connection: close\r\n\r\n".toList ++
            "Not Implemented\n".toList
        client_reads := 1
        lookup_key := none
        connect := none
        upstream_out := []
        put_call := none } :=
  unsupported_method 8192 8192 140737488347000 cache_init "POST /x HTTP/1.0\r\n".toList
    ["Host: a.com\r\n".toList, "\r\n".toList] (some ["HTTP/1.0 200 OK\r\n\r\n".toList])
    (by decide) (by decide)

/-- C12: for every request that reaches the cache lookup and misses, and
every sequence of non-empty upstream blocks of at most `MAXLINE` bytes each,
the bytes written to the client are the blocks in order; `cache_put` is
called exactly when the total length is greater than `0` and at most
`MAX_OBJECT_SIZE = 102400`, with the key of the lookup and the whole
concatenation as payload; otherwise it is not called, the cache is left as it
was and does not hold the key. Once `can_cache` is cleared the relay loop
appends nothing more to the capture. -/
theorem relay_and_store (MAXLINE MAXBUF url_addr : Nat) (c : cache_t)
    (reqline : Option (List Char)) (headers chunks : List (List Char))
    (host port path key : List Char)
    (hreq : handle_client_request MAXLINE MAXBUF url_addr reqline headers =
      .lookup host port path key)
    (hmiss : (cache_get c key).hit = false)
    (hne : ∀ ch, ch ∈ chunks → ch ≠ []) (hlen : ∀ ch, ch ∈ chunks → ch.length ≤ MAXLINE)
    (hM : MAXLINE + 102400 < 2 ^ 64) :
    (handle_client MAXLINE MAXBUF url_addr c reqline headers (some chunks)).client_out =
        chunks.flatten ∧
      (0 < chunks.flatten.length ∧ chunks.flatten.length ≤ 102400 →
        (handle_client MAXLINE MAXBUF url_addr c reqline headers (some chunks)).put_call =
            some (key, chunks.flatten) ∧
          (handle_client MAXLINE MAXBUF url_addr c reqline headers (some chunks)).cache =
            cache_put MAXLINE c key chunks.flatten) ∧
      (¬ (0 < chunks.flatten.length ∧ chunks.flatten.length ≤ 102400) →
        (handle_client MAXLINE MAXBUF url_addr c reqline headers (some chunks)).put_call = none ∧
          (handle_client MAXLINE MAXBUF url_addr c reqline headers (some chunks)).cache = c ∧
          cache_has
            (handle_client MAXLINE MAXBUF url_addr c reqline headers (some chunks)).cache key =
            false) ∧
      (∀ (rest : List (List Char)) (s : relay_state), s.can_cache = false →
        (relay_loop rest s).can_cache = false ∧ (relay_loop rest s).obj_buf = s.obj_buf ∧
          (relay_loop rest s).obj_size = s.obj_size) := by
  have hmissl := (cache_get_miss c key hmiss).1
  have hcap := relay_loop_capture MAXLINE chunks relay_init hne hlen hM rfl (by decide)
  have hout := relay_loop_client_out chunks relay_init hne
  simp only [relay_init, List.nil_append, Nat.zero_add] at hcap hout
  rw [show ({ client_out := [], obj_buf := [], obj_size := 0, can_cache := true } : relay_state) =
    relay_init from rfl] at hcap hout
  have hO : MAX_OBJECT_SIZE = 102400 := rfl
  rw [hO] at hcap
  rw [handle_client_miss MAXLINE MAXBUF url_addr c reqline headers chunks host port path key
    hreq hmiss]
  refine ⟨?_, ?_, ?_, relay_loop_stopped⟩
  · split <;> exact hout
  · intro hsz
    obtain ⟨h1, h2, h3⟩ := hcap.1 hsz.2
    rw [if_pos ⟨h1, by omega⟩]
    rw [h2, h3, List.take_length]
    exact ⟨rfl, rfl⟩
  · intro hsz
    have hcond : ¬ ((relay_loop chunks relay_init).can_cache = true ∧
        (relay_loop chunks relay_init).obj_size > 0) := by
      intro hc
      by_cases hle : chunks.flatten.length ≤ 102400
      · obtain ⟨-, -, h3⟩ := hcap.1 hle
        omega
      · have := hcap.2 (by omega)
        rw [this] at hc
        exact absurd hc.1 (by decide)
    rw [if_neg hcond]
    exact ⟨rfl, rfl, by simp [cache_has, hmissl]⟩

theorem relay_and_store_witness :
    (handle_client 8192 8192 140737488347000 cache_init (some "GET /x HTTP/1.0\r\n".toList)
        ["Host: a.com\r\n".toList, "\r\n".toList]
        (some ["HTTP/1.0 200 OK\r\n\r\n".toList, "hi".toList])).put_call =
      some ("a.com:80/x".toList, ["HTTP/1.0 200 OK\r\n\r\n".toList, "hi".toList].flatten) ∧
    (handle_client 8192 8192 140737488347000 cache_init (some "GET /x HTTP/1.0\r\n".toList)
        ["Host: a.com\r\n".toList, "\r\n".toList]
        (some (List.replicate 25 (List.replicate 8192 'x')))).client_out =
      (List.replicate 25 (List.replicate 8192 'x')).flatten ∧
    (handle_client 8192 8192 140737488347000 cache_init (some "GET /x HTTP/1.0\r\n".toList)
        ["Host: a.com\r\n".toList, "\r\n".toList]
        (some (List.replicate 25 (List.replicate 8192 'x')))).put_call = none :=
  have h200 := relay_and_store 8192 8192 140737488347000 cache_init
    (some "GET /x HTTP/1.0\r\n".toList) ["Host: a.com\r\n".toList, "\r\n".toList]
    (List.replicate 25 (List.replicate 8192 'x'))
    "a.com".toList "80".toList "/x".toList "a.com:80/x".toList (by decide) (by decide)
    (fun ch hch => by
      rw [List.eq_of_mem_replicate hch]
      intro h
      have := congrArg List.length h
      rw [List.length_replicate] at this
      cases this)
    (fun ch hch => by
      rw [List.eq_of_mem_replicate hch, List.length_replicate])
    (by decide)
  ⟨((relay_and_store 8192 8192 140737488347000 cache_init (some "GET /x HTTP/1.0\r\n".toList)
      ["Host: a.com\r\n".toList, "\r\n".toList]
      ["HTTP/1.0 200 OK\r\n\r\n".toList, "hi".toList]
      "a.com".toList "80".toList "/x".toList "a.com:80/x".toList (by decide) (by decide)
      (by decide) (by decide) (by decide)).2.1 (by decide)).1,
    h200.1,
    (h200.2.2.1 (by
      rw [List.length_flatten, List.map_replicate, List.length_replicate, List.sum_replicate]
      decide)).1⟩

/-- C13: for every request that reaches the cache lookup with `(host, port,
path)`, misses, and whose upstream request fits in `MAXBUF`, the bytes written
to the upstream server are `GET <path> HTTP/1.0`, then `Host: <host>` when the
port is the string `80` and `Host: <host>:<port>` otherwise, then the
`User-Agent` line, `Connection: close`, `Proxy-Connection: close` and an
empty line. Two header blocks with the same `Host` lines (and the same place
of the empty line among them) give the same upstream request. -/
theorem upstream_request_text (MAXLINE MAXBUF url_addr : Nat) (c : cache_t)
    (reqline : Option (List Char)) (headers chunks : List (List Char))
    (host port path key : List Char)
    (hreq : handle_client_request MAXLINE MAXBUF url_addr reqline headers =
      .lookup host port path key)
    (hmiss : (cache_get c key).hit = false)
    (hfit : ("GET ".toList ++ path ++ " HTTP/1.0\r\n".toList ++
      (if port = "80".toList then "Host: ".toList ++ host ++ "\r\n".toList
        else "Host: ".toList ++ host ++ ":".toList ++ port ++ "\r\n".toList) ++
      "User-Agent: Mozilla/5.0 (X11; Linux x86_64; rv:10.0.3) Gecko/20120305 Firefox/10.0.3\r\n".toList ++
      "Connection: close\r\n".toList ++ "Proxy-Connection: close\r\n".toList ++
      "\r\n".toList).length < MAXBUF) :
    (handle_client MAXLINE MAXBUF url_addr c reqline headers (some chunks)).upstream_out =
        "GET ".toList ++ path ++ " HTTP/1.0\r\n".toList ++
          (if port = "80".toList then "Host: ".toList ++ host ++ "\r\n".toList
            else "Host: ".toList ++ host ++ ":".toList ++ port ++ "\r\n".toList) ++
          "User-Agent: Mozilla/5.0 (X11; Linux x86_64; rv:10.0.3) Gecko/20120305 Firefox/10.0.3\r\n".toList ++
          "Connection: close\r\n".toList ++ "Proxy-Connection: close\r\n".toList ++
          "\r\n".toList ∧
      (∀ (headers' : List (List Char)) (upstream : Option (List (List Char))),
        headers'.filter header_line_used = headers.filter header_line_used →
        (handle_client MAXLINE MAXBUF url_addr c reqline headers' upstream).upstream_out =
          (handle_client MAXLINE MAXBUF url_addr c reqline headers upstream).upstream_out) := by
  constructor
  · have hout : (handle_client MAXLINE MAXBUF url_addr c reqline headers (some chunks)).upstream_out =
        upstream_request MAXBUF host port path := by
      rw [handle_client_miss MAXLINE MAXBUF url_addr c reqline headers chunks host port path key
        hreq hmiss]
      split <;> rfl
    have htext : "GET ".toList ++ path ++ " HTTP/1.0\r\n".toList ++
        "Host: ".toList ++ host ++
          (if strcmp_eq port "80".toList then [] else ":".toList) ++
          (if strcmp_eq port "80".toList then [] else port) ++ "\r\n".toList ++
        user_agent_hdr ++
        "Connection: close\r\n".toList ++
        "Proxy-Connection: close\r\n".toList ++
        "\r\n".toList =
        "GET ".toList ++ path ++ " HTTP/1.0\r\n".toList ++
          (if port = "80".toList then "Host: ".toList ++ host ++ "\r\n".toList
            else "Host: ".toList ++ host ++ ":".toList ++ port ++ "\r\n".toList) ++
          "User-Agent: Mozilla/5.0 (X11; Linux x86_64; rv:10.0.3) Gecko/20120305 Firefox/10.0.3\r\n".toList ++
          "Connection: close\r\n".toList ++ "Proxy-Connection: close\r\n".toList ++
          "\r\n".toList := by
      by_cases hp : port = "80".toList
      · subst hp
        have hs : strcmp_eq "80".toList "80".toList = true := rfl
        simp only [hs, if_true, List.append_nil, List.append_assoc, user_agent_hdr]
      · have hs : strcmp_eq port "80".toList = false := by
          simp only [strcmp_eq, beq_eq_false_iff_ne, ne_eq]
          exact hp
        simp only [hs, hp, if_false, Bool.false_eq_true, List.append_assoc, user_agent_hdr]
    rw [hout, upstream_request, htext]
    exact snprintf_fits _ _ hfit
  · intro headers' upstream hf
    apply handle_client_upstream_out_congr
    apply handle_client_request_congr
    unfold read_headers
    rw [← read_headers_loop_filter MAXLINE headers', hf, read_headers_loop_filter]

set_option maxRecDepth 8000 in
theorem upstream_request_text_witness :
    (handle_client 8192 8192 140737488347000 cache_init (some "GET /x HTTP/1.0\r\n".toList)
        ["Accept: */*\r\n".toList, "Host: a.com:81\r\n".toList, "\r\n".toList]
        (some ["HTTP/1.0 200 OK\r\n\r\n".toList])).upstream_out =
      "GET /x HTTP/1.0\r\nHost: a.com:81\r\nUser-Agent: Mozilla/5.0 (X11; Linux x86_64; rv:10.0.3) Gecko/20120305 Firefox/10.0.3\r\nConnection: close\r\nProxy-Connection: close\r\n\r\n".toList :=
  (upstream_request_text 8192 8192 140737488347000 cache_init (some "GET /x HTTP/1.0\r\n".toList)
    ["Accept: */*\r\n".toList, "Host: a.com:81\r\n".toList, "\r\n".toList]
    ["HTTP/1.0 200 OK\r\n\r\n".toList]
    "a.com".toList "81".toList "/x".toList "a.com:81/x".toList (by decide) (by decide)
    (by decide)).1

/-- C14 (amended): for every request line and header block with which the
handler reaches the cache lookup (either form), the path starts with `/` and
the port is shorter than 16 characters; for a request line that starts with
`GET http://` the port is not empty. Nothing checks that the port is made of
digits. -/
theorem parsed_request_shape (MAXLINE MAXBUF url_addr : Nat) (line : List Char)
    (headers : List (List Char)) (host port path key : List Char)
    (hreq : handle_client_request MAXLINE MAXBUF url_addr (some line) headers =
      .lookup host port path key) :
    path.head? = some '/' ∧ port.length < 16 ∧
      (strncmp_eq line "GET http://".toList 11 = true → port ≠ []) := by
  have hnorm : ∀ p : List Char, (p = [] ∨ p.head? = some '/') →
      (if p = [] then "/".toList else p).head? = some '/' := by
    intro p hp
    by_cases hnil : p = []
    · rw [if_pos hnil]
      rfl
    · rw [if_neg hnil]
      rcases hp with h | h
      · exact absurd h hnil
      · exact h
  unfold handle_client_request at hreq
  simp only [] at hreq
  by_cases h4 : (!strncmp_eq line "GET ".toList 4) = true
  · rw [if_pos h4] at hreq
    cases hreq
  · rw [if_neg h4] at hreq
    by_cases h11 : strncmp_eq line "GET http://".toList 11 = true
    · rw [if_pos h11] at hreq
      cases hp : parse_uri MAXLINE url_addr line MAXLINE 16 MAXLINE [] with
      | none =>
        rw [hp] at hreq
        cases hreq
      | some t =>
        obtain ⟨h', p', pa'⟩ := t
        rw [hp] at hreq
        simp only [request_outcome.lookup.injEq] at hreq
        obtain ⟨-, hpo, hpa, -⟩ := hreq
        obtain ⟨hs1, hs2, hs3⟩ := parse_uri_shape MAXLINE url_addr line MAXLINE 16 MAXLINE []
          h' p' pa' hp
        subst hpo hpa
        refine ⟨hnorm _ ?_, hs3, fun _ => hs2⟩
        rcases hs1 with h | h | h
        · exact Or.inl h
        · exact Or.inl h
        · exact Or.inr h
    · rw [if_neg h11] at hreq
      by_cases h5 : strncmp_eq line "GET /".toList 5 = true
      · rw [if_pos h5] at hreq
        have hline : line.take 5 = "GET /".toList := by
          have := h5
          simp only [strncmp_eq, beq_iff_eq] at this
          rw [this]
          rfl
        split at hreq
        · cases hreq
        · cases ho : origin_form MAXLINE line (read_headers MAXLINE headers) with
          | none =>
            rw [ho] at hreq
            cases hreq
          | some t =>
            obtain ⟨h', p', pa'⟩ := t
            rw [ho] at hreq
            simp only [request_outcome.lookup.injEq] at hreq
            obtain ⟨-, hpo, hpa, -⟩ := hreq
            obtain ⟨hs1, hs2⟩ := origin_form_shape MAXLINE line _ h' p' pa' hline ho
            subst hpo hpa
            exact ⟨hnorm _ hs1, hs2, fun hc => absurd hc h11⟩
      · rw [if_neg h5] at hreq
        cases hreq


theorem parsed_request_shape_witness :
    "/foo/bar ".toList.head? = some '/' ∧ "8080".toList.length < 16 ∧
      (strncmp_eq "GET http://example.com:8080/foo/bar HTTP/1.0\r\n".toList
        "GET http://".toList 11 = true → "8080".toList ≠ []) :=
  parsed_request_shape 8192 8192 140737488347000
    "GET http://example.com:8080/foo/bar HTTP/1.0\r\n".toList ["\r\n".toList]
    "example.com".toList "8080".toList "/foo/bar ".toList "example.com:8080/foo/bar ".toList
    (by decide)

/-- C14 (as stated) fails: with the request line `GET /x HTTP/1.0` and the
header `Host: a.com:abc` the handler reaches the cache lookup with the port
`abc`, which is not made of decimal digits. -/
theorem parsed_request_port_not_numeric :
    handle_client_request 8192 8192 140737488347000 (some "GET /x HTTP/1.0\r\n".toList)
        ["Host: a.com:abc\r\n".toList, "\r\n".toList] =
      .lookup "a.com".toList "abc".toList "/x".toList "a.com:abc/x".toList ∧
    "abc".toList.all Char.isDigit = false := by
  decide

/-- C17: each response the proxy makes up itself is a status line, then
`Content-Type: text/plain`, `Content-Length:` with the decimal length of the
body, `Connection: close`, an empty line, and the body. Whenever the first
part of `handle_client` ends with a response, what is written to the client is
of this form with status `501 Not Implemented` and body `Not Implemented`,
or status `400 Bad Request` and body `Bad Request: Host header required` or
`Bad Request`; when `Open_clientfd` fails after a cache miss it is of this
form with status `502 Bad Gateway` and body `Bad Gateway`. -/
theorem synthesized_responses (MAXLINE MAXBUF url_addr : Nat) (c : cache_t)
    (reqline : Option (List Char)) (headers : List (List Char))
    (upstream : Option (List (List Char))) (hbuf : 97 < MAXBUF) :
    (∀ hdr body : List Char,
        handle_client_request MAXLINE MAXBUF url_addr reqline headers = .response hdr body →
        (handle_client MAXLINE MAXBUF url_addr c reqline headers upstream).client_out =
            hdr ++ body ∧
          ((body = "Not Implemented\n".toList ∧
              hdr = "HTTP/1.0 501 Not Implemented\r\n".toList ++
                "Content-Type: text/plain\r\n".toList ++
                "Content-Length: ".toList ++ (Nat.repr body.length).toList ++ "\r\n".toList ++
                "Connection: close\r\n".toList ++ "\r\n".toList) ∨
            (body = "Bad Request: Host header required\n".toList ∧
              hdr = "HTTP/1.0 400 Bad Request\r\n".toList ++
                "Content-Type: text/plain\r\n".toList ++
                "Content-Length: ".toList ++ (Nat.repr body.length).toList ++ "\r\n".toList ++
                "Connection: close\r\n".toList ++ "\r\n".toList) ∨
            (body = "Bad Request\n".toList ∧
              hdr = "HTTP/1.0 400 Bad Request\r\n".toList ++
                "Content-Type: text/plain\r\n".toList ++
                "Content-Length: ".toList ++ (Nat.repr body.length).toList ++ "\r\n".toList ++
                "Connection: close\r\n".toList ++ "\r\n".toList))) ∧
      (∀ host port path key : List Char,
        handle_client_request MAXLINE MAXBUF url_addr reqline headers =
          .lookup host port path key →
        (cache_get c key).hit = false →
        (handle_client MAXLINE MAXBUF url_addr c reqline headers none).client_out =
          "HTTP/1.0 502 Bad Gateway\r\n".toList ++
            "Content-Type: text/plain\r\n".toList ++
            "Content-Length: ".toList ++ (Nat.repr "Bad Gateway\n".toList.length).toList ++
            "\r\n".toList ++ "Connection: close\r\n".toList ++ "\r\n".toList ++
            "Bad Gateway\n".toList) := by
  have e501 : response_hdr MAXBUF "HTTP/1.0 501 Not Implemented\r\n".toList 16 =
      "HTTP/1.0 501 Not Implemented\r\n".toList ++ "Content-Type: text/plain\r\n".toList ++
        "Content-Length: ".toList ++ fmt_d 16 ++ "\r\n".toList ++
        "Connection: close\r\n\r\n".toList :=
    response_hdr_fits MAXBUF _ 16 hbuf
  have e400h : response_hdr MAXBUF "HTTP/1.0 400 Bad Request\r\n".toList 34 =
      "HTTP/1.0 400 Bad Request\r\n".toList ++ "Content-Type: text/plain\r\n".toList ++
        "Content-Length: ".toList ++ fmt_d 34 ++ "\r\n".toList ++
        "Connection: close\r\n\r\n".toList :=
    response_hdr_fits MAXBUF _ 34 (by
      show 93 < MAXBUF
      omega)
  have e400 : response_hdr MAXBUF "HTTP/1.0 400 Bad Request\r\n".toList 12 =
      "HTTP/1.0 400 Bad Request\r\n".toList ++ "Content-Type: text/plain\r\n".toList ++
        "Content-Length: ".toList ++ fmt_d 12 ++ "\r\n".toList ++
        "Connection: close\r\n\r\n".toList :=
    response_hdr_fits MAXBUF _ 12 (by
      show 93 < MAXBUF
      omega)
  have e502 : response_hdr MAXBUF "HTTP/1.0 502 Bad Gateway\r\n".toList 12 =
      "HTTP/1.0 502 Bad Gateway\r\n".toList ++ "Content-Type: text/plain\r\n".toList ++
        "Content-Length: ".toList ++ fmt_d 12 ++ "\r\n".toList ++
        "Connection: close\r\n\r\n".toList :=
    response_hdr_fits MAXBUF _ 12 (by
      show 93 < MAXBUF
      omega)
  have h501 : response_501 MAXBUF = .response
      ("HTTP/1.0 501 Not Implemented\r\n".toList ++ "Content-Type: text/plain\r\n".toList ++
        "Content-Length: ".toList ++ (Nat.repr "Not Implemented\n".toList.length).toList ++
        "\r\n".toList ++ "Connection: close\r\n".toList ++ "\r\n".toList)
      "Not Implemented\n".toList := by
    unfold response_501
    rw [show "Not Implemented\n".toList.length = 16 from rfl, e501]
    rfl
  have h400h : response_400_host MAXBUF = .response
      ("HTTP/1.0 400 Bad Request\r\n".toList ++ "Content-Type: text/plain\r\n".toList ++
        "Content-Length: ".toList ++
        (Nat.repr "Bad Request: Host header required\n".toList.length).toList ++
        "\r\n".toList ++ "Connection: close\r\n".toList ++ "\r\n".toList)
      "Bad Request: Host header required\n".toList := by
    unfold response_400_host
    rw [show "Bad Request: Host header required\n".toList.length = 34 from rfl, e400h]
    rfl
  have h400 : response_400 MAXBUF = .response
      ("HTTP/1.0 400 Bad Request\r\n".toList ++ "Content-Type: text/plain\r\n".toList ++
        "Content-Length: ".toList ++ (Nat.repr "Bad Request\n".toList.length).toList ++
        "\r\n".toList ++ "Connection: close\r\n".toList ++ "\r\n".toList)
      "Bad Request\n".toList := by
    unfold response_400
    rw [show "Bad Request\n".toList.length = 12 from rfl, e400]
    rfl
  constructor
  · intro hdr body hresp
    constructor
    · unfold handle_client
      rw [hresp]
    · rcases handle_client_request_cases MAXLINE MAXBUF url_addr reqline headers with
        h | h | h | h | ⟨ho, po, pa, k, h⟩
      · rw [h] at hresp
        cases hresp
      · rw [h, h501] at hresp
        cases hresp
        exact Or.inl ⟨rfl, rfl⟩
      · rw [h, h400h] at hresp
        cases hresp
        exact Or.inr (Or.inl ⟨rfl, rfl⟩)
      · rw [h, h400] at hresp
        cases hresp
        exact Or.inr (Or.inr ⟨rfl, rfl⟩)
      · rw [h] at hresp
        cases hresp
  · intro host port path key hreq hmiss
    unfold handle_client
    simp only [hreq, hmiss, Bool.false_eq_true, if_false]
    rw [show "Bad Gateway\n".toList.length = 12 from rfl, e502]
    rfl

theorem synthesized_responses_witness :
    (handle_client 8192 8192 140737488347000 cache_init (some "GET /x HTTP/1.0\r\n".toList)
        ["Host: a.com\r\n".toList, "\r\n".toList] none).client_out =
      "HTTP/1.0 502 Bad Gateway\r\nContent-Type: text/plain\r\nContent-Length: 12\r\nConnection: close\r\n\r\nBad Gateway\n".toList :=
  (synthesized_responses 8192 8192 140737488347000 cache_init
    (some "GET /x HTTP/1.0\r\n".toList) ["Host: a.com\r\n".toList, "\r\n".toList] none
    (by decide)).2 "a.com".toList "80".toList "/x".toList "a.com:80/x".toList
    (by decide) (by decide)

/-! ## Facts about eviction order, key uniqueness and lookups -/

theorem cache_del_loop_fits (fuel need : Nat) (c : cache_t)
    (hfit : c.total_size + need ≤ MAX_CACHE_SIZE) : cache_del_loop fuel need c = c := by
  cases fuel with
  | zero => rfl
  | succ n =>
    have hbig := size_mod_big
    have hmod : (c.total_size + need) % SIZE_MOD = c.total_size + need :=
      Nat.mod_eq_of_lt (by omega)
    unfold cache_del_loop
    rw [hmod, if_neg (by omega)]

/-- The eviction loop removes as few nodes as possible: it keeps an initial
part of the chain next to which the request fits, and next to every longer
initial part the request does not fit. -/
theorem cache_del_loop_minimal (fuel need : Nat) (c : cache_t)
    (hneed : need ≤ MAX_CACHE_SIZE) (hinv : cache_inv c) (hfuel : c.entries.length < fuel) :
    ∃ k, k ≤ c.entries.length ∧
      (cache_del_loop fuel need c).entries = c.entries.take k ∧
      (cache_del_loop fuel need c).total_size = sum_sizes (c.entries.take k) ∧
      sum_sizes (c.entries.take k) + need ≤ MAX_CACHE_SIZE ∧
      ∀ k', k < k' → k' ≤ c.entries.length →
        MAX_CACHE_SIZE < sum_sizes (c.entries.take k') + need := by
  induction fuel generalizing c with
  | zero => omega
  | succ n ih =>
    obtain ⟨hsum, hle⟩ := hinv
    have hbig := size_mod_big
    have hmod : (c.total_size + need) % SIZE_MOD = c.total_size + need :=
      Nat.mod_eq_of_lt (by omega)
    unfold cache_del_loop
    rw [hmod]
    by_cases hgt : c.total_size + need > MAX_CACHE_SIZE
    · rw [if_pos hgt]
      cases htail : c.tail with
      | none =>
        have hnil : c.entries = [] := by
          simpa [cache_t.tail] using htail
        rw [hnil] at hsum
        simp [sum_sizes] at hsum
        omega
      | some vic =>
        obtain ⟨hdet, hsplit⟩ := lru_detach_last c vic htail
        have hs : sum_sizes c.entries = sum_sizes c.entries.dropLast + vic.size := by
          conv_lhs => rw [hsplit]
          simp [sum_sizes_append, sum_sizes_cons, sum_sizes]
        have hsub := sub_size_no_wrap c.total_size vic.size (by omega) (by omega)
        have hlen : c.entries.length = c.entries.dropLast.length + 1 := by
          conv_lhs => rw [hsplit]
          simp
        simp only []
        obtain ⟨k, hk, he, ht, hf, hmin⟩ := ih
          { entries := (lru_detach c (c.entries.length - 1)).entries
            total_size := (c.total_size + SIZE_MOD - vic.size % SIZE_MOD) % SIZE_MOD }
          (by
            constructor
            · simp only [hdet, hsub]
              omega
            · simp only [hsub]
              omega)
          (by
            simp only [hdet]
            omega)
        simp only [hdet] at hk he ht hf hmin
        have htake : ∀ j, j ≤ c.entries.dropLast.length →
            c.entries.dropLast.take j = c.entries.take j := by
          intro j hj
          conv_rhs => rw [hsplit]
          rw [List.take_append_of_le_length hj]
        refine ⟨k, by omega, ?_, ?_, ?_, ?_⟩
        · rw [hdet, he, htake k hk]
        · rw [hdet, ht, htake k hk]
        · rw [← htake k hk]
          exact hf
        · intro k' hk' hk'len
          by_cases hlast : k' ≤ c.entries.dropLast.length
          · rw [← htake k' hlast]
            exact hmin k' hk' hlast
          · have hfull : c.entries.take k' = c.entries := List.take_of_length_le (by omega)
            rw [hfull]
            omega
    · rw [if_neg hgt]
      refine ⟨c.entries.length, Nat.le_refl _, by simp, by simp [hsum], by
        simp only [List.take_length]
        omega, ?_⟩
      intro k' hk' hk'len
      omega

theorem cache_lookup_from_none (l : List cache_obj) (key : List Char)
    (h : cache_lookup_from l key = none) : ∀ o, o ∈ l → o.key ≠ key := by
  induction l with
  | nil => simp
  | cons a t ih =>
    unfold cache_lookup_from at h
    split at h
    · cases h
    · rename_i hak
      cases hr : cache_lookup_from t key with
      | none =>
        intro o ho
        rcases List.mem_cons.mp ho with rfl | ho
        · exact hak
        · exact ih hr o ho
      | some j => simp [hr] at h

theorem filter_ne_of_all_ne (l : List cache_obj) (key : List Char)
    (h : ∀ o, o ∈ l → o.key ≠ key) : l.filter (fun o => o.key ≠ key) = l := by
  apply List.filter_eq_self.mpr
  intro o ho
  simpa using h o ho

/-- Unlinking the node found by `cache_lookup` removes every node with that
key, when at most one node carries it. -/
theorem eraseIdx_lookup_eq_filter (l : List cache_obj) (key : List Char) (i : Nat)
    (hu : l.countP (fun o => o.key = key) ≤ 1) (hl : cache_lookup_from l key = some i) :
    l.eraseIdx i = l.filter (fun o => o.key ≠ key) := by
  induction l generalizing i with
  | nil => simp [cache_lookup_from] at hl
  | cons a t ih =>
    unfold cache_lookup_from at hl
    rw [List.countP_cons] at hu
    split at hl
    · rename_i hak
      cases hl
      have h0 : t.countP (fun o => o.key = key) = 0 := by
        simp only [hak, decide_True, if_true] at hu
        omega
      have hall : ∀ o, o ∈ t → o.key ≠ key := by
        intro o ho
        have := (List.countP_eq_zero.mp h0) o ho
        simpa using this
      rw [List.eraseIdx_cons_zero, List.filter_cons]
      simp only [hak, ne_eq, not_true_eq_false, decide_False, Bool.false_eq_true, if_false]
      exact (filter_ne_of_all_ne t key hall).symm
    · rename_i hak
      cases hr : cache_lookup_from t key with
      | none => simp [hr] at hl
      | some j =>
        simp [hr] at hl
        subst hl
        have := ih j (by omega) hr
        rw [List.eraseIdx_cons_succ, this, List.filter_cons]
        simp only [ne_eq, hak, not_false_eq_true, decide_True, if_true]

/-- The chain without the old node for `key`, as `cache_put` leaves it before
the eviction loop. -/
theorem cache_put_discard_old_entries (c : cache_t) (key : List Char) :
    (cache_put_discard_old c key).entries =
      match cache_lookup c key with
      | some i => c.entries.eraseIdx i
      | none => c.entries := by
  unfold cache_put_discard_old
  cases hl : cache_lookup c key with
  | none => rfl
  | some i =>
    obtain ⟨o, ho, -⟩ := cache_lookup_from_get c.entries key i hl
    simp only [ho, lru_detach]

theorem cache_put_discard_old_filter (c : cache_t) (key : List Char)
    (hu : c.entries.countP (fun o => o.key = key) ≤ 1) :
    (cache_put_discard_old c key).entries = c.entries.filter (fun o => o.key ≠ key) := by
  rw [cache_put_discard_old_entries]
  cases hl : cache_lookup c key with
  | none =>
    exact (filter_ne_of_all_ne _ key (cache_lookup_from_none _ key hl)).symm
  | some i => exact eraseIdx_lookup_eq_filter _ key i hu hl

theorem perm_cons_eraseIdx (l : List cache_obj) (i : Nat) (o : cache_obj)
    (h : l.get? i = some o) : List.Perm (o :: l.eraseIdx i) l := by
  induction l generalizing i with
  | nil => simp at h
  | cons a t ih =>
    cases i with
    | zero =>
      simp at h
      subst h
      exact List.Perm.refl _
    | succ j =>
      have := ih j (by simpa using h)
      rw [List.eraseIdx_cons_succ]
      exact (List.Perm.swap a o _).trans (List.Perm.cons a this)

theorem filter_ne_eraseIdx (l : List cache_obj) (key : List Char) (i : Nat) (o : cache_obj)
    (h : l.get? i = some o) (hk : o.key = key) :
    (l.eraseIdx i).filter (fun x => x.key ≠ key) = l.filter (fun x => x.key ≠ key) := by
  induction l generalizing i with
  | nil => simp at h
  | cons a t ih =>
    cases i with
    | zero =>
      simp at h
      subst h
      rw [List.eraseIdx_cons_zero, List.filter_cons]
      simp only [hk, ne_eq, not_true_eq_false, decide_False, Bool.false_eq_true, if_false]
    | succ j =>
      have := ih j (by simpa using h)
      rw [List.eraseIdx_cons_succ, List.filter_cons, List.filter_cons, this]

theorem cache_get_hit (c : cache_t) (key : List Char) (i : Nat) (obj : cache_obj)
    (hl : cache_lookup c key = some i) (ho : c.entries.get? i = some obj) :
    cache_get c key =
      { cache := { entries := obj :: c.entries.eraseIdx i, total_size := c.total_size }
        hit := true
        out_data := obj.data.take obj.size
        out_size := obj.size } := by
  unfold cache_get
  simp only [hl, ho, lru_insert_head, lru_detach]

theorem cache_get_cases (c : cache_t) (key : List Char) :
    ((cache_get c key).hit = false ∧ cache_lookup c key = none ∧ (cache_get c key).cache = c) ∨
      ∃ i obj, cache_lookup c key = some i ∧ c.entries.get? i = some obj ∧ obj.key = key ∧
        cache_get c key =
          { cache := { entries := obj :: c.entries.eraseIdx i, total_size := c.total_size }
            hit := true
            out_data := obj.data.take obj.size
            out_size := obj.size } := by
  cases hl : cache_lookup c key with
  | none =>
    refine Or.inl ⟨?_, rfl, ?_⟩ <;> simp [cache_get, hl]
  | some i =>
    obtain ⟨o, ho, hk⟩ := cache_lookup_from_get c.entries key i hl
    exact Or.inr ⟨i, o, rfl, ho, hk, cache_get_hit c key i o hl ho⟩

theorem cache_get_perm (c : cache_t) (key : List Char) :
    List.Perm (cache_get c key).cache.entries c.entries := by
  rcases cache_get_cases c key with ⟨-, -, h⟩ | ⟨i, obj, -, ho, -, h⟩
  · rw [h]
  · rw [h]
    exact perm_cons_eraseIdx c.entries i obj ho

theorem cache_put_discard_old_sublist (c : cache_t) (key : List Char) :
    List.Sublist (cache_put_discard_old c key).entries c.entries := by
  rw [cache_put_discard_old_entries]
  cases cache_lookup c key with
  | none => exact List.Sublist.refl _
  | some i => exact List.eraseIdx_sublist _ _

theorem cache_del_until_enough_sublist (need : Nat) (c : cache_t) :
    List.Sublist (cache_del_until_enough need c).entries c.entries := by
  obtain ⟨k, hk⟩ := cache_del_loop_prefix (c.entries.length + 1) need c
  unfold cache_del_until_enough
  rw [hk]
  exact List.take_sublist _ _

theorem strncpy_short (key : List Char) (n : Nat) (h : (strncpy key n).length < n) :
    strncpy key n = key := by
  simp only [strncpy, List.length_take] at h ⊢
  exact List.take_of_length_le (by omega)

theorem keys_unique_get (MAXLINE : Nat) (c : cache_t) (key : List Char)
    (hu : keys_unique MAXLINE c) : keys_unique MAXLINE (cache_get c key).cache := by
  intro K hK
  rw [(cache_get_perm c key).countP_eq]
  exact hu K hK

theorem keys_unique_put (MAXLINE : Nat) (c : cache_t) (key data : List Char)
    (hu : keys_unique MAXLINE c) : keys_unique MAXLINE (cache_put MAXLINE c key data) := by
  by_cases hsz : data.length ≤ MAX_CACHE_SIZE
  · intro K hK
    rw [cache_put_admitted MAXLINE c key data hsz]
    simp only [List.countP_cons]
    have hsub : List.Sublist
        (cache_del_until_enough data.length (cache_put_discard_old c key)).entries
        (cache_put_discard_old c key).entries := cache_del_until_enough_sublist _ _
    by_cases hk : strncpy key MAXLINE = K
    · have hkey : key = K := by
        rw [← hk]
        exact (strncpy_short key MAXLINE (by rw [hk]; exact hK)).symm
      subst hkey
      have h0 : (cache_put_discard_old c key).entries.countP (fun o => o.key = key) = 0 := by
        rw [cache_put_discard_old_filter c key (hu key hK), List.countP_eq_zero]
        intro o ho
        have := (List.mem_filter.mp ho).2
        simpa using this
      have := hsub.countP_le (fun o => decide (o.key = key))
      simp only [hk, decide_True, if_true]
      omega
    · have h1 := hsub.countP_le (fun o => decide (o.key = K))
      have h2 := (cache_put_discard_old_sublist c key).countP_le (fun o => decide (o.key = K))
      have h3 := hu K hK
      simp only [hk, decide_False, Bool.false_eq_true, if_false]
      omega
  · unfold cache_put
    simp only []
    rw [if_pos (by omega)]
    exact hu

theorem keys_unique_run (MAXLINE : Nat) (ops : List cache_op) :
    keys_unique MAXLINE (cache_run MAXLINE ops) := by
  have hgen : ∀ (l : List cache_op) (c : cache_t), keys_unique MAXLINE c →
      keys_unique MAXLINE (l.foldl (cache_step MAXLINE) c) := by
    intro l
    induction l with
    | nil => exact fun c h => h
    | cons op rest ih =>
      intro c h
      apply ih
      cases op with
      | put key data => exact keys_unique_put MAXLINE c key data h
      | get key => exact keys_unique_get MAXLINE c key h
  apply hgen
  intro K _
  simp [cache_init]

theorem sizes_exact_get (c : cache_t) (key : List Char) (hs : sizes_exact c) :
    sizes_exact (cache_get c key).cache := by
  intro o ho
  exact hs o ((cache_get_perm c key).mem_iff.mp ho)

theorem sizes_exact_put (MAXLINE : Nat) (c : cache_t) (key data : List Char)
    (hs : sizes_exact c) : sizes_exact (cache_put MAXLINE c key data) := by
  by_cases hsz : data.length ≤ MAX_CACHE_SIZE
  · intro o ho
    rw [cache_put_admitted MAXLINE c key data hsz] at ho
    rcases List.mem_cons.mp ho with rfl | ho
    · rfl
    · exact hs o ((cache_put_discard_old_sublist c key).subset
        ((cache_del_until_enough_sublist _ _).subset ho))
  · unfold cache_put
    simp only []
    rw [if_pos (by omega)]
    exact hs

theorem sizes_exact_run (MAXLINE : Nat) (ops : List cache_op) :
    sizes_exact (cache_run MAXLINE ops) := by
  have hgen : ∀ (l : List cache_op) (c : cache_t), sizes_exact c →
      sizes_exact (l.foldl (cache_step MAXLINE) c) := by
    intro l
    induction l with
    | nil => exact fun c h => h
    | cons op rest ih =>
      intro c h
      apply ih
      cases op with
      | put key data => exact sizes_exact_put MAXLINE c key data h
      | get key => exact sizes_exact_get c key h
  apply hgen
  intro o ho
  simp [cache_init] at ho

theorem sum_sizes_eq_zero (l : List cache_obj) (h : sum_sizes l = 0) :
    ∀ o, o ∈ l → o.size = 0 := by
  induction l with
  | nil => simp
  | cons a t ih =>
    rw [sum_sizes_cons] at h
    intro o ho
    rcases List.mem_cons.mp ho with rfl | ho
    · omega
    · exact ih (by omega) o ho

/-- What an admitted `cache_put` does to a state that satisfies the
invariants: the new node comes first, followed by the longest initial part of
the old chain (without the old node for the key) next to which the payload
fits. -/
theorem cache_put_spec (MAXLINE : Nat) (c : cache_t) (K payload : List Char)
    (hinv : cache_inv c) (hu : keys_unique MAXLINE c)
    (hK : K.length < MAXLINE) (hp : payload.length ≤ MAX_CACHE_SIZE) :
    (cache_put_discard_old c K).entries = c.entries.filter (fun o => o.key ≠ K) ∧
      ∃ k, k ≤ (c.entries.filter (fun o => o.key ≠ K)).length ∧
        (cache_put MAXLINE c K payload).entries =
          { key := K, data := payload, size := payload.length } ::
            (c.entries.filter (fun o => o.key ≠ K)).take k ∧
        (cache_put MAXLINE c K payload).total_size =
          sum_sizes ((c.entries.filter (fun o => o.key ≠ K)).take k) + payload.length ∧
        sum_sizes ((c.entries.filter (fun o => o.key ≠ K)).take k) + payload.length ≤
          MAX_CACHE_SIZE ∧
        ∀ k', k < k' → k' ≤ (c.entries.filter (fun o => o.key ≠ K)).length →
          MAX_CACHE_SIZE <
            sum_sizes ((c.entries.filter (fun o => o.key ≠ K)).take k') + payload.length := by
  have hbase := cache_put_discard_old_filter c K (hu K hK)
  refine ⟨hbase, ?_⟩
  obtain ⟨k, hk, he, ht, hf, hmin⟩ := cache_del_loop_minimal
    ((cache_put_discard_old c K).entries.length + 1) payload.length (cache_put_discard_old c K)
    hp (cache_put_discard_old_inv c K hinv) (Nat.lt_succ_self _)
  rw [show cache_del_loop ((cache_put_discard_old c K).entries.length + 1) payload.length
      (cache_put_discard_old c K) =
      cache_del_until_enough payload.length (cache_put_discard_old c K) from rfl] at he ht
  rw [hbase] at hk he ht hf hmin
  have hbig := size_mod_big
  refine ⟨k, hk, ?_, ?_, hf, hmin⟩
  · rw [cache_put_entries MAXLINE c K payload hK hp, he]
  · rw [cache_put_admitted MAXLINE c K payload hp]
    simp only []
    rw [ht]
    exact Nat.mod_eq_of_lt (by omega)

theorem cache_put_then_get_aux (MAXLINE : Nat) (c : cache_t) (K payload : List Char)
    (hK : K.length < MAXLINE) (hp : payload.length ≤ MAX_CACHE_SIZE) :
    (cache_get (cache_put MAXLINE c K payload) K).hit = true ∧
      (cache_get (cache_put MAXLINE c K payload) K).out_data = payload := by
  rw [cache_put_admitted MAXLINE c K payload hp, strncpy_fits K MAXLINE hK]
  simp [cache_get, cache_lookup, cache_lookup_from]

/-! ## Further claims about the object cache -/

/-- C15 (amended): in every reachable cache state, for every key `K` shorter
than `MAXLINE`, `cache_put` of a payload of exactly `MAX_CACHE_SIZE` bytes
admits it: the following `cache_get (K)` hits and returns the payload,
`total_size` is `MAX_CACHE_SIZE`, the new node is first in the chain and every
other node left has size `0`; when no node of the cache had size `0`, the new
node is the only one. -/
theorem put_at_capacity (MAXLINE : Nat) (ops : List cache_op) (K payload : List Char)
    (hK : K.length < MAXLINE) (hp : payload.length = MAX_CACHE_SIZE) :
    (cache_get (cache_put MAXLINE (cache_run MAXLINE ops) K payload) K).hit = true ∧
      (cache_get (cache_put MAXLINE (cache_run MAXLINE ops) K payload) K).out_data = payload ∧
      (cache_put MAXLINE (cache_run MAXLINE ops) K payload).total_size = MAX_CACHE_SIZE ∧
      (cache_put MAXLINE (cache_run MAXLINE ops) K payload).entries.head? =
        some { key := K, data := payload, size := payload.length } ∧
      (∀ o, o ∈ (cache_put MAXLINE (cache_run MAXLINE ops) K payload).entries.tail →
        o.size = 0) ∧
      ((∀ o, o ∈ (cache_run MAXLINE ops).entries → 0 < o.size) →
        (cache_put MAXLINE (cache_run MAXLINE ops) K payload).entries =
          [{ key := K, data := payload, size := payload.length }]) := by
  have hple : payload.length ≤ MAX_CACHE_SIZE := by omega
  obtain ⟨-, k, -, he, ht, hf, -⟩ := cache_put_spec MAXLINE (cache_run MAXLINE ops) K payload
    (cache_run_inv MAXLINE ops) (keys_unique_run MAXLINE ops) hK hple
  have hzero : sum_sizes (((cache_run MAXLINE ops).entries.filter (fun o => o.key ≠ K)).take k)
      = 0 := by omega
  have hall := sum_sizes_eq_zero _ hzero
  have hget := cache_put_then_get_aux MAXLINE (cache_run MAXLINE ops) K payload hK hple
  refine ⟨hget.1, hget.2, ?_, ?_, ?_, ?_⟩
  · rw [ht, hzero, hp, Nat.zero_add]
  · rw [he]
    rfl
  · rw [he]
    exact hall
  · intro hpos
    rw [he]
    congr 1
    apply List.eq_nil_of_length_eq_zero
    cases hl : ((cache_run MAXLINE ops).entries.filter (fun o => o.key ≠ K)).take k with
    | nil => rfl
    | cons a t =>
      exfalso
      have hmem : a ∈ ((cache_run MAXLINE ops).entries.filter (fun o => o.key ≠ K)).take k := by
        rw [hl]
        exact List.mem_cons_self _ _
      have h0 := hall a hmem
      have h1 := hpos a (List.mem_of_mem_filter (List.mem_of_mem_take hmem))
      omega

theorem put_at_capacity_witness :
    (cache_put 8192 (cache_run 8192 [.put "old".toList "data".toList]) "k".toList
        (List.replicate 1049000 'x')).entries =
      [{ key := "k".toList, data := List.replicate 1049000 'x',
         size := (List.replicate 1049000 'x').length }] :=
  (put_at_capacity 8192 [.put "old".toList "data".toList] "k".toList
    (List.replicate 1049000 'x') (by decide) (by rw [List.length_replicate]; rfl)).2.2.2.2.2
    (by decide)

/-- C15 (as stated) fails: after `cache_put` of an empty payload under key
`z`, `cache_put` of a payload of exactly `MAX_CACHE_SIZE` bytes under key `k`
leaves two nodes in the cache, not one: the eviction loop stops as soon as the
payload fits, and next to a node of size `0` it does. -/
theorem put_at_capacity_keeps_empty_node :
    (cache_put 8192 (cache_run 8192 [.put "z".toList []]) "k".toList
        (List.replicate 1049000 'x')).entries =
      [{ key := "k".toList, data := List.replicate 1049000 'x',
         size := (List.replicate 1049000 'x').length },
       { key := "z".toList, data := [], size := 0 }] := by
  have hc : cache_run 8192 [.put "z".toList []] =
      { entries := [{ key := "z".toList, data := [], size := 0 }], total_size := 0 } := by
    decide
  have hlen : (List.replicate 1049000 'x').length = 1049000 := List.length_replicate _ _
  have hd : cache_put_discard_old
      { entries := [{ key := "z".toList, data := [], size := 0 }], total_size := 0 }
      "k".toList =
      { entries := [{ key := "z".toList, data := [], size := 0 }], total_size := 0 } := by
    decide
  rw [hc, cache_put_entries 8192 _ "k".toList _ (by decide) (by rw [hlen]; decide), hd]
  unfold cache_del_until_enough
  rw [cache_del_loop_fits _ _ _ (by rw [hlen]; decide)]

/-- C16: in every reachable cache state, for every key `K` shorter than
`MAXLINE` and every payload of at most `MAX_CACHE_SIZE` bytes, doing
`cache_put (K, payload)` twice in a row leaves the same cache state (nodes,
payloads, order, `total_size`) as doing it once; and after `cache_put (K,
payload)` exactly one node carries the key `K`, with the new payload and its
length, whatever node carried `K` before. -/
theorem put_idempotent (MAXLINE : Nat) (ops : List cache_op) (K payload : List Char)
    (hK : K.length < MAXLINE) (hp : payload.length ≤ MAX_CACHE_SIZE) :
    cache_put MAXLINE (cache_put MAXLINE (cache_run MAXLINE ops) K payload) K payload =
        cache_put MAXLINE (cache_run MAXLINE ops) K payload ∧
      (cache_put MAXLINE (cache_run MAXLINE ops) K payload).entries.filter
          (fun o => o.key = K) =
        [{ key := K, data := payload, size := payload.length }] := by
  obtain ⟨-, k, -, he, ht, hf, -⟩ := cache_put_spec MAXLINE (cache_run MAXLINE ops) K payload
    (cache_run_inv MAXLINE ops) (keys_unique_run MAXLINE ops) hK hp
  have hbig := size_mod_big
  generalize hc1 : cache_put MAXLINE (cache_run MAXLINE ops) K payload = c1 at he ht
  generalize hE : ((cache_run MAXLINE ops).entries.filter (fun o => o.key ≠ K)).take k = E
    at he ht hf
  have hno : ∀ o, o ∈ E → o.key ≠ K := by
    intro o ho
    rw [← hE] at ho
    have := (List.mem_filter.mp (List.mem_of_mem_take ho)).2
    simpa using this
  constructor
  · have hc1' : c1 =
        { entries := ({ key := K, data := payload, size := payload.length } : cache_obj) :: E
          total_size := sum_sizes E + payload.length } := by
      cases c1
      simp only [] at he ht
      rw [he, ht]
    have hd : cache_put_discard_old c1 K = { entries := E, total_size := sum_sizes E } := by
      rw [hc1']
      unfold cache_put_discard_old
      simp only [cache_lookup, cache_lookup_from, if_true, List.get?_cons_zero, lru_detach,
        List.eraseIdx_cons_zero]
      have hsub := sub_size_no_wrap (sum_sizes E + payload.length) payload.length
        (by omega) (by omega)
      rw [hsub, Nat.add_sub_cancel]
    rw [cache_put_admitted MAXLINE c1 K payload hp, hd, strncpy_fits K MAXLINE hK]
    unfold cache_del_until_enough
    rw [cache_del_loop_fits _ _ _ hf, hc1']
    simp only []
    congr 1
    exact Nat.mod_eq_of_lt (by omega)
  · rw [he, List.filter_cons]
    simp only [decide_True, if_true]
    congr 1
    apply List.filter_eq_nil_iff.mpr
    intro o ho
    simpa using hno o ho

theorem put_idempotent_witness :
    cache_put 8192 (cache_put 8192 (cache_run 8192 [.put "k".toList "old data".toList])
        "k".toList "new".toList) "k".toList "new".toList =
      cache_put 8192 (cache_run 8192 [.put "k".toList "old data".toList])
        "k".toList "new".toList ∧
    (cache_put 8192 (cache_run 8192 [.put "k".toList "old data".toList])
        "k".toList "new".toList).entries.filter (fun o => o.key = "k".toList) =
      [{ key := "k".toList, data := "new".toList, size := "new".toList.length }] :=
  put_idempotent 8192 [.put "k".toList "old data".toList] "k".toList "new".toList
    (by decide) (by decide)

/-- C18: in every reachable cache state, for every key `K` shorter than
`MAXLINE` and every payload of at most `MAX_CACHE_SIZE` bytes, `cache_put`
first drops the old node for `K`, which leaves the other nodes in their order;
afterwards the chain is the new node followed by the first `k` of those
nodes, the nodes after them (the least recently used ones) being evicted;
next to the `k` survivors the payload fits, and `k` is the largest such
number, so the number evicted is the smallest that makes room (none when
the payload already fits). -/
theorem eviction_lru_minimal (MAXLINE : Nat) (ops : List cache_op) (K payload : List Char)
    (hK : K.length < MAXLINE) (hp : payload.length ≤ MAX_CACHE_SIZE) :
    (cache_put_discard_old (cache_run MAXLINE ops) K).entries =
        (cache_run MAXLINE ops).entries.filter (fun o => o.key ≠ K) ∧
      ∃ k, k ≤ ((cache_run MAXLINE ops).entries.filter (fun o => o.key ≠ K)).length ∧
        (cache_put MAXLINE (cache_run MAXLINE ops) K payload).entries =
          { key := K, data := payload, size := payload.length } ::
            ((cache_run MAXLINE ops).entries.filter (fun o => o.key ≠ K)).take k ∧
        (cache_put MAXLINE (cache_run MAXLINE ops) K payload).total_size =
          sum_sizes (((cache_run MAXLINE ops).entries.filter (fun o => o.key ≠ K)).take k) +
            payload.length ∧
        sum_sizes (((cache_run MAXLINE ops).entries.filter (fun o => o.key ≠ K)).take k) +
            payload.length ≤ MAX_CACHE_SIZE ∧
        ∀ k', k < k' →
          k' ≤ ((cache_run MAXLINE ops).entries.filter (fun o => o.key ≠ K)).length →
          MAX_CACHE_SIZE <
            sum_sizes (((cache_run MAXLINE ops).entries.filter (fun o => o.key ≠ K)).take k') +
              payload.length :=
  cache_put_spec MAXLINE (cache_run MAXLINE ops) K payload (cache_run_inv MAXLINE ops)
    (keys_unique_run MAXLINE ops) hK hp

theorem eviction_lru_minimal_witness :
    (cache_put_discard_old (cache_run 8192
        [.put "a".toList (List.replicate 400000 'a'), .put "b".toList (List.replicate 400000 'b')])
        "c".toList).entries =
      (cache_run 8192
        [.put "a".toList (List.replicate 400000 'a'),
          .put "b".toList (List.replicate 400000 'b')]).entries.filter
        (fun o => o.key ≠ "c".toList) :=
  (eviction_lru_minimal 8192
    [.put "a".toList (List.replicate 400000 'a'), .put "b".toList (List.replicate 400000 'b')]
    "c".toList (List.replicate 400000 'c') (by decide)
    (by rw [List.length_replicate]; decide)).1

/-- C20: in every reachable cache state, a `cache_get` that misses leaves the
cache state as it was; a `cache_get` that hits moves the first node that
carries the key to the front and changes nothing else: the nodes are the same
up to order, `total_size` is unchanged, the nodes with another key keep their
order, and the bytes handed back are the data of the node found, in full. -/
theorem cache_get_frame (MAXLINE : Nat) (ops : List cache_op) (K : List Char) :
    ((cache_get (cache_run MAXLINE ops) K).hit = false →
        (cache_get (cache_run MAXLINE ops) K).cache = cache_run MAXLINE ops) ∧
      ((cache_get (cache_run MAXLINE ops) K).hit = true →
        ∃ i obj, (cache_run MAXLINE ops).entries.get? i = some obj ∧ obj.key = K ∧
          (cache_get (cache_run MAXLINE ops) K).cache.entries =
            obj :: (cache_run MAXLINE ops).entries.eraseIdx i ∧
          (cache_get (cache_run MAXLINE ops) K).cache.total_size =
            (cache_run MAXLINE ops).total_size ∧
          List.Perm (cache_get (cache_run MAXLINE ops) K).cache.entries
            (cache_run MAXLINE ops).entries ∧
          (cache_get (cache_run MAXLINE ops) K).cache.entries.filter (fun o => o.key ≠ K) =
            (cache_run MAXLINE ops).entries.filter (fun o => o.key ≠ K) ∧
          (cache_get (cache_run MAXLINE ops) K).out_data = obj.data ∧
          (cache_get (cache_run MAXLINE ops) K).out_size = obj.data.length) := by
  have hsz := sizes_exact_run MAXLINE ops
  generalize cache_run MAXLINE ops = c at hsz
  rcases cache_get_cases c K with ⟨hh, -, hc⟩ | ⟨i, obj, -, ho, hk, hg⟩
  · refine ⟨fun _ => hc, ?_⟩
    intro h
    rw [hh] at h
    cases h
  · have hmem : obj ∈ c.entries := List.mem_iff_get?.mpr ⟨i, ho⟩
    have hsize := hsz obj hmem
    have hhit : (cache_get c K).hit = true := by rw [hg]
    refine ⟨?_, fun _ => ⟨i, obj, ho, hk, ?_, ?_, ?_, ?_, ?_, ?_⟩⟩
    · intro h
      rw [hhit] at h
      cases h
    · rw [hg]
    · rw [hg]
    · rw [hg]
      exact perm_cons_eraseIdx c.entries i obj ho
    · rw [hg]
      simp only []
      rw [List.filter_cons]
      simp only [hk, ne_eq, not_true_eq_false, decide_False, Bool.false_eq_true, if_false]
      exact filter_ne_eraseIdx c.entries K i obj ho hk
    · rw [hg]
      simp only []
      rw [hsize, List.take_length]
    · rw [hg]
      exact hsize

/-! ## Facts about the heap -/

theorem heap_get_set (m : heap) (q a : Nat) (n : mem_obj) :
    heap_get (heap_set m q n) a =
      if a = q then (heap_get m q).map (fun _ => n) else heap_get m a := by
  induction m with
  | nil => simp [heap_set, heap_get]
  | cons e rest ih =>
    obtain ⟨b, x⟩ := e
    unfold heap_set
    by_cases hbq : b = q
    · subst hbq
      rw [if_pos rfl]
      by_cases hab : a = b
      · subst hab
        simp [heap_get]
      · have hba : ¬ b = a := fun h => hab h.symm
        simp [heap_get, hab, hba]
    · rw [if_neg hbq]
      by_cases hab : a = q
      · subst hab
        simp [heap_get, hbq, ih]
      · by_cases hba : b = a
        · simp [heap_get, hba, hab]
        · simp [heap_get, hba, hab, ih]

theorem heap_get_set_next (m : heap) (q a : Nat) (v : Option Nat) :
    heap_get (set_next m q v) a =
      if a = q then (heap_get m q).map (fun n => { n with next := v }) else heap_get m a := by
  unfold set_next
  cases hq : heap_get m q with
  | none =>
    by_cases haq : a = q
    · subst haq
      simp [hq]
    · simp [haq]
  | some n =>
    simp only [heap_get_set, hq, Option.map_some']

theorem heap_get_set_prev (m : heap) (q a : Nat) (v : Option Nat) :
    heap_get (set_prev m q v) a =
      if a = q then (heap_get m q).map (fun n => { n with prev := v }) else heap_get m a := by
  unfold set_prev
  cases hq : heap_get m q with
  | none =>
    by_cases haq : a = q
    · subst haq
      simp [hq]
    · simp [haq]
  | some n =>
    simp only [heap_get_set, hq, Option.map_some']

theorem heap_get_free (m : heap) (q a : Nat) :
    heap_get (heap_free m q) a = if a = q then none else heap_get m a := by
  induction m with
  | nil => simp [heap_free, heap_get]
  | cons e rest ih =>
    obtain ⟨b, x⟩ := e
    unfold heap_free at ih ⊢
    by_cases hbq : b = q
    · subst hbq
      rw [List.filter_cons_of_neg (by simp), ih]
      by_cases hab : a = b
      · simp [hab]
      · have hba : ¬ b = a := fun h => hab h.symm
        simp [heap_get, hab, hba]
    · rw [List.filter_cons_of_pos (by simp [hbq])]
      by_cases hba : b = a
      · subst hba
        simp [heap_get, hbq]
      · have ih' := ih
        simp only [ne_eq, decide_not] at ih'
        simp [heap_get, hba, ih']

theorem heap_get_mem (m : heap) (a : Nat) (n : mem_obj) (h : heap_get m a = some n) :
    a ∈ m.map (·.1) := by
  induction m with
  | nil => simp [heap_get] at h
  | cons e rest ih =>
    obtain ⟨b, x⟩ := e
    unfold heap_get at h
    by_cases hba : b = a
    · simp [hba]
    · rw [if_neg hba] at h
      simp [ih h]

theorem heap_get_alloc_above (m : heap) : heap_get m (alloc_above m) = none := by
  cases h : heap_get m (alloc_above m) with
  | none => rfl
  | some n =>
    exfalso
    have hmem := heap_get_mem m _ n h
    have hle : alloc_above m ≤ (m.map (·.1)).sum := List.single_le_sum (by simp) _ hmem
    unfold alloc_above at hle
    omega

/-- A list of pairwise different allocated addresses is not longer than the
heap. -/
theorem length_le_heap (m : heap) (l : List Nat) (hnd : l.Nodup)
    (hall : ∀ a, a ∈ l → heap_get m a ≠ none) : l.length ≤ m.length := by
  have hsub : l ⊆ m.map (·.1) := by
    intro a ha
    cases h : heap_get m a with
    | none => exact absurd h (hall a ha)
    | some n => exact heap_get_mem m a n h
  have := (List.subperm_of_subset hnd hsub).length_le
  simpa using this

/-! ## Facts about doubly linked segments -/

theorem dllseg_frame (m m' : heap) (nodes : List (Nat × cache_obj))
    (prev first last nxt : Option Nat)
    (hsame : ∀ a, a ∈ nodes.map (·.1) → heap_get m' a = heap_get m a)
    (h : dllseg m prev nodes first last nxt) : dllseg m' prev nodes first last nxt := by
  induction nodes generalizing prev first with
  | nil => exact h
  | cons e rest ih =>
    obtain ⟨a, o⟩ := e
    obtain ⟨hf, n, hn, ho, hp, hrest⟩ := h
    refine ⟨hf, n, ?_, ho, hp, ?_⟩
    · rw [hsame a (by simp), hn]
    · exact ih _ _ (fun b hb => hsame b (by simp [List.mem_map] at hb ⊢; exact Or.inr hb)) hrest

theorem dllseg_append (m : heap) (A B : List (Nat × cache_obj))
    (prev first last nxt : Option Nat) :
    dllseg m prev (A ++ B) first last nxt ↔
      ∃ mid ml, dllseg m prev A first ml mid ∧ dllseg m ml B mid last nxt := by
  induction A generalizing prev first with
  | nil =>
    constructor
    · intro h
      exact ⟨first, prev, ⟨rfl, rfl⟩, h⟩
    · rintro ⟨mid, ml, ⟨h1, h2⟩, h⟩
      subst h1 h2
      exact h
  | cons e rest ih =>
    obtain ⟨a, o⟩ := e
    constructor
    · rintro ⟨hf, n, hn, ho, hp, hrest⟩
      obtain ⟨mid, ml, h1, h2⟩ := (ih _ _).mp hrest
      exact ⟨mid, ml, ⟨hf, n, hn, ho, hp, h1⟩, h2⟩
    · rintro ⟨mid, ml, ⟨hf, n, hn, ho, hp, h1⟩, h2⟩
      exact ⟨hf, n, hn, ho, hp, (ih _ _).mpr ⟨mid, ml, h1, h2⟩⟩

theorem dllseg_allocated (m : heap) (nodes : List (Nat × cache_obj))
    (prev first last nxt : Option Nat) (h : dllseg m prev nodes first last nxt) :
    ∀ a o, (a, o) ∈ nodes → ∃ n, heap_get m a = some n ∧ n.obj = o := by
  induction nodes generalizing prev first with
  | nil => simp
  | cons e rest ih =>
    obtain ⟨b, x⟩ := e
    obtain ⟨-, n, hn, ho, -, hrest⟩ := h
    intro a o hmem
    rcases List.mem_cons.mp hmem with heq | hmem
    · cases heq
      exact ⟨n, hn, ho⟩
    · exact ih _ _ hrest a o hmem

theorem dllseg_first (m : heap) (nodes : List (Nat × cache_obj))
    (prev first last nxt : Option Nat) (h : dllseg m prev nodes first last nxt) :
    first = match nodes.head? with
      | some e => some e.1
      | none => nxt := by
  cases nodes with
  | nil => exact h.1
  | cons e rest =>
    obtain ⟨a, o⟩ := e
    exact h.1

theorem dllseg_last (m : heap) (nodes : List (Nat × cache_obj))
    (prev first last nxt : Option Nat) (h : dllseg m prev nodes first last nxt) :
    last = match nodes.getLast? with
      | some e => some e.1
      | none => prev := by
  induction nodes generalizing prev first with
  | nil => exact h.2
  | cons e rest ih =>
    obtain ⟨a, o⟩ := e
    obtain ⟨-, n, -, -, -, hrest⟩ := h
    have := ih _ _ hrest
    cases rest with
    | nil => simpa using this
    | cons e2 rest2 => simpa using this

/-- Writing the `next` pointer of the last node of a segment redirects the
end of the segment. -/
theorem dllseg_set_next_last (m : heap) (A : List (Nat × cache_obj)) (q : Nat) (o : cache_obj)
    (prev first last nxt y : Option Nat)
    (hnd : ((A ++ [(q, o)]).map (·.1)).Nodup)
    (h : dllseg m prev (A ++ [(q, o)]) first last nxt) :
    dllseg (set_next m q y) prev (A ++ [(q, o)]) first last y := by
  induction A generalizing prev first with
  | nil =>
    obtain ⟨hf, n, hn, ho, hp, hl, hlast⟩ := h
    refine ⟨hf, { n with next := y }, ?_, ho, hp, rfl, hlast⟩
    rw [heap_get_set_next, if_pos rfl, hn]
    rfl
  | cons e rest ih =>
    obtain ⟨a, x⟩ := e
    obtain ⟨hf, n, hn, ho, hp, hrest⟩ := h
    have hne : a ≠ q := by
      intro heq
      simp [heq] at hnd
    have hnd' : ((rest ++ [(q, o)]).map (·.1)).Nodup := by
      simp only [List.cons_append, List.map_cons, List.nodup_cons] at hnd
      exact hnd.2
    refine ⟨hf, n, ?_, ho, hp, ih _ _ hnd' hrest⟩
    rw [heap_get_set_next, if_neg hne, hn]

/-- Writing the `prev` pointer of the first node of a segment redirects the
start of the segment. -/
theorem dllseg_set_prev_first (m : heap) (B : List (Nat × cache_obj)) (r : Nat) (o : cache_obj)
    (prev first last nxt y : Option Nat)
    (hnd : (((r, o) :: B).map (·.1)).Nodup)
    (h : dllseg m prev ((r, o) :: B) first last nxt) :
    dllseg (set_prev m r y) y ((r, o) :: B) first last nxt := by
  obtain ⟨hf, n, hn, ho, hp, hrest⟩ := h
  refine ⟨hf, { n with prev := y }, ?_, ho, rfl, ?_⟩
  · rw [heap_get_set_prev, if_pos rfl, hn]
    rfl
  · apply dllseg_frame m _ B _ _ _ _ _ hrest
    intro b hb
    have hne : b ≠ r := by
      intro heq
      subst heq
      simp only [List.map_cons, List.nodup_cons] at hnd
      exact hnd.1 hb
    rw [heap_get_set_prev, if_neg hne]

/-! ## The pointer operations keep the chain linked -/

/-- First half of `lru_detach`: the node before `p` (or `head`) is made to
lead to the node after `p`. -/
theorem detach_left (g : mem_cache) (A : List (Nat × cache_obj)) (p : Nat)
    (ml nx : Option Nat) (hnd : (A.map (·.1)).Nodup)
    (h : dllseg g.mem none A g.head ml (some p)) :
    dllseg
        (match ml with
          | some q => ({ g with mem := set_next g.mem q nx } : mem_cache)
          | none => { g with head := nx }).mem
        none A
        (match ml with
          | some q => ({ g with mem := set_next g.mem q nx } : mem_cache)
          | none => { g with head := nx }).head
        ml nx ∧
      (∀ a, a ∉ A.map (·.1) →
        heap_get
            (match ml with
              | some q => ({ g with mem := set_next g.mem q nx } : mem_cache)
              | none => { g with head := nx }).mem a = heap_get g.mem a) ∧
      (match ml with
        | some q => ({ g with mem := set_next g.mem q nx } : mem_cache)
        | none => { g with head := nx }).tail = g.tail ∧
      (match ml with
        | some q => ({ g with mem := set_next g.mem q nx } : mem_cache)
        | none => { g with head := nx }).total_size = g.total_size := by
  rcases List.eq_nil_or_concat A with hA | ⟨L, e, hA⟩
  · subst hA
    obtain ⟨-, hml⟩ := h
    subst hml
    exact ⟨⟨rfl, rfl⟩, fun _ _ => rfl, rfl, rfl⟩
  · obtain ⟨q, oq⟩ := e
    rw [List.concat_eq_append] at hA
    subst hA
    have hlast : ml = some q := by
      have := dllseg_last _ _ _ _ _ _ h
      simpa using this
    subst hlast
    refine ⟨dllseg_set_next_last _ L q oq _ _ _ _ nx hnd h, ?_, rfl, rfl⟩
    intro a ha
    have hne : a ≠ q := by
      intro heq
      apply ha
      simp [heq]
    simp only []
    rw [heap_get_set_next, if_neg hne]

/-- Second half of `lru_detach`: the node after `p` (or `tail`) is made to
lead back to the node before `p`. -/
theorem detach_right (g : mem_cache) (B : List (Nat × cache_obj)) (p : Nat)
    (pv nx : Option Nat) (hnd : (B.map (·.1)).Nodup)
    (h : dllseg g.mem (some p) B nx g.tail none) :
    dllseg
        (match nx with
          | some q => ({ g with mem := set_prev g.mem q pv } : mem_cache)
          | none => { g with tail := pv }).mem
        pv B nx
        (match nx with
          | some q => ({ g with mem := set_prev g.mem q pv } : mem_cache)
          | none => { g with tail := pv }).tail
        none ∧
      (∀ a, a ∉ B.map (·.1) →
        heap_get
            (match nx with
              | some q => ({ g with mem := set_prev g.mem q pv } : mem_cache)
              | none => { g with tail := pv }).mem a = heap_get g.mem a) ∧
      (match nx with
        | some q => ({ g with mem := set_prev g.mem q pv } : mem_cache)
        | none => { g with tail := pv }).head = g.head ∧
      (match nx with
        | some q => ({ g with mem := set_prev g.mem q pv } : mem_cache)
        | none => { g with tail := pv }).total_size = g.total_size := by
  cases B with
  | nil =>
    obtain ⟨hnx, -⟩ := h
    subst hnx
    exact ⟨⟨rfl, rfl⟩, fun _ _ => rfl, rfl, rfl⟩
  | cons e rest =>
    obtain ⟨r, orr⟩ := e
    have hnx := h.1
    subst hnx
    refine ⟨dllseg_set_prev_first _ rest r orr _ _ _ _ pv hnd h, ?_, rfl, rfl⟩
    intro a ha
    have hne : a ≠ r := by
      intro heq
      apply ha
      simp [heq]
    simp only []
    rw [heap_get_set_prev, if_neg hne]

/-- Function `lru_detach` takes the node `p` out of the chain and leaves the
rest linked from `head` to `tail`; the node itself stays allocated with its
content. -/
theorem lru_detach_mem_spec (g : mem_cache) (A B : List (Nat × cache_obj)) (p : Nat)
    (o : cache_obj) (hnd : ((A ++ (p, o) :: B).map (·.1)).Nodup)
    (h : dllseg g.mem none (A ++ (p, o) :: B) g.head g.tail none) :
    dllseg (lru_detach_mem g (some p)).mem none (A ++ B)
        (lru_detach_mem g (some p)).head (lru_detach_mem g (some p)).tail none ∧
      (∃ n, heap_get (lru_detach_mem g (some p)).mem p = some n ∧ n.obj = o) ∧
      (lru_detach_mem g (some p)).total_size = g.total_size := by
  obtain ⟨mid, ml, hA, hpB⟩ := (dllseg_append _ _ _ _ _ _ _).mp h
  obtain ⟨hmid, n, hn, ho, hp, hB⟩ := hpB
  subst hmid hp
  have hndA : (A.map (·.1)).Nodup := by
    rw [List.map_append] at hnd
    exact hnd.of_append_left
  have hndpB : (((p, o) :: B).map (·.1)).Nodup := by
    rw [List.map_append] at hnd
    exact hnd.of_append_right
  have hndB : (B.map (·.1)).Nodup := by
    simp only [List.map_cons, List.nodup_cons] at hndpB
    exact hndpB.2
  have hpB' : p ∉ B.map (·.1) := by
    simp only [List.map_cons, List.nodup_cons] at hndpB
    exact hndpB.1
  have hdisj : ∀ a, a ∈ A.map (·.1) → a ≠ p ∧ a ∉ B.map (·.1) := by
    intro a ha
    rw [List.map_append, List.nodup_append] at hnd
    have := hnd.2.2 ha
    simp only [List.map_cons, List.mem_cons] at this
    exact ⟨fun h => this (Or.inl h), fun h => this (Or.inr h)⟩
  have hpA : p ∉ A.map (·.1) := fun hm => (hdisj p hm).1 rfl
  obtain ⟨h1, f1, t1, s1⟩ := detach_left g A p n.prev n.next hndA hA
  unfold lru_detach_mem
  simp only [hn]
  generalize (match n.prev with
    | some q => ({ g with mem := set_next g.mem q n.next } : mem_cache)
    | none => { g with head := n.next }) = G1 at h1 f1 t1 s1 ⊢
  have hB1 : dllseg G1.mem (some p) B n.next G1.tail none := by
    rw [t1]
    apply dllseg_frame g.mem _ B _ _ _ _ _ hB
    intro a ha
    exact f1 a (fun hm => (hdisj a hm).2 ha)
  obtain ⟨h2, f2, hd2, s2⟩ := detach_right G1 B p n.prev n.next hndB hB1
  generalize (match n.next with
    | some q => ({ G1 with mem := set_prev G1.mem q n.prev } : mem_cache)
    | none => { G1 with tail := n.prev }) = G2 at h2 f2 hd2 s2 ⊢
  have hfinal : ∀ a, a ≠ p →
      heap_get (set_next (set_prev G2.mem p none) p none) a = heap_get G2.mem a := by
    intro a ha
    rw [heap_get_set_next, if_neg ha, heap_get_set_prev, if_neg ha]
  have hpn : heap_get G2.mem p = some n := by
    rw [f2 p hpB', f1 p hpA, hn]
  refine ⟨?_, ?_, ?_⟩
  · apply (dllseg_append _ _ _ _ _ _ _).mpr
    refine ⟨n.next, n.prev, ?_, ?_⟩
    · rw [hd2]
      apply dllseg_frame G1.mem _ A _ _ _ _ _ h1
      intro a ha
      rw [hfinal a (hdisj a ha).1, f2 a (hdisj a ha).2]
    · apply dllseg_frame G2.mem _ B _ _ _ _ _ h2
      intro a ha
      exact hfinal a (fun heq => hpB' (heq ▸ ha))
  · refine ⟨{ n with prev := none, next := none }, ?_, ho⟩
    rw [heap_get_set_next, if_pos rfl, heap_get_set_prev, if_pos rfl, hpn]
    rfl
  · rw [s2, s1]

/-- Function `lru_insert_head` puts an allocated node that is not in the
chain in front of it. -/
theorem lru_insert_head_mem_spec (g : mem_cache) (nodes : List (Nat × cache_obj)) (p : Nat)
    (o : cache_obj) (hnd : (((p, o) :: nodes).map (·.1)).Nodup)
    (hp : ∃ n, heap_get g.mem p = some n ∧ n.obj = o)
    (h : dllseg g.mem none nodes g.head g.tail none) :
    dllseg (lru_insert_head_mem g p).mem none ((p, o) :: nodes)
        (lru_insert_head_mem g p).head (lru_insert_head_mem g p).tail none ∧
      (lru_insert_head_mem g p).total_size = g.total_size := by
  obtain ⟨n, hn, ho⟩ := hp
  have hpn : p ∉ nodes.map (·.1) := by
    simp only [List.map_cons, List.nodup_cons] at hnd
    exact hnd.1
  have hndn : (nodes.map (·.1)).Nodup := by
    simp only [List.map_cons, List.nodup_cons] at hnd
    exact hnd.2
  have hm1 : ∀ v a, heap_get (set_next (set_prev g.mem p none) p v) a =
      if a = p then some { n with prev := none, next := v } else heap_get g.mem a := by
    intro v a
    by_cases hap : a = p
    · subst hap
      rw [heap_get_set_next, if_pos rfl, heap_get_set_prev, if_pos rfl, hn, if_pos rfl]
      rfl
    · rw [heap_get_set_next, if_neg hap, heap_get_set_prev, if_neg hap, if_neg hap]
  refine ⟨?_, rfl⟩
  unfold lru_insert_head_mem
  simp only []
  cases nodes with
  | nil =>
    obtain ⟨hh, ht⟩ := h
    rw [hh, ht]
    refine ⟨rfl, { n with prev := none, next := none }, ?_, ho, rfl, rfl, ?_⟩
    · rw [hm1, if_pos rfl]
    · simp [dllseg]
  | cons e rest =>
    obtain ⟨r, orr⟩ := e
    have hh : g.head = some r := h.1
    have hlast := dllseg_last _ _ _ _ _ _ h
    have htail : g.tail ≠ none := by
      rw [hlast]
      cases hgl : ((r, orr) :: rest).getLast? with
      | none => simp at hgl
      | some e2 => simp
    have hrp : r ≠ p := by
      intro heq
      apply hpn
      simp [heq]
    rw [hh]
    simp only []
    refine ⟨rfl, { n with prev := none, next := some r }, ?_, ho, rfl, ?_⟩
    · rw [heap_get_set_prev, if_neg (fun heq => hrp heq.symm), hm1, if_pos rfl]
    · simp only [if_neg htail]
      have h' : dllseg (set_next (set_prev g.mem p none) p (some r)) none ((r, orr) :: rest)
          (some r) g.tail none := by
        rw [hh] at h
        apply dllseg_frame g.mem _ _ _ _ _ _ _ h
        intro a ha
        have hap : a ≠ p := fun heq => hpn (heq ▸ ha)
        rw [hm1, if_neg hap]
      exact dllseg_set_prev_first _ rest r orr _ _ _ _ (some p) hndn h'

/-- The walk of `cache_lookup` along `next` finds the node that the lookup on
the list of nodes finds. -/
theorem cache_lookup_walk_spec (m : heap) (nodes : List (Nat × cache_obj)) (key : List Char)
    (prev first last : Option Nat) (fuel : Nat)
    (h : dllseg m prev nodes first last none) (hf : nodes.length < fuel) :
    (cache_lookup_from (nodes.map (·.2)) key = none ∧
        cache_lookup_walk fuel m first key = none) ∨
      ∃ A p o B, nodes = A ++ (p, o) :: B ∧
        cache_lookup_from (nodes.map (·.2)) key = some A.length ∧
        cache_lookup_walk fuel m first key = some p := by
  induction nodes generalizing prev first fuel with
  | nil =>
    left
    obtain ⟨hh, _⟩ := h
    subst hh
    cases fuel with
    | zero => simp at hf
    | succ f => exact ⟨rfl, rfl⟩
  | cons e rest ih =>
    obtain ⟨a, o⟩ := e
    obtain ⟨hfirst, n, hn, ho, hp, hrest⟩ := h
    subst hfirst
    cases fuel with
    | zero => simp at hf
    | succ f =>
      have hf' : rest.length < f := by simpa using hf
      by_cases hk : o.key = key
      · right
        refine ⟨[], a, o, rest, rfl, ?_, ?_⟩
        · simp [cache_lookup_from, hk]
        · simp [cache_lookup_walk, hn, ho, hk]
      · rcases ih (some a) n.next f hrest hf' with ⟨h1, h2⟩ | ⟨A, p, o', B, h1, h2, h3⟩
        · left
          refine ⟨?_, ?_⟩
          · simp only [List.map_cons, cache_lookup_from, if_neg hk, h1]
            rfl
          · simp only [cache_lookup_walk, hn, ho, if_neg hk, h2]
        · right
          refine ⟨(a, o) :: A, p, o', B, by rw [h1]; rfl, ?_, ?_⟩
          · simp only [List.map_cons, cache_lookup_from, if_neg hk, h2]
            rfl
          · simp only [cache_lookup_walk, hn, ho, if_neg hk, h3]

theorem represents_length (g : mem_cache) (nodes : List (Nat × cache_obj)) (c : cache_t)
    (h : represents g nodes c) : nodes.length ≤ g.mem.length := by
  have := length_le_heap g.mem (nodes.map (·.1)) h.1 (by
    intro a ha
    obtain ⟨e, he, rfl⟩ := List.mem_map.mp ha
    obtain ⟨n, hn, _⟩ := dllseg_allocated _ _ _ _ _ _ h.2.1 e.1 e.2 he
    rw [hn]
    simp)
  simpa using this

theorem nodup_middle (A B : List (Nat × cache_obj)) (p : Nat) (o : cache_obj)
    (hnd : ((A ++ (p, o) :: B).map (·.1)).Nodup) :
    (((p, o) :: (A ++ B)).map (·.1)).Nodup := by
  have : List.Perm ((A ++ (p, o) :: B).map (·.1)) (((p, o) :: (A ++ B)).map (·.1)) :=
    List.perm_middle.map _
  exact this.nodup_iff.mp hnd

/-- Function `cache_get` on the heap does what `cache_get` on the list of
nodes does. -/
theorem cache_get_mem_refines (g : mem_cache) (nodes : List (Nat × cache_obj)) (c : cache_t)
    (key : List Char) (h : represents g nodes c) :
    ∃ nodes', represents (cache_get_mem g key).cache nodes' (cache_get c key).cache := by
  have hlen := represents_length g nodes c h
  obtain ⟨hnd, hseg, hent, htot⟩ := h
  rcases cache_lookup_walk_spec g.mem nodes key none g.head g.tail (g.mem.length + 1) hseg
    (by omega) with ⟨h1, h2⟩ | ⟨A, p, o, B, h1, h2, h3⟩
  · refine ⟨nodes, ?_⟩
    have e1 : (cache_get_mem g key).cache = g := by
      unfold cache_get_mem cache_lookup_mem
      rw [h2]
    have e2 : (cache_get c key).cache = c := by
      unfold cache_get cache_lookup
      rw [hent, h1]
    rw [e1, e2]
    exact ⟨hnd, hseg, hent, htot⟩
  · subst h1
    obtain ⟨n, hn, ho⟩ := dllseg_allocated _ _ _ _ _ _ hseg p o (by simp)
    have e1 : (cache_get_mem g key).cache =
        lru_insert_head_mem (lru_detach_mem g (some p)) p := by
      unfold cache_get_mem cache_lookup_mem
      rw [h3]
      simp only [hn]
    have hget : c.entries.get? A.length = some o := by
      rw [hent, List.map_append, List.map_cons, List.get?_eq_getElem?,
        List.getElem?_append_right (by simp)]
      simp
    have e2 : (cache_get c key).cache =
        { entries := o :: (A ++ B).map (·.2), total_size := c.total_size } := by
      unfold cache_get cache_lookup
      rw [hent, h2, ← hent]
      simp only [hget]
      unfold lru_insert_head lru_detach
      simp only [hent, List.map_append, List.map_cons]
      rw [List.eraseIdx_append_of_length_le (by simp)]
      simp
    obtain ⟨d1, d2, d3⟩ := lru_detach_mem_spec g A B p o hnd hseg
    have hnd' := nodup_middle A B p o hnd
    obtain ⟨i1, i2⟩ := lru_insert_head_mem_spec _ (A ++ B) p o hnd' d2 d1
    refine ⟨(p, o) :: (A ++ B), ?_⟩
    rw [e1, e2]
    exact ⟨hnd', i1, rfl, by rw [i2, d3]; exact htot⟩

/-- A node that was detached and is then freed leaves the chain of the other
nodes as it is. -/
theorem detach_free_spec (g : mem_cache) (A B : List (Nat × cache_obj)) (p : Nat)
    (o : cache_obj) (hnd : ((A ++ (p, o) :: B).map (·.1)).Nodup)
    (h : dllseg g.mem none (A ++ (p, o) :: B) g.head g.tail none) :
    dllseg (heap_free (lru_detach_mem g (some p)).mem p) none (A ++ B)
        (lru_detach_mem g (some p)).head (lru_detach_mem g (some p)).tail none ∧
      ((A ++ B).map (·.1)).Nodup ∧
      (lru_detach_mem g (some p)).total_size = g.total_size := by
  obtain ⟨d1, _, d3⟩ := lru_detach_mem_spec g A B p o hnd h
  have hnd' := nodup_middle A B p o hnd
  simp only [List.map_cons, List.nodup_cons] at hnd'
  refine ⟨?_, hnd'.2, d3⟩
  apply dllseg_frame _ _ _ _ _ _ _ _ d1
  intro a ha
  have hne : a ≠ p := by
    intro heq
    subst heq
    exact hnd'.1 ha
  rw [heap_get_free, if_neg hne]

/-- The first step of `cache_put` on the heap does what it does on the list
of nodes. -/
theorem cache_put_discard_old_mem_refines (g : mem_cache) (nodes : List (Nat × cache_obj))
    (c : cache_t) (key : List Char) (h : represents g nodes c) :
    ∃ nodes', represents (cache_put_discard_old_mem g key) nodes'
      (cache_put_discard_old c key) := by
  have hlen := represents_length g nodes c h
  obtain ⟨hnd, hseg, hent, htot⟩ := h
  rcases cache_lookup_walk_spec g.mem nodes key none g.head g.tail (g.mem.length + 1) hseg
    (by omega) with ⟨h1, h2⟩ | ⟨A, p, o, B, h1, h2, h3⟩
  · refine ⟨nodes, ?_⟩
    have e1 : cache_put_discard_old_mem g key = g := by
      unfold cache_put_discard_old_mem cache_lookup_mem
      rw [h2]
    have e2 : cache_put_discard_old c key = c := by
      unfold cache_put_discard_old cache_lookup
      rw [hent, h1]
    rw [e1, e2]
    exact ⟨hnd, hseg, hent, htot⟩
  · subst h1
    obtain ⟨n, hn, ho⟩ := dllseg_allocated _ _ _ _ _ _ hseg p o (by simp)
    have hget : c.entries.get? A.length = some o := by
      rw [hent, List.map_append, List.map_cons, List.get?_eq_getElem?,
        List.getElem?_append_right (by simp)]
      simp
    have e2 : cache_put_discard_old c key =
        { entries := (A ++ B).map (·.2)
          total_size := (c.total_size + SIZE_MOD - o.size % SIZE_MOD) % SIZE_MOD } := by
      unfold cache_put_discard_old cache_lookup
      rw [hent, h2, ← hent]
      simp only [hget]
      unfold lru_detach
      simp only [hent, List.map_append, List.map_cons]
      rw [List.eraseIdx_append_of_length_le (by simp)]
      simp
    obtain ⟨d1, d2, d3⟩ := detach_free_spec g A B p o hnd hseg
    refine ⟨A ++ B, ?_⟩
    unfold cache_put_discard_old_mem cache_lookup_mem
    rw [h3, e2]
    simp only [hn]
    exact ⟨d2, d1, rfl, by rw [d3, ho, htot]⟩

/-- The loop of `cache_del_until_enough` on the heap does what it does on the
list of nodes, whenever both are given more rounds than there are nodes. -/
theorem cache_del_loop_mem_refines (need : Nat) (f1 : Nat) :
    ∀ (f2 : Nat) (g : mem_cache) (nodes : List (Nat × cache_obj)) (c : cache_t),
      represents g nodes c → nodes.length < f1 → nodes.length < f2 →
      ∃ nodes', represents (cache_del_loop_mem f1 need g) nodes' (cache_del_loop f2 need c) := by
  induction f1 with
  | zero =>
    intro f2 g nodes c _ h1
    omega
  | succ f ih =>
    intro f2 g nodes c h h1 h2
    obtain ⟨hnd, hseg, hent, htot⟩ := h
    cases f2 with
    | zero => omega
    | succ f2 =>
      unfold cache_del_loop_mem cache_del_loop
      rw [htot]
      by_cases ht : (g.total_size + need) % SIZE_MOD > MAX_CACHE_SIZE
      · rw [if_pos ht, if_pos ht]
        rcases List.eq_nil_or_concat nodes with hnil | ⟨A, e, hA⟩
        · subst hnil
          have htl : g.tail = none := hseg.2
          have hct : c.tail = none := by
            unfold cache_t.tail
            rw [hent]
            rfl
          rw [htl, hct]
          exact ⟨[], hnd, hseg, hent, htot⟩
        · rw [List.concat_eq_append] at hA
          subst hA
          obtain ⟨vic, o⟩ := e
          have hlast : g.tail = some vic := by
            have := dllseg_last _ _ _ _ _ _ hseg
            simpa using this
          have hct : c.tail = some o := by
            unfold cache_t.tail
            rw [hent]
            simp
          obtain ⟨n, hn, ho⟩ := dllseg_allocated _ _ _ _ _ _ hseg vic o (by simp)
          obtain ⟨d1, d2, d3⟩ := detach_free_spec g A [] vic o hnd hseg
          rw [List.append_nil] at d1 d2
          have hdet : (lru_detach c (c.entries.length - 1)).entries = A.map (·.2) := by
            rw [(lru_detach_last c o hct).1, hent]
            simp
          rw [hlast, hct]
          simp only [hn]
          rw [hdet]
          apply ih f2 _ A _ ⟨d2, d1, rfl, ?_⟩
          · simp only [List.length_append, List.length_singleton] at h1
            omega
          · simp only [List.length_append, List.length_singleton] at h2
            omega
          · show (g.total_size + SIZE_MOD - o.size % SIZE_MOD) % SIZE_MOD = _
            rw [d3, ho]
      · rw [if_neg ht, if_neg ht]
        exact ⟨nodes, hnd, hseg, hent, htot⟩

/-- Function `cache_put` on the heap does what `cache_put` on the list of
nodes does, when the allocator returns an address that is not in use. -/
theorem cache_put_mem_refines (MAXLINE : Nat) (alloc : heap → Nat)
    (halloc : ∀ m, heap_get m (alloc m) = none)
    (g : mem_cache) (nodes : List (Nat × cache_obj)) (c : cache_t)
    (key data : List Char) (h : represents g nodes c) :
    ∃ nodes', represents (cache_put_mem MAXLINE alloc g key data) nodes'
      (cache_put MAXLINE c key data) := by
  unfold cache_put_mem cache_put
  simp only []
  by_cases hsz : data.length > MAX_CACHE_SIZE
  · rw [if_pos hsz, if_pos hsz]
    exact ⟨nodes, h⟩
  · rw [if_neg hsz, if_neg hsz]
    obtain ⟨nodes1, h1⟩ := cache_put_discard_old_mem_refines g nodes c key h
    have hlen1 := represents_length _ _ _ h1
    have hlen1' : nodes1.length = (cache_put_discard_old c key).entries.length := by
      rw [h1.2.2.1, List.length_map]
    obtain ⟨nodes2, h2⟩ := cache_del_loop_mem_refines data.length
      ((cache_put_discard_old_mem g key).mem.length + 1)
      ((cache_put_discard_old c key).entries.length + 1) _ nodes1 _ h1 (by omega) (by omega)
    have h2' : represents (cache_del_until_enough_mem data.length
        (cache_put_discard_old_mem g key)) nodes2
        (cache_del_until_enough data.length (cache_put_discard_old c key)) := h2
    generalize cache_del_until_enough_mem data.length (cache_put_discard_old_mem g key) = G2
      at h2' ⊢
    generalize cache_del_until_enough data.length (cache_put_discard_old c key) = C2
      at h2' ⊢
    obtain ⟨hnd, hseg, hent, htot⟩ := h2'
    have hfresh := halloc G2.mem
    have hnotin : alloc G2.mem ∉ nodes2.map (·.1) := by
      intro hm
      obtain ⟨e, he, heq⟩ := List.mem_map.mp hm
      obtain ⟨n, hn, _⟩ := dllseg_allocated _ _ _ _ _ _ hseg e.1 e.2 he
      rw [heq, hfresh] at hn
      cases hn
    have hnd' : (((alloc G2.mem,
        ({ key := strncpy key MAXLINE, data := data, size := data.length } : cache_obj)) ::
          nodes2).map (·.1)).Nodup := by
      simp only [List.map_cons, List.nodup_cons]
      exact ⟨hnotin, hnd⟩
    have hseg3 : dllseg ((alloc G2.mem,
        ({ obj := { key := strncpy key MAXLINE, data := data, size := data.length }
           prev := none, next := none } : mem_obj)) :: G2.mem) none nodes2 G2.head G2.tail
        none := by
      apply dllseg_frame _ _ _ _ _ _ _ _ hseg
      intro a ha
      have hne : alloc G2.mem ≠ a := by
        intro heq
        subst heq
        exact hnotin ha
      simp only [heap_get, if_neg hne]
    obtain ⟨i1, i2⟩ := lru_insert_head_mem_spec
      ({ G2 with mem := (alloc G2.mem,
        ({ obj := { key := strncpy key MAXLINE, data := data, size := data.length }
           prev := none, next := none } : mem_obj)) :: G2.mem } : mem_cache)
      nodes2 (alloc G2.mem) { key := strncpy key MAXLINE, data := data, size := data.length }
      hnd' ⟨_, by unfold heap_get; exact if_pos rfl, rfl⟩ hseg3
    refine ⟨_, hnd', i1, ?_, ?_⟩
    · simp only [lru_insert_head, hent, List.map_cons]
    · simp only [lru_insert_head, htot]
      rw [i2]

/-- The cache in memory after any calls holds a well-formed chain, and the
list model describes it. -/
theorem cache_run_mem_refines (MAXLINE : Nat) (alloc : heap → Nat)
    (halloc : ∀ m, heap_get m (alloc m) = none) (ops : List cache_op) :
    ∃ nodes, represents (cache_run_mem MAXLINE alloc ops) nodes (cache_run MAXLINE ops) := by
  have hgen : ∀ (l : List cache_op) (g : mem_cache) (c : cache_t),
      (∃ nodes, represents g nodes c) →
      ∃ nodes, represents (l.foldl (cache_step_mem MAXLINE alloc) g) nodes
        (l.foldl (cache_step MAXLINE) c) := by
    intro l
    induction l with
    | nil => exact fun g c h => h
    | cons op rest ih =>
      intro g c h
      obtain ⟨nodes, h⟩ := h
      apply ih
      cases op with
      | put key data => exact cache_put_mem_refines MAXLINE alloc halloc g nodes c key data h
      | get key => exact cache_get_mem_refines g nodes c key h
  apply hgen
  exact ⟨[], by simp [cache_init, cache_init_mem, represents, dllseg]⟩

theorem keys_short_get (MAXLINE : Nat) (c : cache_t) (key : List Char)
    (hs : keys_short MAXLINE c) : keys_short MAXLINE (cache_get c key).cache := by
  intro o ho
  exact hs o ((cache_get_perm c key).mem_iff.mp ho)

theorem keys_short_put (MAXLINE : Nat) (c : cache_t) (key data : List Char)
    (hk : key.length < MAXLINE) (hs : keys_short MAXLINE c) :
    keys_short MAXLINE (cache_put MAXLINE c key data) := by
  by_cases hsz : data.length ≤ MAX_CACHE_SIZE
  · intro o ho
    rw [cache_put_admitted MAXLINE c key data hsz] at ho
    rcases List.mem_cons.mp ho with rfl | ho
    · show (strncpy key MAXLINE).length < MAXLINE
      rw [strncpy_fits key MAXLINE hk]
      exact hk
    · exact hs o ((cache_put_discard_old_sublist c key).subset
        ((cache_del_until_enough_sublist _ _).subset ho))
  · unfold cache_put
    simp only []
    rw [if_pos (by omega)]
    exact hs

theorem keys_short_run (MAXLINE : Nat) (ops : List cache_op)
    (hk : put_keys_short MAXLINE ops) : keys_short MAXLINE (cache_run MAXLINE ops) := by
  have hgen : ∀ (l : List cache_op) (c : cache_t), put_keys_short MAXLINE l →
      keys_short MAXLINE c → keys_short MAXLINE (l.foldl (cache_step MAXLINE) c) := by
    intro l
    induction l with
    | nil => exact fun c _ h => h
    | cons op rest ih =>
      intro c hl h
      cases op with
      | put key data => exact ih _ hl.2 (keys_short_put MAXLINE c key data hl.1 h)
      | get key => exact ih _ hl (keys_short_get MAXLINE c key h)
  apply hgen ops _ hk
  intro o ho
  simp [cache_init] at ho

theorem size_le_sum_sizes (l : List cache_obj) (o : cache_obj) (h : o ∈ l) :
    o.size ≤ sum_sizes l := by
  unfold sum_sizes
  exact List.single_le_sum (by simp) _ (List.mem_map.mpr ⟨o, h, rfl⟩)

theorem keys_nodup_list (MAXLINE : Nat) (l : List cache_obj)
    (hu : ∀ K : List Char, K.length < MAXLINE → l.countP (fun o => o.key = K) ≤ 1)
    (hs : ∀ o, o ∈ l → o.key.length < MAXLINE) : (l.map (·.key)).Nodup := by
  induction l with
  | nil => simp
  | cons o rest ih =>
    rw [List.map_cons, List.nodup_cons]
    constructor
    · intro hm
      obtain ⟨o2, ho2, hk2⟩ := List.mem_map.mp hm
      have h1 := hu o.key (hs o (List.mem_cons_self _ _))
      rw [List.countP_cons] at h1
      simp only [decide_True, if_true] at h1
      have h2 : 0 < rest.countP (fun x => x.key = o.key) :=
        List.countP_pos_iff.mpr ⟨o2, ho2, by simpa using hk2⟩
      omega
    · apply ih
      · intro K hK
        have := hu K hK
        rw [List.countP_cons] at this
        omega
      · intro x hx
        exact hs x (List.mem_cons_of_mem _ hx)

/-- Keys that fit the key field and are held at most once each are pairwise
distinct. -/
theorem keys_nodup (MAXLINE : Nat) (c : cache_t) (hu : keys_unique MAXLINE c)
    (hs : keys_short MAXLINE c) : (c.entries.map (·.key)).Nodup :=
  keys_nodup_list MAXLINE c.entries hu hs

/-- C19: in every state of the cache reachable from `cache_init` through
`cache_put` and `cache_get` (with keys that fit the key field of a node, and
an allocator that returns an address not in use), the nodes in memory form a
doubly linked chain `nodes` at pairwise different addresses, linked by `next`
from `head` and by `prev` from `tail` with null at both ends; `head` and
`tail` are null exactly when there is no node, otherwise `head` is the address
of the first node and `tail` that of the last one; `total_size` is the sum of
the sizes of the nodes; the keys of the nodes are pairwise distinct; and the
size of every node is at most `total_size`, which is below `2 ^ 64`, so the
subtraction of a node's size from `total_size` does not wrap around. The
chain is the one of the list model. -/
theorem reachable_chain_invariant (MAXLINE : Nat) (alloc : heap → Nat) (ops : List cache_op)
    (halloc : ∀ m, heap_get m (alloc m) = none) (hkeys : put_keys_short MAXLINE ops) :
    ∃ nodes : List (Nat × cache_obj),
      (nodes.map (·.1)).Nodup ∧
      dllseg (cache_run_mem MAXLINE alloc ops).mem none nodes
        (cache_run_mem MAXLINE alloc ops).head (cache_run_mem MAXLINE alloc ops).tail none ∧
      ((cache_run_mem MAXLINE alloc ops).head = none ↔ nodes = []) ∧
      ((cache_run_mem MAXLINE alloc ops).tail = none ↔ nodes = []) ∧
      (cache_run_mem MAXLINE alloc ops).head = nodes.head?.map (·.1) ∧
      (cache_run_mem MAXLINE alloc ops).tail = nodes.getLast?.map (·.1) ∧
      (cache_run_mem MAXLINE alloc ops).total_size = sum_sizes (nodes.map (·.2)) ∧
      (nodes.map (·.2.key)).Nodup ∧
      (∀ e, e ∈ nodes → e.2.size ≤ (cache_run_mem MAXLINE alloc ops).total_size) ∧
      (cache_run_mem MAXLINE alloc ops).total_size < SIZE_MOD ∧
      nodes.map (·.2) = (cache_run MAXLINE ops).entries := by
  obtain ⟨nodes, hnd, hseg, hent, htot⟩ := cache_run_mem_refines MAXLINE alloc halloc ops
  obtain ⟨hsum, hcap⟩ := cache_run_inv MAXLINE ops
  have hu := keys_unique_run MAXLINE ops
  have hs := keys_short_run MAXLINE ops hkeys
  have hfirst := dllseg_first _ _ _ _ _ _ hseg
  have hlast := dllseg_last _ _ _ _ _ _ hseg
  have htot' : (cache_run_mem MAXLINE alloc ops).total_size = sum_sizes (nodes.map (·.2)) := by
    rw [← htot, hsum, hent]
  refine ⟨nodes, hnd, hseg, ?_, ?_, ?_, ?_, htot', ?_, ?_, ?_, hent.symm⟩
  · rw [hfirst]
    cases nodes with
    | nil => simp
    | cons e rest => simp
  · rw [hlast]
    cases hgl : nodes.getLast? with
    | none =>
      have := List.getLast?_eq_none_iff.mp hgl
      simp [this]
    | some e =>
      have hne : nodes ≠ [] := by
        intro hnil
        rw [hnil] at hgl
        simp at hgl
      simp [hne]
  · rw [hfirst]
    cases nodes.head? with
    | none => rfl
    | some e => rfl
  · rw [hlast]
    cases nodes.getLast? with
    | none => rfl
    | some e => rfl
  · have := keys_nodup MAXLINE _ hu hs
    rw [hent, List.map_map] at this
    exact this
  · intro e he
    rw [htot']
    exact size_le_sum_sizes _ _ (List.mem_map.mpr ⟨e, he, rfl⟩)
  · rw [← htot]
    have : MAX_CACHE_SIZE < SIZE_MOD := by decide
    omega

/-- The invariant of C19 on a run with a hit that moves a node, a replacement
and two fresh insertions. -/
theorem reachable_chain_invariant_witness :
    (∀ m, heap_get m (alloc_above m) = none) ∧
    put_keys_short 8192
      [.put "a".toList "xy".toList, .put "b".toList "z".toList, .get "a".toList,
        .put "c".toList "w".toList, .put "b".toList "q".toList] ∧
    ∃ nodes : List (Nat × cache_obj),
      (nodes.map (·.1)).Nodup ∧
      dllseg (cache_run_mem 8192 alloc_above
          [.put "a".toList "xy".toList, .put "b".toList "z".toList, .get "a".toList,
            .put "c".toList "w".toList, .put "b".toList "q".toList]).mem none nodes
        (cache_run_mem 8192 alloc_above
          [.put "a".toList "xy".toList, .put "b".toList "z".toList, .get "a".toList,
            .put "c".toList "w".toList, .put "b".toList "q".toList]).head
        (cache_run_mem 8192 alloc_above
          [.put "a".toList "xy".toList, .put "b".toList "z".toList, .get "a".toList,
            .put "c".toList "w".toList, .put "b".toList "q".toList]).tail none ∧
      ((cache_run_mem 8192 alloc_above
          [.put "a".toList "xy".toList, .put "b".toList "z".toList, .get "a".toList,
            .put "c".toList "w".toList, .put "b".toList "q".toList]).head = none ↔
        nodes = []) ∧
      ((cache_run_mem 8192 alloc_above
          [.put "a".toList "xy".toList, .put "b".toList "z".toList, .get "a".toList,
            .put "c".toList "w".toList, .put "b".toList "q".toList]).tail = none ↔
        nodes = []) ∧
      (cache_run_mem 8192 alloc_above
          [.put "a".toList "xy".toList, .put "b".toList "z".toList, .get "a".toList,
            .put "c".toList "w".toList, .put "b".toList "q".toList]).head =
        nodes.head?.map (·.1) ∧
      (cache_run_mem 8192 alloc_above
          [.put "a".toList "xy".toList, .put "b".toList "z".toList, .get "a".toList,
            .put "c".toList "w".toList, .put "b".toList "q".toList]).tail =
        nodes.getLast?.map (·.1) ∧
      (cache_run_mem 8192 alloc_above
          [.put "a".toList "xy".toList, .put "b".toList "z".toList, .get "a".toList,
            .put "c".toList "w".toList, .put "b".toList "q".toList]).total_size =
        sum_sizes (nodes.map (·.2)) ∧
      (nodes.map (·.2.key)).Nodup ∧
      (∀ e, e ∈ nodes → e.2.size ≤ (cache_run_mem 8192 alloc_above
          [.put "a".toList "xy".toList, .put "b".toList "z".toList, .get "a".toList,
            .put "c".toList "w".toList, .put "b".toList "q".toList]).total_size) ∧
      (cache_run_mem 8192 alloc_above
          [.put "a".toList "xy".toList, .put "b".toList "z".toList, .get "a".toList,
            .put "c".toList "w".toList, .put "b".toList "q".toList]).total_size < SIZE_MOD ∧
      nodes.map (·.2) = (cache_run 8192
          [.put "a".toList "xy".toList, .put "b".toList "z".toList, .get "a".toList,
            .put "c".toList "w".toList, .put "b".toList "q".toList]).entries :=
  ⟨heap_get_alloc_above, by simp [put_keys_short],
    reachable_chain_invariant 8192 alloc_above _ heap_get_alloc_above
      (by simp [put_keys_short])⟩

end Proxy
